import Mathlib

/-!
# Tables of `PanovaElena`: a shallow embedding of `Table.h` and `HashTable.h`

The C++ classes are embedded as pure functions on explicit states.

* `KeyType` is `uint32_t`; keys are natural numbers, and every statement that
  quantifies over all natural keys covers the 32-bit ones.  The hash multiplier
  `a` is a `uint64_t`; the product `a * key` is reduced modulo `2^64` and then
  modulo `2^32`, as the source does.
* `size`, `M`, the capacity `uint32_t(1) << M` and the probe index `hashValue + i * i`
  are natural numbers without wrap-around (for `M < 32` and `i < 2^32` the C++
  arithmetic does not wrap either); the one place where the source can wrap on small
  numbers, `size--`, is modelled with its wrap-around.
* `size_t(MAX_FILL_FACTOR * storage.size())` is `7 * n / 10`: for a capacity `2^M`
  with `M ≤ 50` the double product `0.7 * 2^M` truncates to exactly this number
  (`fillLimit_eq_double_product`).
* `throw "Empty table"` is the error `Err.emptyTable`.  The mutual recursion of
  `insertWithoutSearch` and `repack` is driven by a call-depth budget (`fuel`);
  running out of it is the error `Err.outOfFuel`, which is not a behaviour of the
  program, and the theorems below show that enough fuel always exists.
* A locator (iterator) of an array-backed table is the index of its cell; for
  separate chaining it is the pair (bucket index, position in the bucket).  Uses of an
  iterator that are undefined in the source (dereferencing `end()`, erasing through an
  iterator of another list) are the error `Err.invalidIterator`.
* Shifting a `uint32_t` by 32 or more is undefined in C++.  `hash` and `getTableSize` give
  the value of the source where its shift is defined (`1 ≤ M ≤ 32`, resp. `M < 32`);
  `hashChecked`, `getTableSizeChecked` and the operations built on them
  (`constructChecked`, `findChecked`, `insertChecked`, `eraseChecked`) make the undefined
  shifts the error `Err.undefinedShift`.
* `std::lower_bound` is the halving loop of the standard library.
* `std::vector<CellType>(n)` value-initialises its cells: key 0, `ElemType()` (the
  `default` of `Inhabited V`), both label flags false.
-/

set_option linter.unusedSectionVars false
set_option linter.unusedVariables false

namespace PanovaElena

/-- Ways in which a modelled call can fail to return a value. -/
inductive Err where
  | emptyTable
  | invalidIterator
  | outOfFuel
  | undefinedShift
deriving DecidableEq

/-- Equality of results is decidable. -/
instance instDecidableEqExcept {ε α : Type} [DecidableEq ε] [DecidableEq α] :
    DecidableEq (Except ε α)
  | .ok a, .ok b => if h : a = b then isTrue (by rw [h]) else isFalse (fun h' => h (Except.ok.inj h'))
  | .error a, .error b =>
    if h : a = b then isTrue (by rw [h]) else isFalse (fun h' => h (Except.error.inj h'))
  | .ok _, .error _ => isFalse (fun h => Except.noConfusion h)
  | .error _, .ok _ => isFalse (fun h => Except.noConfusion h)

/-! ## `Table.h`: the dispatching base class -/

/-- The operations of `DerivedType` that `Table` dispatches to. -/
structure Derived (T V L : Type) where
  find : T → Nat → Except Err L
  end_ : T → L
  insertWithoutSearch : T → Nat → V → Except Err (T × L)
  eraseWithoutSearch : T → L → Except Err T

namespace Table

variable {T V L : Type} [DecidableEq L]

/-- `Table::insert(KeyType&&, ElemType&&)`. -/
def insert (der : Derived T V L) (t : T) (key : Nat) (elem : V) :
    Except Err (T × L × Bool) :=
  match der.find t key with
  | .error e => .error e
  | .ok searchRes =>
    if searchRes ≠ der.end_ t then .ok (t, searchRes, false)
    else
      match der.insertWithoutSearch t key elem with
      | .error e => .error e
      | .ok (t', it) => .ok (t', it, true)

/-- `Table::erase(const KeyType&)`. -/
def erase (der : Derived T V L) (t : T) (key : Nat) : Except Err (T × Bool) :=
  match der.find t key with
  | .error e => .error e
  | .ok searchRes =>
    if searchRes = der.end_ t then .ok (t, false)
    else
      match der.eraseWithoutSearch t searchRes with
      | .error e => .error e
      | .ok t' => .ok (t', true)

end Table

/-! ## `HashTable`: the shared base of both hash tables -/

/-- Length of the machine word, `sizeof(uint32_t) * 8`. -/
def W : Nat := 32

/-- `HashTable::FIRST_TABLE_SIZE_DEG`. -/
def FIRST_TABLE_SIZE_DEG : Nat := 10

/-- `HashTable::getTableSize`: `uint32_t(1) << M`.  For `M < 32` this is the C++ value; for
`M ≥ 32` the C++ shift is undefined (`getTableSizeChecked`) and this is the unbounded
`2^M`. -/
def getTableSize (M : Nat) : Nat := 1 <<< M

/-- `HashTable::hash`: `(uint32_t)(a * (uint64_t)key) >> (W - M)`.  For `1 ≤ M ≤ 32` this is
the C++ value; where the C++ shift is undefined (`M = 0`, `M > 32`; `hashChecked`) the
shift count is the truncated difference `W - M`. -/
def hash (a M key : Nat) : Nat := ((a * key) % 2 ^ 64 % 2 ^ 32) >>> (W - M)

/-- `HashTable::hash` with the undefined case of its shift explicit: the count `W - M` is
computed in `uint32_t`, and `>>` on a `uint32_t` is defined only for a count below the
width 32, that is, for `1 ≤ M ≤ 32`. -/
def hashChecked (a M key : Nat) : Except Err Nat :=
  if (W + 2 ^ 32 - M % 2 ^ 32) % 2 ^ 32 < W then
    .ok (((a * key) % 2 ^ 64 % 2 ^ 32) >>> ((W + 2 ^ 32 - M % 2 ^ 32) % 2 ^ 32))
  else .error .undefinedShift

/-- `HashTable::getTableSize` with the undefined case of its shift explicit:
`uint32_t(1) << M` is defined only for `M < 32`. -/
def getTableSizeChecked (M : Nat) : Except Err Nat :=
  if M < W then .ok ((1 <<< M) % 2 ^ 32) else .error .undefinedShift

/-- `size_t(MAX_FILL_FACTOR * storage.size())` with `MAX_FILL_FACTOR = 0.7`. -/
def fillLimit (n : Nat) : Nat := 7 * n / 10

/-- The decrement `size--` of a `uint32_t`. -/
def decr32 (n : Nat) : Nat := if n = 0 then 2 ^ 32 - 1 else n - 1

/-! ## `HashTableOpenAddressing` -/

/-- `struct HashTableOpenAddressingCellLabel`. -/
structure HashTableOpenAddressingCellLabel where
  is_cell_not_empty : Bool
  is_element_was_deleted : Bool
deriving DecidableEq

/-- A cell `std::pair<std::pair<KeyType, ElemType>, HashTableOpenAddressingCellLabel>`. -/
structure OACell (V : Type) where
  key : Nat
  elem : V
  label : HashTableOpenAddressingCellLabel
deriving DecidableEq

/-- A value-initialised cell. -/
instance {V : Type} [Inhabited V] : Inhabited (OACell V) := ⟨⟨0, default, ⟨false, false⟩⟩⟩

/-- The state of a `HashTableOpenAddressing<ElemType>`. -/
structure HashTableOpenAddressing (V : Type) where
  storage : List (OACell V)
  size : Nat
  a : Nat
  M : Nat
deriving DecidableEq

namespace HashTableOpenAddressing

variable {V : Type} [Inhabited V]

/-- The constructor `HashTableOpenAddressing(M)`, with the drawn multiplier `a`. -/
def construct (M a : Nat) : HashTableOpenAddressing V :=
  { storage := List.replicate (getTableSize M) default, size := 0, a := a, M := M }

/-- `HashTable::getSize`. -/
def getSize (t : HashTableOpenAddressing V) : Nat := t.size

/-- `HashTable::isEmpty`. -/
def isEmpty (t : HashTableOpenAddressing V) : Bool := t.size == 0

/-- `HashTable::clear`. -/
def clear (t : HashTableOpenAddressing V) : HashTableOpenAddressing V :=
  { t with M := FIRST_TABLE_SIZE_DEG,
           storage := List.replicate (getTableSize FIRST_TABLE_SIZE_DEG) default,
           size := 0 }

/-- `getProbeSequenceElem`, for a storage of `n` cells. -/
def getProbeSequenceElem (n hashValue i : Nat) : Except Err Nat :=
  if n = 0 then .error .emptyTable else .ok ((hashValue + i * i) &&& (n - 1))

/-- The loop of `HashTableOpenAddressingIterator::moveIteratorToExistingValueOrEnd`;
the first argument bounds the number of iterations. -/
def moveLoop (storage : List (OACell V)) : Nat → Nat → Nat
  | 0, cell => cell
  | n + 1, cell =>
    if cell < storage.length ∧ (storage.getD cell default).label.is_cell_not_empty = false then
      moveLoop storage n (cell + 1)
    else cell

/-- `HashTableOpenAddressingIterator::moveIteratorToExistingValueOrEnd`. -/
def moveIteratorToExistingValueOrEnd (storage : List (OACell V)) (cell : Nat) : Nat :=
  moveLoop storage (storage.length - cell) cell

/-- The constructor `iterator(storage, cell)`. -/
def iterator (storage : List (OACell V)) (cell : Nat) : Nat :=
  moveIteratorToExistingValueOrEnd storage cell

/-- `HashTableOpenAddressing::begin`. -/
def begin (t : HashTableOpenAddressing V) : Nat := iterator t.storage 0

/-- `HashTableOpenAddressing::end`. -/
def end_ (t : HashTableOpenAddressing V) : Nat := iterator t.storage t.storage.length

/-- The condition under which the loop of `find` breaks at a cell. -/
def findStop (c : OACell V) (key : Nat) : Bool :=
  !c.label.is_element_was_deleted && (!c.label.is_cell_not_empty || c.key == key)

/-- The `for` loop of `find`: `n` iterations remain, the counter is `i`; the result is the
final `(i, cell)`. -/
def findLoop (storage : List (OACell V)) (key hashValue : Nat) :
    Nat → Nat → Nat → Except Err (Nat × Nat)
  | 0, i, cell => .ok (i, cell)
  | n + 1, i, _ =>
    match getProbeSequenceElem storage.length hashValue i with
    | .error e => .error e
    | .ok cell =>
      if findStop (storage.getD cell default) key then .ok (i, cell)
      else findLoop storage key hashValue n (i + 1) cell

/-- `HashTableOpenAddressing::find`. -/
def find (t : HashTableOpenAddressing V) (key : Nat) : Except Err Nat :=
  match findLoop t.storage key (hash t.a t.M key) t.storage.length 0 0 with
  | .error e => .error e
  | .ok (i, cell) =>
    if i = t.storage.length ∨
        ((t.storage.getD cell default).label.is_cell_not_empty = false ∧
         (t.storage.getD cell default).label.is_element_was_deleted = false) then
      .ok (end_ t)
    else .ok (iterator t.storage cell)

/-- The `for` loop of `insertWithoutSearch`. -/
def insertLoop (storage : List (OACell V)) (hashValue : Nat) :
    Nat → Nat → Nat → Except Err (Nat × Nat)
  | 0, i, cell => .ok (i, cell)
  | n + 1, i, _ =>
    match getProbeSequenceElem storage.length hashValue i with
    | .error e => .error e
    | .ok cell =>
      if (storage.getD cell default).label.is_cell_not_empty = false then .ok (i, cell)
      else insertLoop storage hashValue n (i + 1) cell

/-- The assignment `storage[cell].second = label`. -/
def setLabel (t : HashTableOpenAddressing V) (cell : Nat)
    (label : HashTableOpenAddressingCellLabel) : HashTableOpenAddressing V :=
  { t with storage := t.storage.set cell { (t.storage.getD cell default) with label := label } }

/-- The loop of `repack` over the old storage `tmp`, with `ins` the insertion it calls. -/
def repackLoop
    (ins : HashTableOpenAddressing V → Nat → V → Except Err (HashTableOpenAddressing V × Nat)) :
    List (OACell V) → HashTableOpenAddressing V → Except Err (HashTableOpenAddressing V)
  | [], t => .ok t
  | c :: tmp, t =>
    if c.label.is_cell_not_empty = true ∨ c.label.is_element_was_deleted = true then
      match ins t c.key c.elem with
      | .error e => .error e
      | .ok (t', it) => repackLoop ins tmp (setLabel t' it c.label)
    else repackLoop ins tmp t

/-- The body of `repack`, with `ins` the insertion it calls. -/
def repackWith
    (ins : HashTableOpenAddressing V → Nat → V → Except Err (HashTableOpenAddressing V × Nat))
    (t : HashTableOpenAddressing V) : Except Err (HashTableOpenAddressing V) :=
  repackLoop ins t.storage
    { t with M := t.M + 1, storage := List.replicate (getTableSize (t.M + 1)) default, size := 0 }

/-- `HashTableOpenAddressing::insertWithoutSearch`, with a budget for the depth of the
calls between it and `repack`. -/
def insertWithoutSearch :
    Nat → HashTableOpenAddressing V → Nat → V → Except Err (HashTableOpenAddressing V × Nat)
  | 0 => fun _ _ _ => .error .outOfFuel
  | fuel + 1 => fun t key elem =>
    match (if t.size + 1 > fillLimit t.storage.length
           then repackWith (insertWithoutSearch fuel) t else .ok t) with
    | .error e => .error e
    | .ok t1 =>
      match insertLoop t1.storage (hash t1.a t1.M key) t1.storage.length 0 0 with
      | .error e => .error e
      | .ok (i, cell) =>
        if i = t1.storage.length then
          match repackWith (insertWithoutSearch fuel) t1 with
          | .error e => .error e
          | .ok t2 => insertWithoutSearch fuel t2 key elem
        else
          let storage := t1.storage.set cell ⟨key, elem, ⟨true, false⟩⟩
          .ok ({ t1 with size := t1.size + 1, storage := storage }, iterator storage cell)

/-- `HashTableOpenAddressing::repack`. -/
def repack (fuel : Nat) (t : HashTableOpenAddressing V) :
    Except Err (HashTableOpenAddressing V) :=
  repackWith (insertWithoutSearch fuel) t

/-- `HashTableOpenAddressing::eraseWithoutSearch`; `pos` is the cell of the iterator. -/
def eraseWithoutSearch (t : HashTableOpenAddressing V) (pos : Nat) : HashTableOpenAddressing V :=
  let t1 := { t with size := decr32 t.size }
  let t2 := setLabel t1 pos { (t1.storage.getD pos default).label with is_cell_not_empty := false }
  setLabel t2 pos { (t2.storage.getD pos default).label with is_element_was_deleted := true }

/-- The table as a `DerivedType` of `Table`. -/
def derived (fuel : Nat) : Derived (HashTableOpenAddressing V) V Nat :=
  { find := find, end_ := end_,
    insertWithoutSearch := insertWithoutSearch fuel,
    eraseWithoutSearch := fun t pos => .ok (eraseWithoutSearch t pos) }

/-- `insert` of the open-addressing table (through `Table::insert`). -/
def insert (fuel : Nat) (t : HashTableOpenAddressing V) (key : Nat) (elem : V) :
    Except Err (HashTableOpenAddressing V × Nat × Bool) :=
  Table.insert (derived fuel) t key elem

/-- `erase` of the open-addressing table (through `Table::erase`). -/
def erase (t : HashTableOpenAddressing V) (key : Nat) :
    Except Err (HashTableOpenAddressing V × Bool) :=
  Table.erase (derived 0) t key

/-- The entry an iterator points to (`operator*`), or `none` for the end iterator. -/
def deref (t : HashTableOpenAddressing V) (it : Nat) : Option (Nat × V) :=
  if it = end_ t then none
  else some ((t.storage.getD it default).key, (t.storage.getD it default).elem)

/-- The value `find(key)->second`, or `none` when `find(key) == end()`. -/
def lookup (t : HashTableOpenAddressing V) (key : Nat) : Except Err (Option V) :=
  match find t key with
  | .error e => .error e
  | .ok it => .ok ((deref t it).map Prod.snd)

/-! ### Notions used to state the properties of the open-addressing table -/

/-- The cell of a storage at an index (a value-initialised cell outside the storage). -/
def cellAt (st : List (OACell V)) (i : Nat) : OACell V := st.getD i default

/-- The probe index of step `i`, when the storage is not empty. -/
def probe (n hashValue i : Nat) : Nat := (hashValue + i * i) &&& (n - 1)

/-- A bounded search for the first step `≥ i` at which `p` holds: the pure shape shared by
the loops of `find` and `insertWithoutSearch`. -/
def scan (p : Nat → Bool) (f : Nat → Nat) : Nat → Nat → Nat → Nat × Nat
  | 0, i, cell => (i, cell)
  | n + 1, i, _ => if p i then (i, f i) else scan p f n (i + 1) (f i)

/-- The cell index `find` computes on a storage for a key with hash `h`; the length of the
storage stands for `end()`. -/
def findIn (st : List (OACell V)) (key h : Nat) : Nat :=
  let r := scan (fun j => findStop (cellAt st (probe st.length h j)) key)
    (probe st.length h) st.length 0 0
  if r.1 = st.length ∨
      ((cellAt st r.2).label.is_cell_not_empty = false ∧
       (cellAt st r.2).label.is_element_was_deleted = false) then st.length
  else r.2

/-- A cell is occupied, not tombstoned, and holds the key. -/
def isLive (c : OACell V) (key : Nat) : Bool :=
  c.label.is_cell_not_empty && !c.label.is_element_was_deleted && c.key == key

/-- The storage holds the live entry `(key, elem)`. -/
def Live (st : List (OACell V)) (key : Nat) (elem : V) : Prop :=
  ∃ i, i < st.length ∧ isLive (cellAt st i) key = true ∧ (cellAt st i).elem = elem

/-- No cell carries both flags. -/
def LabelsOk (st : List (OACell V)) : Prop :=
  ∀ c ∈ st, ¬ (c.label.is_cell_not_empty = true ∧ c.label.is_element_was_deleted = true)

/-- Every live cell is the one `find` returns for its key. -/
def Fnd (t : HashTableOpenAddressing V) : Prop :=
  ∀ i key, i < t.storage.length → isLive (cellAt t.storage i) key = true →
    findIn t.storage key (hash t.a t.M key) = i

/-- The state after a successful pass of the loop of `insertWithoutSearch`: the entry is
written to the cell and `size` is incremented. -/
def place (t : HashTableOpenAddressing V) (cell key : Nat) (elem : V) :
    HashTableOpenAddressing V :=
  { t with size := t.size + 1, storage := t.storage.set cell ⟨key, elem, ⟨true, false⟩⟩ }

/-- The cell is the first one on the probe sequence of `h` that is not occupied. -/
def FreeSlot (st : List (OACell V)) (h c : Nat) : Prop :=
  ∃ s, s < st.length ∧ probe st.length h s = c ∧
    (cellAt st c).label.is_cell_not_empty = false ∧
    ∀ j, j < s → (cellAt st (probe st.length h j)).label.is_cell_not_empty = true

/-- The value at a cell index, `none` at the index that stands for `end()`. -/
def valueAt (st : List (OACell V)) (c : Nat) : Option V :=
  if c = st.length then none else some (cellAt st c).elem

/-- The occupied cells of a storage, in index order. -/
def occCells (st : List (OACell V)) : List (OACell V) :=
  st.filter (fun c => c.label.is_cell_not_empty)

/-- The result of the loop of `insertWithoutSearch` on a storage, as a pure function. -/
def freeStep (st : List (OACell V)) (h : Nat) : Nat × Nat :=
  scan (fun j => !(cellAt st (probe st.length h j)).label.is_cell_not_empty)
    (probe st.length h) st.length 0 0

/-- The number of cells whose occupied flag is set. -/
def occCount (st : List (OACell V)) : Nat :=
  st.countP (fun c => c.label.is_cell_not_empty)

/-- The number of cells that are occupied or tombstoned. -/
def usedCount (st : List (OACell V)) : Nat :=
  st.countP (fun c => c.label.is_cell_not_empty || c.label.is_element_was_deleted)

/-- How the table `tm`, in which `insertWithoutSearch` finally writes, relates to the table
`t` it was called on: it is `t` itself, or the result of one or more repacks. -/
structure Trans (t tm : HashTableOpenAddressing V) : Prop where
  a_eq : tm.a = t.a
  grown : tm = t ∨ (t.M < tm.M ∧ tm.storage.length = 2 ^ tm.M ∧
    tm.size ≤ usedCount t.storage ∧ usedCount tm.storage ≤ tm.size)
  perm : (occCells tm.storage).Perm (occCells t.storage)

/-- The state after an entry of the old storage has been reinserted by `repack` and its
cell has received the old label. -/
def put (t : HashTableOpenAddressing V) (cell key : Nat) (elem : V)
    (label : HashTableOpenAddressingCellLabel) : HashTableOpenAddressing V :=
  { t with size := t.size + 1, storage := t.storage.set cell ⟨key, elem, label⟩ }

/-- The invariant of the open-addressing table. -/
structure Good (t : HashTableOpenAddressing V) : Prop where
  wf : t.storage.length = 2 ^ t.M
  labels : LabelsOk t.storage
  fnd : Fnd t

/-- What a returning call `insertWithoutSearch t key elem` has done: it wrote the entry to
the free slot of the probe sequence in a table `tm` that is `t` or a repacked `t`. -/
def InsPost (t : HashTableOpenAddressing V) (key : Nat) (elem : V)
    (r : HashTableOpenAddressing V × Nat) : Prop :=
  ∃ tm, Trans t tm ∧ FreeSlot tm.storage (hash tm.a tm.M key) r.2 ∧
    r.1 = place tm r.2 key elem ∧ (Good t → Good tm)

/-- What a returning call of `repack` has done. -/
structure RepPost (t tr : HashTableOpenAddressing V) : Prop where
  a_eq : tr.a = t.a
  M_lt : t.M < tr.M
  wf : tr.storage.length = 2 ^ tr.M
  size_le : tr.size ≤ usedCount t.storage
  used_le : usedCount tr.storage ≤ tr.size
  perm : (occCells tr.storage).Perm (occCells t.storage)

/-- A capacity `2 ^ M` in which `N` entries can be inserted one after the other without any
repack: the fill limit is not exceeded and every probe sequence has a free slot. -/
def Roomy (N M : Nat) : Prop := N ≤ fillLimit (2 ^ M) ∧ N ≤ 2 ^ (M / 2)

/-- The invariant of the reachable states, with the bound that keeps `size--` from
wrapping around. -/
structure Inv (t : HashTableOpenAddressing V) : Prop where
  good : Good t
  occ_le : occCount t.storage ≤ t.size

/-- The states reachable from a freshly constructed table by `insert`, `erase`, `clear`. -/
inductive Reachable : HashTableOpenAddressing V → Prop
  | construct (M a : Nat) : Reachable (construct M a)
  | insert {t t' : HashTableOpenAddressing V} {fuel key : Nat} {elem : V} {it : Nat} {b : Bool} :
      Reachable t → insert fuel t key elem = .ok (t', it, b) → Reachable t'
  | erase {t t' : HashTableOpenAddressing V} {key : Nat} {b : Bool} :
      Reachable t → erase t key = .ok (t', b) → Reachable t'
  | clear {t : HashTableOpenAddressing V} : Reachable t → Reachable (clear t)

/-- The tables produced from a freshly constructed one by inserting pairwise distinct keys,
with no `erase` and no `clear`; the list holds the inserted entries, the last one first. -/
inductive Filled : HashTableOpenAddressing V → List (Nat × V) → Prop
  | construct (M a : Nat) : Filled (construct M a) []
  | insert {t t' : HashTableOpenAddressing V} {kvs : List (Nat × V)} {fuel key : Nat}
      {elem : V} {it : Nat} {b : Bool} :
      Filled t kvs → key ∉ kvs.map Prod.fst → insert fuel t key elem = .ok (t', it, b) →
      Filled t' ((key, elem) :: kvs)

/-- The table after `insert(key, elem)`; the table itself if the call does not return. -/
def afterInsert (fuel : Nat) (t : HashTableOpenAddressing V) (key : Nat) (elem : V) :
    HashTableOpenAddressing V :=
  match insert fuel t key elem with
  | .ok r => r.1
  | .error _ => t

/-- The table after `erase(key)`; the table itself if the call does not return. -/
def afterErase (t : HashTableOpenAddressing V) (key : Nat) : HashTableOpenAddressing V :=
  match erase t key with
  | .ok r => r.1
  | .error _ => t

/-- The table of the test fixture `TestHashTable` (capacity `2^3`, `a = 1`) after the
colliding keys 0, 1, 2 have been inserted with the values `'a'`, `'b'`, `'c'`. -/
def collisionTable : HashTableOpenAddressing Char :=
  afterInsert 1 (afterInsert 1 (afterInsert 1 (construct 3 1) 0 'a') 1 'b') 2 'c'

/-- The table of the test fixture after the keys `i * 2^29`, `i = 1..5`, which do not
collide, have been inserted. -/
def spreadTable : HashTableOpenAddressing Char :=
  afterInsert 1 (afterInsert 1 (afterInsert 1 (afterInsert 1 (afterInsert 1 (construct 3 1)
    (1 * 2 ^ 29) 'a') (2 * 2 ^ 29) 'b') (3 * 2 ^ 29) 'c') (4 * 2 ^ 29) 'd') (5 * 2 ^ 29) 'e'

/-- A table of capacity `2^1` with `a = 1` after `insert(0)`, `erase(0)`, `insert(2^31)`:
cell 0 is a tombstone and cell 1 is occupied. -/
def tombstoneTable : HashTableOpenAddressing Char :=
  afterInsert 1 (afterErase (afterInsert 1 (construct 1 1) 0 'a') 0) (2 ^ 31) 'b'

/-- The table of the test fixture after `insert(0)`, `erase(0)` and the inserts of the keys
`i * 2^29`, `i = 1..5`: five occupied cells and one tombstone. -/
def erasedThenFilled : HashTableOpenAddressing Char :=
  afterInsert 1 (afterInsert 1 (afterInsert 1 (afterInsert 1 (afterInsert 1
    (afterErase (afterInsert 1 (construct 3 1) 0 'z') 0)
    (1 * 2 ^ 29) 'a') (2 * 2 ^ 29) 'b') (3 * 2 ^ 29) 'c') (4 * 2 ^ 29) 'd') (5 * 2 ^ 29) 'e'

/-- `HashTableOpenAddressingIterator::operator++`. -/
def next (t : HashTableOpenAddressing V) (it : Nat) : Nat := iterator t.storage (it + 1)

/-- The positions visited by `for (it = begin(); it != end(); ++it)`, starting from `it`;
the first argument bounds the number of iterations. -/
def iterate (t : HashTableOpenAddressing V) : Nat → Nat → List Nat
  | 0, _ => []
  | n + 1, it => if it = end_ t then [] else it :: iterate t n (next t it)

/-- The positions visited by iterating from `begin()` to `end()`. -/
def positions (t : HashTableOpenAddressing V) : List Nat :=
  iterate t (t.storage.length + 1) (begin t)

/-- The constructor `HashTableOpenAddressing(M)` with the shift of `getTableSize` checked. -/
def constructChecked (M a : Nat) : Except Err (HashTableOpenAddressing V) :=
  match getTableSizeChecked M with
  | .error e => .error e
  | .ok n => .ok { storage := List.replicate n default, size := 0, a := a, M := M }

/-- The key stored in the cell of a position. -/
def keyAt (t : HashTableOpenAddressing V) (it : Nat) : Nat := (cellAt t.storage it).key

/-- Every slot on the probe sequence of the hash value `h`, steps `0 .. capacity - 1`, is
occupied. -/
def ProbesOccupied (st : List (OACell V)) (h : Nat) : Prop :=
  ∀ s, s < st.length → (cellAt st (probe st.length h s)).label.is_cell_not_empty = true

/-! ### The specification of `find`, in the words of the specification -/

/-- The slot of step `s` on the probe sequence of a key with hash `h`:
`(hash(k) + s^2) mod capacity`. -/
def specSlot (st : List (OACell V)) (h s : Nat) : Nat := (h + s ^ 2) % st.length

/-- A slot is untouched: neither occupied nor tombstoned. -/
def untouched (c : OACell V) : Bool :=
  !c.label.is_cell_not_empty && !c.label.is_element_was_deleted

/-- A slot is occupied with the key. -/
def occupiedWith (c : OACell V) (key : Nat) : Bool :=
  c.label.is_cell_not_empty && c.key == key

/-- The least step `s` in `[0, capacity)` whose slot is either untouched or occupied with
the key, if there is one. -/
def specStep (st : List (OACell V)) (key h : Nat) : Option Nat :=
  (List.range st.length).find? (fun s =>
    untouched (cellAt st (specSlot st h s)) || occupiedWith (cellAt st (specSlot st h s)) key)

/-- The specification of `find`: the slot of the least such step when it is occupied with
the key; the end sentinel (the capacity) when it is untouched or when there is no such
step. -/
def findSpec (st : List (OACell V)) (key h : Nat) : Nat :=
  match specStep st key h with
  | none => st.length
  | some s =>
    if occupiedWith (cellAt st (specSlot st h s)) key then specSlot st h s else st.length

end HashTableOpenAddressing

end PanovaElena

namespace PanovaElena

/-! ## `HashTableSeparateChaining` -/

/-- The state of a `HashTableSeparateChaining<ElemType>`: a cell is a
`std::list<std::pair<KeyType, ElemType>>`. -/
structure HashTableSeparateChaining (V : Type) where
  storage : List (List (Nat × V))
  size : Nat
  a : Nat
  M : Nat
deriving DecidableEq

namespace HashTableSeparateChaining

variable {V : Type}

/-- The constructor `HashTableSeparateChaining(M)`, with the drawn multiplier `a`. -/
def construct (M a : Nat) : HashTableSeparateChaining V :=
  { storage := List.replicate (getTableSize M) [], size := 0, a := a, M := M }

/-- `HashTable::getSize`. -/
def getSize (t : HashTableSeparateChaining V) : Nat := t.size

/-- `HashTable::isEmpty`. -/
def isEmpty (t : HashTableSeparateChaining V) : Bool := t.size == 0

/-- `HashTable::clear`. -/
def clear (t : HashTableSeparateChaining V) : HashTableSeparateChaining V :=
  { t with M := FIRST_TABLE_SIZE_DEG,
           storage := List.replicate (getTableSize FIRST_TABLE_SIZE_DEG) [],
           size := 0 }

/-- The loop of `HashTableSeparateChainingIterator::moveIteratorToExistingValueOrEnd` on an
iterator `(cell, position in the list of the cell)`; the first argument bounds the number
of iterations. -/
def moveLoop (storage : List (List (Nat × V))) : Nat → Nat × Nat → Nat × Nat
  | 0, it => it
  | n + 1, it =>
    if it.1 < storage.length - 1 ∧ it.2 = (storage.getD it.1 []).length then
      moveLoop storage n (it.1 + 1, 0)
    else it

/-- `HashTableSeparateChainingIterator::moveIteratorToExistingValueOrEnd`. -/
def moveIteratorToExistingValueOrEnd (storage : List (List (Nat × V))) (it : Nat × Nat) :
    Nat × Nat :=
  moveLoop storage (storage.length - it.1) it

/-- The constructor `iterator(storage, cell, listIterator)`. -/
def iterator (storage : List (List (Nat × V))) (cell idx : Nat) : Nat × Nat :=
  moveIteratorToExistingValueOrEnd storage (cell, idx)

/-- `HashTableSeparateChaining::begin`. -/
def begin (t : HashTableSeparateChaining V) : Nat × Nat := iterator t.storage 0 0

/-- `HashTableSeparateChaining::end`. -/
def end_ (t : HashTableSeparateChaining V) : Nat × Nat :=
  iterator t.storage (t.storage.length - 1) (t.storage.getD (t.storage.length - 1) []).length

/-- The loop `for (; it != end && it->first != key; ++it)` of `find`: the position at which
it stops, the length of the list when no entry has the key. -/
def findInList (key : Nat) : List (Nat × V) → Nat
  | [] => 0
  | e :: l => if e.1 ≠ key then findInList key l + 1 else 0

/-- `HashTableSeparateChaining::find`. -/
def find (t : HashTableSeparateChaining V) (key : Nat) : Except Err (Nat × Nat) :=
  let hashValue := hash t.a t.M key
  let idx := findInList key (t.storage.getD hashValue [])
  if idx = (t.storage.getD hashValue []).length then .ok (end_ t)
  else .ok (iterator t.storage hashValue idx)

/-- The inner loop of `repack` over one old list, with `ins` the insertion it calls. -/
def repackBucket
    (ins : HashTableSeparateChaining V → Nat → V →
      Except Err (HashTableSeparateChaining V × (Nat × Nat))) :
    List (Nat × V) → HashTableSeparateChaining V → Except Err (HashTableSeparateChaining V)
  | [], t => .ok t
  | e :: l, t =>
    match ins t e.1 e.2 with
    | .error err => .error err
    | .ok (t', _) => repackBucket ins l t'

/-- The outer loop of `repack` over the old storage `tmp`. -/
def repackLoop
    (ins : HashTableSeparateChaining V → Nat → V →
      Except Err (HashTableSeparateChaining V × (Nat × Nat))) :
    List (List (Nat × V)) → HashTableSeparateChaining V →
      Except Err (HashTableSeparateChaining V)
  | [], t => .ok t
  | b :: tmp, t =>
    match repackBucket ins b t with
    | .error err => .error err
    | .ok t' => repackLoop ins tmp t'

/-- The body of `repack`, with `ins` the insertion it calls. -/
def repackWith
    (ins : HashTableSeparateChaining V → Nat → V →
      Except Err (HashTableSeparateChaining V × (Nat × Nat)))
    (t : HashTableSeparateChaining V) : Except Err (HashTableSeparateChaining V) :=
  repackLoop ins t.storage
    { t with M := t.M + 1, storage := List.replicate (getTableSize (t.M + 1)) [], size := 0 }

/-- `HashTableSeparateChaining::insertWithoutSearch`, with a budget for the depth of the
calls between it and `repack`. -/
def insertWithoutSearch :
    Nat → HashTableSeparateChaining V → Nat → V →
      Except Err (HashTableSeparateChaining V × (Nat × Nat))
  | 0 => fun _ _ _ => .error .outOfFuel
  | fuel + 1 => fun t key elem =>
    match (if t.size + 1 > fillLimit t.storage.length
           then repackWith (insertWithoutSearch fuel) t else .ok t) with
    | .error e => .error e
    | .ok t1 =>
      let hashValue := hash t1.a t1.M key
      let storage := t1.storage.set hashValue ((key, elem) :: t1.storage.getD hashValue [])
      .ok ({ t1 with storage := storage, size := t1.size + 1 }, iterator storage hashValue 0)

/-- `HashTableSeparateChaining::repack`. -/
def repack (fuel : Nat) (t : HashTableSeparateChaining V) :
    Except Err (HashTableSeparateChaining V) :=
  repackWith (insertWithoutSearch fuel) t

/-- `HashTableSeparateChaining::eraseWithoutSearch`.  Dereferencing an iterator that points
to no entry, and erasing from one list through an iterator of another, are undefined in the
source and are the error `Err.invalidIterator` here. -/
def eraseWithoutSearch (t : HashTableSeparateChaining V) (pos : Nat × Nat) :
    Except Err (HashTableSeparateChaining V) :=
  match (t.storage.getD pos.1 [])[pos.2]? with
  | none => .error .invalidIterator
  | some e =>
    let hashValue := hash t.a t.M e.1
    if hashValue = pos.1 then
      .ok { t with storage := t.storage.set hashValue
                     ((t.storage.getD hashValue []).eraseIdx pos.2),
                   size := decr32 t.size }
    else .error .invalidIterator

/-- The table as a `DerivedType` of `Table`. -/
def derived (fuel : Nat) : Derived (HashTableSeparateChaining V) V (Nat × Nat) :=
  { find := find, end_ := end_,
    insertWithoutSearch := insertWithoutSearch fuel,
    eraseWithoutSearch := eraseWithoutSearch }

/-- `insert` of the separate-chaining table (through `Table::insert`). -/
def insert (fuel : Nat) (t : HashTableSeparateChaining V) (key : Nat) (elem : V) :
    Except Err (HashTableSeparateChaining V × (Nat × Nat) × Bool) :=
  Table.insert (derived fuel) t key elem

/-- `erase` of the separate-chaining table (through `Table::erase`). -/
def erase (t : HashTableSeparateChaining V) (key : Nat) :
    Except Err (HashTableSeparateChaining V × Bool) :=
  Table.erase (derived 0) t key

/-- The entry an iterator points to (`operator*`), or `none` for the end iterator. -/
def deref (t : HashTableSeparateChaining V) (it : Nat × Nat) : Option (Nat × V) :=
  if it = end_ t then none else (t.storage.getD it.1 [])[it.2]?

/-- The value `find(key)->second`, or `none` when `find(key) == end()`. -/
def lookup (t : HashTableSeparateChaining V) (key : Nat) : Except Err (Option V) :=
  match find t key with
  | .error e => .error e
  | .ok it => .ok ((deref t it).map Prod.snd)

/-! ### Notions used to state the properties of the separate-chaining table -/

/-- The first entry of a list that has the key: the entry at which the loop of `find`
stops. -/
def firstWith (key : Nat) (l : List (Nat × V)) : Option (Nat × V) := l[findInList key l]?

/-- All entries of a storage, list after list. -/
def entries (st : List (List (Nat × V))) : List (Nat × V) := st.flatten

/-- The state after the entry has been prepended to the list of its hash value. -/
def push (t : HashTableSeparateChaining V) (key : Nat) (elem : V) :
    HashTableSeparateChaining V :=
  { t with storage := t.storage.set (hash t.a t.M key)
             ((key, elem) :: t.storage.getD (hash t.a t.M key) []),
           size := t.size + 1 }

/-- The state after the entry at position `idx` of the list of cell `h` has been unlinked. -/
def unlink (t : HashTableSeparateChaining V) (h idx : Nat) : HashTableSeparateChaining V :=
  { t with storage := t.storage.set h ((t.storage.getD h []).eraseIdx idx),
           size := decr32 t.size }

/-- Every entry is in the list of its hash value. -/
def Placed (t : HashTableSeparateChaining V) : Prop :=
  ∀ i, i < t.storage.length → ∀ e ∈ t.storage.getD i [], hash t.a t.M e.1 = i

/-- What every table produced by `repack` satisfies. -/
structure Built (t : HashTableSeparateChaining V) : Prop where
  wf : t.storage.length = 2 ^ t.M
  placed : Placed t
  size_eq : t.size = (entries t.storage).length

/-- How the table `tm`, in which `insertWithoutSearch` finally writes, relates to the table
`t` it was called on. -/
structure Trans (t tm : HashTableSeparateChaining V) : Prop where
  a_eq : tm.a = t.a
  grown : (tm = t ∧ t.size + 1 ≤ fillLimit t.storage.length) ∨ (t.M < tm.M ∧ Built tm)
  perm : (entries tm.storage).Perm (entries t.storage)

/-- What a returning call `insertWithoutSearch t key elem` has done. -/
def InsPost (t : HashTableSeparateChaining V) (key : Nat) (elem : V)
    (r : HashTableSeparateChaining V × (Nat × Nat)) : Prop :=
  ∃ tm, Trans t tm ∧ r.1 = push tm key elem ∧
    r.2 = iterator (push tm key elem).storage (hash tm.a tm.M key) 0

/-- The invariant of the reachable states. -/
structure Inv (t : HashTableSeparateChaining V) : Prop where
  built : Built t
  nodup : ((entries t.storage).map Prod.fst).Nodup
  load : t.size ≤ fillLimit t.storage.length

/-- The states reachable from a freshly constructed table by `insert`, `erase`, `clear`. -/
inductive Reachable : HashTableSeparateChaining V → Prop
  | construct (M a : Nat) : Reachable (construct M a)
  | insert {t t' : HashTableSeparateChaining V} {fuel key : Nat} {elem : V} {it : Nat × Nat}
      {b : Bool} : Reachable t → insert fuel t key elem = .ok (t', it, b) → Reachable t'
  | erase {t t' : HashTableSeparateChaining V} {key : Nat} {b : Bool} :
      Reachable t → erase t key = .ok (t', b) → Reachable t'
  | clear {t : HashTableSeparateChaining V} : Reachable t → Reachable (clear t)

/-- The table after `insert(key, elem)`; the table itself if the call does not return. -/
def afterInsert (fuel : Nat) (t : HashTableSeparateChaining V) (key : Nat) (elem : V) :
    HashTableSeparateChaining V :=
  match insert fuel t key elem with
  | .ok r => r.1
  | .error _ => t

/-- The table of the test fixture `TestHashTable` (capacity `2^3`, `a = 1`) after the
colliding keys 0, 1, 2 have been inserted with the values `'a'`, `'b'`, `'c'`. -/
def collisionTable : HashTableSeparateChaining Char :=
  afterInsert 1 (afterInsert 1 (afterInsert 1 (construct 3 1) 0 'a') 1 'b') 2 'c'

/-- The table of the test fixture after the keys `i * 2^29`, `i = 1..5`, which do not
collide, have been inserted. -/
def spreadTable : HashTableSeparateChaining Char :=
  afterInsert 1 (afterInsert 1 (afterInsert 1 (afterInsert 1 (afterInsert 1 (construct 3 1)
    (1 * 2 ^ 29) 'a') (2 * 2 ^ 29) 'b') (3 * 2 ^ 29) 'c') (4 * 2 ^ 29) 'd') (5 * 2 ^ 29) 'e'

/-- The tables produced from a freshly constructed one by inserting pairwise distinct keys,
with no `erase` and no `clear`; the list holds the inserted entries, the last one first. -/
inductive Filled : HashTableSeparateChaining V → List (Nat × V) → Prop
  | construct (M a : Nat) : Filled (construct M a) []
  | insert {t t' : HashTableSeparateChaining V} {kvs : List (Nat × V)} {fuel key : Nat}
      {elem : V} {it : Nat × Nat} {b : Bool} :
      Filled t kvs → key ∉ kvs.map Prod.fst → insert fuel t key elem = .ok (t', it, b) →
      Filled t' ((key, elem) :: kvs)

/-- The constructor `HashTableSeparateChaining(M)` with the shift of `getTableSize`
checked. -/
def constructChecked (M a : Nat) : Except Err (HashTableSeparateChaining V) :=
  match getTableSizeChecked M with
  | .error e => .error e
  | .ok n => .ok { storage := List.replicate n [], size := 0, a := a, M := M }

/-- `HashTableSeparateChaining::find` with the shift of `hash` checked. -/
def findChecked (t : HashTableSeparateChaining V) (key : Nat) : Except Err (Nat × Nat) :=
  match hashChecked t.a t.M key with
  | .error e => .error e
  | .ok hashValue =>
    let idx := findInList key (t.storage.getD hashValue [])
    if idx = (t.storage.getD hashValue []).length then .ok (end_ t)
    else .ok (iterator t.storage hashValue idx)

/-- The table as a `DerivedType` of `Table`, with the `find` that checks the shift. -/
def derivedChecked (fuel : Nat) : Derived (HashTableSeparateChaining V) V (Nat × Nat) :=
  { find := findChecked, end_ := end_,
    insertWithoutSearch := insertWithoutSearch fuel,
    eraseWithoutSearch := eraseWithoutSearch }

/-- `insert` of the separate-chaining table (through `Table::insert`), with the shift of
the `hash` in its `find` checked. -/
def insertChecked (fuel : Nat) (t : HashTableSeparateChaining V) (key : Nat) (elem : V) :
    Except Err (HashTableSeparateChaining V × (Nat × Nat) × Bool) :=
  Table.insert (derivedChecked fuel) t key elem

/-- `erase` of the separate-chaining table (through `Table::erase`), with the shift of the
`hash` in its `find` checked. -/
def eraseChecked (t : HashTableSeparateChaining V) (key : Nat) :
    Except Err (HashTableSeparateChaining V × Bool) :=
  Table.erase (derivedChecked 0) t key

/-- `HashTableSeparateChainingIterator::operator++`: `++listIterator`, then
`moveIteratorToExistingValueOrEnd`. -/
def next (t : HashTableSeparateChaining V) (it : Nat × Nat) : Nat × Nat :=
  moveIteratorToExistingValueOrEnd t.storage (it.1, it.2 + 1)

/-- The positions visited by `for (it = begin(); it != end(); ++it)`, starting from `it`;
the first argument bounds the number of iterations. -/
def iterate (t : HashTableSeparateChaining V) : Nat → Nat × Nat → List (Nat × Nat)
  | 0, _ => []
  | n + 1, it => if it = end_ t then [] else it :: iterate t n (next t it)

/-- The positions visited by iterating from `begin()` to `end()`. -/
def positions (t : HashTableSeparateChaining V) : List (Nat × Nat) :=
  iterate t ((entries t.storage).length + 1) (begin t)

/-- The entry at a position `(cell, position in the list of the cell)`. -/
def entryAt (t : HashTableSeparateChaining V) (it : Nat × Nat) : Option (Nat × V) :=
  (t.storage.getD it.1 [])[it.2]?

/-- The positions of all entries of the lists `bs`, list after list, when the first of them
is the list of cell `c`. -/
def slots (c : Nat) : List (List (Nat × V)) → List (Nat × Nat)
  | [] => []
  | b :: bs => (List.range b.length).map (fun j => (c, j)) ++ slots (c + 1) bs

end HashTableSeparateChaining

end PanovaElena

namespace PanovaElena

/-! ## `UnsortedTable` -/

/-- The state of an `UnsortedTable<ElemType>`; an iterator is an index into the vector. -/
structure UnsortedTable (V : Type) where
  storage : List (Nat × V)
deriving DecidableEq

namespace UnsortedTable

variable {V : Type}

/-- `UnsortedTable::begin`. -/
def begin (_t : UnsortedTable V) : Nat := 0

/-- `UnsortedTable::end`. -/
def end_ (t : UnsortedTable V) : Nat := t.storage.length

/-- `TableByArray::getSize`. -/
def getSize (t : UnsortedTable V) : Nat := t.storage.length

/-- `TableByArray::isEmpty`. -/
def isEmpty (t : UnsortedTable V) : Bool := t.storage.length == 0

/-- `TableByArray::clear`. -/
def clear (_t : UnsortedTable V) : UnsortedTable V := { storage := [] }

/-- The loop `for (; it != end() && it->first != key; ++it)` of `find`, as the number of
steps it makes on the rest of the vector. -/
def findLoop (key : Nat) : List (Nat × V) → Nat
  | [] => 0
  | e :: l => if e.1 ≠ key then findLoop key l + 1 else 0

/-- `UnsortedTable::find`. -/
def find (t : UnsortedTable V) (key : Nat) : Except Err Nat :=
  .ok (begin t + findLoop key t.storage)

/-- `UnsortedTable::insertWithoutSearch`: `push_back`, and the iterator `end() - 1`. -/
def insertWithoutSearch (t : UnsortedTable V) (key : Nat) (elem : V) :
    Except Err (UnsortedTable V × Nat) :=
  let storage := t.storage ++ [(key, elem)]
  .ok ({ storage := storage }, storage.length - 1)

/-- `UnsortedTable::eraseWithoutSearch`: swap with the last entry, then `pop_back`.  An
iterator that points to no entry is undefined in the source and an error here. -/
def eraseWithoutSearch (t : UnsortedTable V) (pos : Nat) : Except Err (UnsortedTable V) :=
  match t.storage[pos]?, t.storage.getLast? with
  | some _, some last => .ok { storage := (t.storage.set pos last).dropLast }
  | _, _ => .error .invalidIterator

/-- The table as a `DerivedType` of `Table`. -/
def derived : Derived (UnsortedTable V) V Nat :=
  { find := find, end_ := end_, insertWithoutSearch := insertWithoutSearch,
    eraseWithoutSearch := eraseWithoutSearch }

/-- `insert` of the unsorted table (through `Table::insert`). -/
def insert (t : UnsortedTable V) (key : Nat) (elem : V) : Except Err (UnsortedTable V × Nat × Bool) :=
  Table.insert derived t key elem

/-- `erase` of the unsorted table (through `Table::erase`). -/
def erase (t : UnsortedTable V) (key : Nat) : Except Err (UnsortedTable V × Bool) :=
  Table.erase derived t key

/-- The states reachable from an empty table by `insert`, `erase`, `clear`. -/
inductive Reachable : UnsortedTable V → Prop
  | empty : Reachable { storage := [] }
  | insert {t t' : UnsortedTable V} {key : Nat} {elem : V} {it : Nat} {b : Bool} :
      Reachable t → insert t key elem = .ok (t', it, b) → Reachable t'
  | erase {t t' : UnsortedTable V} {key : Nat} {b : Bool} :
      Reachable t → erase t key = .ok (t', b) → Reachable t'
  | clear {t : UnsortedTable V} : Reachable t → Reachable (clear t)

end UnsortedTable

/-! ## `SortedTable` -/

/-- The state of a `SortedTable<ElemType>`; an iterator is an index into the vector. -/
structure SortedTable (V : Type) where
  storage : List (Nat × V)
deriving DecidableEq

namespace SortedTable

variable {V : Type}

/-- `SortedTable::begin`. -/
def begin (_t : SortedTable V) : Nat := 0

/-- `SortedTable::end`. -/
def end_ (t : SortedTable V) : Nat := t.storage.length

/-- `TableByArray::getSize`. -/
def getSize (t : SortedTable V) : Nat := t.storage.length

/-- `TableByArray::isEmpty`. -/
def isEmpty (t : SortedTable V) : Bool := t.storage.length == 0

/-- `TableByArray::clear`. -/
def clear (_t : SortedTable V) : SortedTable V := { storage := [] }

/-- The loop of `std::lower_bound` with the comparison `a.first < b.first`: while
`len > 0`, halve the range `[first, first + len)`.  The first argument bounds the number of
iterations; `len` iterations always suffice. -/
def lowerBoundLoop (storage : List (Nat × V)) (key : Nat) : Nat → Nat → Nat → Nat
  | 0, first, _ => first
  | n + 1, first, len =>
    if len = 0 then first
    else if (storage[first + len / 2]?.map Prod.fst).any (fun k => decide (k < key)) then
      lowerBoundLoop storage key n (first + len / 2 + 1) (len - len / 2 - 1)
    else
      lowerBoundLoop storage key n first (len / 2)

/-- `std::lower_bound(storage.begin(), storage.end(), (key, ElemType()), comp)`. -/
def lower_bound (storage : List (Nat × V)) (key : Nat) : Nat :=
  lowerBoundLoop storage key storage.length 0 storage.length

/-- `SortedTable::find`. -/
def find (t : SortedTable V) (key : Nat) : Except Err Nat :=
  let searchRes := lower_bound t.storage key
  if searchRes = t.storage.length ∨ t.storage[searchRes]?.map Prod.fst ≠ some key then
    .ok (end_ t)
  else .ok searchRes

/-- The loop `for (; it != storage.end() && it->first < key; ++it)` of
`insertWithoutSearch`, as the number of steps it makes on the rest of the vector. -/
def skipLess (key : Nat) : List (Nat × V) → Nat
  | [] => 0
  | e :: l => if e.1 < key then skipLess key l + 1 else 0

/-- `SortedTable::insertWithoutSearch`. -/
def insertWithoutSearch (t : SortedTable V) (key : Nat) (elem : V) :
    Except Err (SortedTable V × Nat) :=
  let it := skipLess key t.storage
  .ok ({ storage := t.storage.insertIdx it (key, elem) }, it)

/-- `SortedTable::eraseWithoutSearch`: `storage.erase(pos)`.  An iterator that points to no
entry is undefined in the source and an error here. -/
def eraseWithoutSearch (t : SortedTable V) (pos : Nat) : Except Err (SortedTable V) :=
  if pos < t.storage.length then .ok { storage := t.storage.eraseIdx pos }
  else .error .invalidIterator

/-- The table as a `DerivedType` of `Table`. -/
def derived : Derived (SortedTable V) V Nat :=
  { find := find, end_ := end_, insertWithoutSearch := insertWithoutSearch,
    eraseWithoutSearch := eraseWithoutSearch }

/-- `insert` of the sorted table (through `Table::insert`). -/
def insert (t : SortedTable V) (key : Nat) (elem : V) : Except Err (SortedTable V × Nat × Bool) :=
  Table.insert derived t key elem

/-- `erase` of the sorted table (through `Table::erase`). -/
def erase (t : SortedTable V) (key : Nat) : Except Err (SortedTable V × Bool) :=
  Table.erase derived t key

/-- The states reachable from an empty table by `insert`, `erase`, `clear`. -/
inductive Reachable : SortedTable V → Prop
  | empty : Reachable { storage := [] }
  | insert {t t' : SortedTable V} {key : Nat} {elem : V} {it : Nat} {b : Bool} :
      Reachable t → insert t key elem = .ok (t', it, b) → Reachable t'
  | erase {t t' : SortedTable V} {key : Nat} {b : Bool} :
      Reachable t → erase t key = .ok (t', b) → Reachable t'
  | clear {t : SortedTable V} : Reachable t → Reachable (clear t)

/-- The keys of the stored entries are in strictly ascending order. -/
def Ascending (t : SortedTable V) : Prop := (t.storage.map Prod.fst).Pairwise (fun a b => a < b)

end SortedTable

end PanovaElena

/-! # Theorems -/

namespace PanovaElena

theorem getTableSize_eq (M : Nat) : getTableSize M = 2 ^ M := Nat.one_shiftLeft M

theorem fillLimit_mono {m n : Nat} (h : m ≤ n) : fillLimit m ≤ fillLimit n := by
  unfold fillLimit
  exact Nat.div_le_div_right (Nat.mul_le_mul_left 7 h)

/-- The double nearest to `0.7` is `3152519739159347 / 2^52`, and its product with `2^M` is
exact; truncated to an integer it is `fillLimit (2^M)` for every exponent up to 50. -/
theorem fillLimit_eq_double_product (M : Nat) (h : M ≤ 50) :
    3152519739159347 * 2 ^ M / 2 ^ 52 = fillLimit (2 ^ M) := by
  interval_cases M <;> decide

namespace HashTableOpenAddressing

variable {V : Type} [Inhabited V]

/-! ## Cells, probes and the two loops -/

theorem cellAt_of_lt (st : List (OACell V)) (i : Nat) (h : i < st.length) :
    cellAt st i = st[i] := by
  simp [cellAt, List.getD_eq_getElem?_getD, List.getElem?_eq_getElem h]

theorem cellAt_mem (st : List (OACell V)) (i : Nat) (h : i < st.length) : cellAt st i ∈ st := by
  rw [cellAt_of_lt st i h]; exact List.getElem_mem h

theorem cellAt_set_self (st : List (OACell V)) (i : Nat) (c : OACell V) (h : i < st.length) :
    cellAt (st.set i c) i = c := by
  simp [cellAt, List.getD_eq_getElem?_getD, List.getElem?_set, h]

theorem cellAt_set_ne (st : List (OACell V)) (i j : Nat) (c : OACell V) (h : i ≠ j) :
    cellAt (st.set i c) j = cellAt st j := by
  simp [cellAt, List.getD_eq_getElem?_getD, List.getElem?_set, h]

theorem cellAt_replicate (n i : Nat) :
    cellAt (List.replicate n (default : OACell V)) i = default := by
  simp only [cellAt, List.getD_eq_getElem?_getD, List.getElem?_replicate]
  split <;> rfl

theorem probe_lt (n h i : Nat) (hn : 0 < n) : probe n h i < n := by
  have : (h + i * i) &&& (n - 1) ≤ n - 1 := Nat.and_le_right
  unfold probe; omega

theorem scan_fst_ge (p : Nat → Bool) (f : Nat → Nat) :
    ∀ n i c, i ≤ (scan p f n i c).1 := by
  intro n
  induction n with
  | zero => intro i c; simp [scan]
  | succ n ih =>
    intro i c
    unfold scan
    split
    · simp
    · exact Nat.le_trans (Nat.le_succ i) (ih (i + 1) (f i))

theorem scan_fst_le (p : Nat → Bool) (f : Nat → Nat) :
    ∀ n i c, (scan p f n i c).1 ≤ i + n := by
  intro n
  induction n with
  | zero => intro i c; simp [scan]
  | succ n ih =>
    intro i c
    unfold scan
    split
    · simp
    · have := ih (i + 1) (f i); omega

theorem scan_before (p : Nat → Bool) (f : Nat → Nat) :
    ∀ n i c j, i ≤ j → j < (scan p f n i c).1 → p j = false := by
  intro n
  induction n with
  | zero => intro i c j h1 h2; simp [scan] at h2; omega
  | succ n ih =>
    intro i c j h1 h2
    unfold scan at h2
    split at h2
    · simp at h2; omega
    · rename_i hp
      rcases Nat.eq_or_lt_of_le h1 with h | h
      · subst h; simpa using hp
      · exact ih (i + 1) (f i) j h h2

theorem scan_at (p : Nat → Bool) (f : Nat → Nat) :
    ∀ n i c, (scan p f n i c).1 < i + n →
      p (scan p f n i c).1 = true ∧ (scan p f n i c).2 = f (scan p f n i c).1 := by
  intro n
  induction n with
  | zero => intro i c h; simp [scan] at h
  | succ n ih =>
    intro i c h
    unfold scan at h ⊢
    split
    · rename_i hp; exact ⟨hp, rfl⟩
    · rename_i hp
      simp only [hp] at h
      exact ih (i + 1) (f i) (by simpa [Nat.add_assoc, Nat.add_comm 1 n] using h)

theorem scan_unique (p : Nat → Bool) (f : Nat → Nat) :
    ∀ n i c s, i ≤ s → s < i + n → (∀ j, i ≤ j → j < s → p j = false) → p s = true →
      scan p f n i c = (s, f s) := by
  intro n
  induction n with
  | zero => intro i c s h1 h2; omega
  | succ n ih =>
    intro i c s h1 h2 hb hs
    unfold scan
    rcases Nat.eq_or_lt_of_le h1 with h | h
    · subst h; simp [hs]
    · have hi : p i = false := hb i (Nat.le_refl i) h
      simp only [hi]
      exact ih (i + 1) (f i) s h (by omega) (fun j hj1 hj2 => hb j (by omega) hj2) hs

theorem scan_exhausted (p : Nat → Bool) (f : Nat → Nat) :
    ∀ n i c, (∀ j, i ≤ j → j < i + n → p j = false) → (scan p f n i c).1 = i + n := by
  intro n
  induction n with
  | zero => intro i c _; simp [scan]
  | succ n ih =>
    intro i c hb
    unfold scan
    have hi : p i = false := hb i (Nat.le_refl i) (by omega)
    simp only [hi]
    have := ih (i + 1) (f i) (fun j hj1 hj2 => hb j (by omega) (by omega))
    simp only [Bool.false_eq_true, ↓reduceIte]
    omega

theorem findLoop_eq (st : List (OACell V)) (key h : Nat) :
    ∀ n i c, (st.length ≠ 0 ∨ n = 0) →
      findLoop st key h n i c =
        .ok (scan (fun j => findStop (cellAt st (probe st.length h j)) key)
          (probe st.length h) n i c) := by
  intro n
  induction n with
  | zero => intro i c _; rfl
  | succ n ih =>
    intro i c hn
    have h0 : st.length ≠ 0 := by
      rcases hn with h | h
      · exact h
      · omega
    unfold findLoop scan
    simp only [getProbeSequenceElem, h0, ↓reduceIte]
    rw [ih (i + 1) _ (Or.inl h0)]
    show (if findStop (cellAt st (probe st.length h i)) key = true then _ else _) = _
    split <;> rfl

theorem insertLoop_eq (st : List (OACell V)) (h : Nat) :
    ∀ n i c, (st.length ≠ 0 ∨ n = 0) →
      insertLoop st h n i c =
        .ok (scan (fun j => !(cellAt st (probe st.length h j)).label.is_cell_not_empty)
          (probe st.length h) n i c) := by
  intro n
  induction n with
  | zero => intro i c _; rfl
  | succ n ih =>
    intro i c hn
    have h0 : st.length ≠ 0 := by
      rcases hn with h | h
      · exact h
      · omega
    unfold insertLoop scan
    simp only [getProbeSequenceElem, h0, ↓reduceIte]
    rw [ih (i + 1) _ (Or.inl h0)]
    show (if (cellAt st (probe st.length h i)).label.is_cell_not_empty = false then _ else _) = _
    cases (cellAt st (probe st.length h i)).label.is_cell_not_empty <;> rfl

theorem iterator_of_occupied (st : List (OACell V)) (c : Nat)
    (ho : (cellAt st c).label.is_cell_not_empty = true) : iterator st c = c := by
  unfold iterator moveIteratorToExistingValueOrEnd
  cases hn : st.length - c with
  | zero => rfl
  | succ n =>
    unfold moveLoop
    have hc : (st.getD c default).label.is_cell_not_empty = true := ho
    rw [if_neg]
    intro hh
    rw [hc] at hh
    exact Bool.noConfusion hh.2

theorem end_eq (t : HashTableOpenAddressing V) : end_ t = t.storage.length := by
  simp [end_, iterator, moveIteratorToExistingValueOrEnd, moveLoop]

theorem find_eq (t : HashTableOpenAddressing V) (key : Nat) :
    find t key = .ok (findIn t.storage key (hash t.a t.M key)) := by
  unfold find findIn
  rw [findLoop_eq t.storage key _ t.storage.length 0 0 (by omega)]
  simp only [end_eq]
  generalize hr : scan (fun j => findStop (cellAt t.storage (probe t.storage.length
    (hash t.a t.M key) j)) key) (probe t.storage.length (hash t.a t.M key))
    t.storage.length 0 0 = r
  obtain ⟨i, cell⟩ := r
  simp only [cellAt]
  split
  · rfl
  · rename_i hne
    have hlt : i < 0 + t.storage.length := by
      have := scan_fst_le (fun j => findStop (cellAt t.storage (probe t.storage.length
        (hash t.a t.M key) j)) key) (probe t.storage.length (hash t.a t.M key))
        t.storage.length 0 0
      rw [hr] at this
      simp only at this
      have h2 : i ≠ t.storage.length := fun h => hne (Or.inl h)
      omega
    have hat := scan_at (fun j => findStop (cellAt t.storage (probe t.storage.length
        (hash t.a t.M key) j)) key) (probe t.storage.length (hash t.a t.M key))
        t.storage.length 0 0 (by rw [hr]; exact hlt)
    rw [hr] at hat
    simp only at hat
    obtain ⟨hstop, hcell⟩ := hat
    rw [← hcell] at hstop
    have hocc : (cellAt t.storage cell).label.is_cell_not_empty = true := by
      by_contra hc
      apply hne
      right
      simp only [findStop, Bool.and_eq_true, Bool.not_eq_true', Bool.or_eq_true] at hstop
      simp only [cellAt] at hc hstop
      exact ⟨by simpa using hc, hstop.1⟩
    rw [iterator_of_occupied _ _ hocc]

end HashTableOpenAddressing

end PanovaElena

namespace PanovaElena

namespace HashTableOpenAddressing

variable {V : Type} [Inhabited V]

/-! ## What `find` returns -/

theorem set_cellAt_self (st : List (OACell V)) (i : Nat) : st.set i (cellAt st i) = st := by
  apply List.ext_getElem?
  intro n
  rw [List.getElem?_set]
  split
  · rename_i h
    subst h
    split
    · rename_i hlt
      rw [cellAt_of_lt st i hlt, List.getElem?_eq_getElem hlt]
    · rename_i hlt
      rw [List.getElem?_eq_none (by omega)]
  · rfl

theorem findStop_of_isLive (c : OACell V) (key : Nat) (h : isLive c key = true) :
    findStop c key = true := by
  simp only [isLive, Bool.and_eq_true, Bool.not_eq_true', beq_iff_eq] at h
  simp [findStop, h.1.2, h.2]

theorem isLive_of_findStop (c : OACell V) (key : Nat) (h : findStop c key = true)
    (hne : ¬ (c.label.is_cell_not_empty = false ∧ c.label.is_element_was_deleted = false)) :
    isLive c key = true := by
  simp only [findStop, Bool.and_eq_true, Bool.not_eq_true', Bool.or_eq_true, beq_iff_eq] at h
  simp only [isLive, Bool.and_eq_true, Bool.not_eq_true', beq_iff_eq]
  obtain ⟨hd, ho⟩ := h
  rcases ho with ho | ho
  · exact absurd ⟨ho, hd⟩ hne
  · cases hoc : c.label.is_cell_not_empty
    · exact absurd ⟨hoc, hd⟩ hne
    · exact ⟨⟨rfl, hd⟩, ho⟩

theorem isLive_key (c : OACell V) (key : Nat) (h : isLive c key = true) : c.key = key := by
  simp only [isLive, Bool.and_eq_true, beq_iff_eq] at h
  exact h.2

theorem isLive_occ (c : OACell V) (key : Nat) (h : isLive c key = true) :
    c.label.is_cell_not_empty = true := by
  simp only [isLive, Bool.and_eq_true] at h
  exact h.1.1

theorem findIn_le (st : List (OACell V)) (key h : Nat) : findIn st key h ≤ st.length := by
  unfold findIn
  simp only
  split
  · exact Nat.le_refl _
  · rename_i hne
    have hle := scan_fst_le (fun j => findStop (cellAt st (probe st.length h j)) key)
      (probe st.length h) st.length 0 0
    have hlt : (scan (fun j => findStop (cellAt st (probe st.length h j)) key)
      (probe st.length h) st.length 0 0).1 < 0 + st.length := by
      have h2 := fun hh => hne (Or.inl hh)
      omega
    have hat := scan_at _ _ _ _ _ hlt
    rw [hat.2]
    exact Nat.le_of_lt (probe_lt _ _ _ (by omega))

theorem findIn_hit (st : List (OACell V)) (key h : Nat) (hne : findIn st key h ≠ st.length) :
    ∃ s, s < st.length ∧
      (∀ j, j < s → findStop (cellAt st (probe st.length h j)) key = false) ∧
      probe st.length h s = findIn st key h ∧
      isLive (cellAt st (findIn st key h)) key = true ∧
      findIn st key h < st.length := by
  unfold findIn at hne ⊢
  simp only at hne ⊢
  split
  · rename_i hc; rw [if_pos hc] at hne; exact absurd rfl hne
  · rename_i hc
    have hle := scan_fst_le (fun j => findStop (cellAt st (probe st.length h j)) key)
      (probe st.length h) st.length 0 0
    have hlt : (scan (fun j => findStop (cellAt st (probe st.length h j)) key)
      (probe st.length h) st.length 0 0).1 < 0 + st.length := by
      have h2 := fun hh => hc (Or.inl hh)
      omega
    have hat := scan_at _ _ _ _ _ hlt
    refine ⟨_, by simpa using hlt, ?_, hat.2.symm, ?_, ?_⟩
    · intro j hj
      exact scan_before _ _ _ _ _ j (Nat.zero_le j) hj
    · apply isLive_of_findStop
      · have := hat.1
        simp only at this
        rw [hat.2]; exact this
      · exact fun hh => hc (Or.inr hh)
    · rw [hat.2]; exact probe_lt _ _ _ (by omega)

theorem findIn_of_walk (st : List (OACell V)) (key h s : Nat) (hs : s < st.length)
    (hw : ∀ j, j < s → findStop (cellAt st (probe st.length h j)) key = false)
    (hl : isLive (cellAt st (probe st.length h s)) key = true) :
    findIn st key h = probe st.length h s := by
  have hu := scan_unique (fun j => findStop (cellAt st (probe st.length h j)) key)
    (probe st.length h) st.length 0 0 s (Nat.zero_le s) (by omega)
    (fun j _ hj => hw j hj) (findStop_of_isLive _ _ hl)
  unfold findIn
  simp only [hu]
  rw [if_neg]
  intro hc
  rcases hc with hc | hc
  · omega
  · rw [isLive_occ _ _ hl] at hc
    exact Bool.noConfusion hc.1

/-- A live cell found by `find` is the only live cell with that key reachable first. -/
theorem findIn_eq_length_of_no_live (st : List (OACell V)) (key h : Nat)
    (hno : ∀ i, i < st.length → isLive (cellAt st i) key = false) :
    findIn st key h = st.length := by
  by_contra hne
  obtain ⟨s, _, _, _, hl, hlt⟩ := findIn_hit st key h hne
  rw [hno _ hlt] at hl
  exact Bool.noConfusion hl

/-- Changing one cell that is not occupied into a cell at which the search for `key`
does not stop leaves the result of the search unchanged, when the live cell holding
`key` (if any) is the one the search returns. -/
theorem findIn_set_of_not_stop (st : List (OACell V)) (key h c0 : Nat) (cell : OACell V)
    (hocc : (cellAt st c0).label.is_cell_not_empty = false)
    (hcell : findStop cell key = false)
    (hfnd : ∀ i, i < st.length → isLive (cellAt st i) key = true → findIn st key h = i) :
    findIn (st.set c0 cell) key h = findIn st key h := by
  by_cases hne : findIn st key h = st.length
  · rw [hne]
    by_contra hne'
    rw [← List.length_set st c0 cell] at hne'
    obtain ⟨s, _, _, _, hl, hlt⟩ := findIn_hit _ key h hne'
    rw [List.length_set] at hlt
    by_cases hc : c0 = findIn (st.set c0 cell) key h
    · rw [← hc] at hl hlt
      rw [cellAt_set_self _ _ _ hlt] at hl
      rw [findStop_of_isLive _ _ hl] at hcell
      exact Bool.noConfusion hcell
    · rw [cellAt_set_ne _ _ _ _ hc] at hl
      have := hfnd _ hlt hl
      rw [hne] at this
      omega
  · obtain ⟨s, hs, hw, hp, hl, hlt⟩ := findIn_hit st key h hne
    have hc : c0 ≠ findIn st key h := by
      intro hc
      rw [← hc] at hl
      have := isLive_occ _ _ hl
      rw [hocc] at this
      exact Bool.noConfusion this
    rw [← hp]
    have := findIn_of_walk (st.set c0 cell) key h s (by simpa using hs) ?_ ?_
    · simpa using this
    · intro j hj
      rw [List.length_set]
      by_cases hj0 : c0 = probe st.length h j
      · have hlt0 : c0 < st.length := by rw [hj0]; exact probe_lt _ _ _ (by omega)
        rw [← hj0, cellAt_set_self _ _ _ hlt0]; exact hcell
      · rw [cellAt_set_ne _ _ _ _ hj0]; exact hw j hj
    · rw [List.length_set, hp, cellAt_set_ne _ _ _ _ hc]; exact hl

/-- Changing a cell so that the search for `key` stops at it neither before nor after the
change leaves the result of the search unchanged. -/
theorem findIn_set_of_not_stop_both (st : List (OACell V)) (key h c0 : Nat) (cell : OACell V)
    (hold : findStop (cellAt st c0) key = false)
    (hcell : findStop cell key = false) :
    findIn (st.set c0 cell) key h = findIn st key h := by
  have key_fact : ∀ (st1 : List (OACell V)) (cell2 : OACell V),
      findStop (cellAt st1 c0) key = false → findStop cell2 key = false →
      findIn st1 key h ≠ st1.length →
      findIn (st1.set c0 cell2) key h = findIn st1 key h := by
    intro st1 cell2 h1 h2 hne
    obtain ⟨s, hs, hw, hp, hl, hlt⟩ := findIn_hit st1 key h hne
    have hc : c0 ≠ findIn st1 key h := by
      intro hc
      rw [← hc] at hl
      rw [findStop_of_isLive _ _ hl] at h1
      exact Bool.noConfusion h1
    rw [← hp]
    have := findIn_of_walk (st1.set c0 cell2) key h s (by simpa using hs) ?_ ?_
    · simpa using this
    · intro j hj
      rw [List.length_set]
      by_cases hj0 : c0 = probe st1.length h j
      · have hlt0 : c0 < st1.length := by rw [hj0]; exact probe_lt _ _ _ (by omega)
        rw [← hj0, cellAt_set_self _ _ _ hlt0]; exact h2
      · rw [cellAt_set_ne _ _ _ _ hj0]; exact hw j hj
    · rw [List.length_set, hp, cellAt_set_ne _ _ _ _ hc]; exact hl
  by_cases hne : findIn st key h = st.length
  · by_contra hne'
    rw [hne] at hne'
    have hne2 : findIn (st.set c0 cell) key h ≠ (st.set c0 cell).length := by
      simpa using hne'
    by_cases hlt0 : c0 < st.length
    · have h3 := key_fact (st.set c0 cell) (cellAt st c0)
        (by rw [cellAt_set_self _ _ _ hlt0]; exact hcell) hold hne2
      have hback : (st.set c0 cell).set c0 (cellAt st c0) = st := by
        rw [List.set_set]
        exact set_cellAt_self st c0
      rw [hback] at h3
      rw [← h3, hne] at hne'
      exact hne' rfl
    · rw [List.set_eq_of_length_le (by omega)] at hne'
      exact hne' hne
  · exact key_fact st cell hold hcell hne

end HashTableOpenAddressing

end PanovaElena

namespace PanovaElena

namespace HashTableOpenAddressing

variable {V : Type} [Inhabited V]

/-! ## Writing one cell -/

theorem lookup_eq (t : HashTableOpenAddressing V) (key : Nat) :
    lookup t key = .ok (valueAt t.storage (findIn t.storage key (hash t.a t.M key))) := by
  unfold lookup
  rw [find_eq]
  simp only [deref, end_eq, valueAt, cellAt]
  split <;> rfl

theorem valueAt_findIn_iff (t : HashTableOpenAddressing V) (hf : Fnd t) (key : Nat) (v : V) :
    valueAt t.storage (findIn t.storage key (hash t.a t.M key)) = some v ↔
      Live t.storage key v := by
  constructor
  · intro h
    unfold valueAt at h
    split at h
    · exact Option.noConfusion h
    · rename_i hne
      obtain ⟨s, _, _, _, hl, hlt⟩ := findIn_hit _ _ _ hne
      exact ⟨_, hlt, hl, by simpa using h⟩
  · rintro ⟨i, hi, hl, hv⟩
    rw [hf i key hi hl]
    unfold valueAt
    rw [if_neg (by omega), hv]

theorem valueAt_findIn_eq_none_iff (st : List (OACell V)) (key h : Nat) :
    valueAt st (findIn st key h) = none ↔ findIn st key h = st.length := by
  unfold valueAt
  split
  · rename_i hh; simp [hh]
  · rename_i hh; simp [hh]

/-- Two tables with the same live entries return the same values. -/
theorem valueAt_eq_of_live (t t' : HashTableOpenAddressing V) (hf : Fnd t) (hf' : Fnd t')
    (key : Nat) (h : ∀ v, Live t'.storage key v ↔ Live t.storage key v) :
    valueAt t'.storage (findIn t'.storage key (hash t'.a t'.M key)) =
      valueAt t.storage (findIn t.storage key (hash t.a t.M key)) := by
  apply Option.ext
  intro v
  rw [Option.mem_def, Option.mem_def, valueAt_findIn_iff t' hf', valueAt_findIn_iff t hf]
  exact h v

theorem labelsOk_set (st : List (OACell V)) (c : Nat) (cell : OACell V) (h : LabelsOk st)
    (hc : ¬ (cell.label.is_cell_not_empty = true ∧ cell.label.is_element_was_deleted = true)) :
    LabelsOk (st.set c cell) := by
  intro x hx
  rcases List.mem_or_eq_of_mem_set hx with hx | hx
  · exact h x hx
  · rw [hx]; exact hc

theorem labelsOk_replicate (n : Nat) : LabelsOk (List.replicate n (default : OACell V)) := by
  intro x hx
  rw [List.eq_of_mem_replicate hx]
  rintro ⟨h, _⟩
  exact Bool.noConfusion h

theorem fnd_of_empty (t : HashTableOpenAddressing V) (n : Nat)
    (h : t.storage = List.replicate n default) : Fnd t := by
  intro i key _ hl
  rw [h, cellAt_replicate] at hl
  exact Bool.noConfusion hl

theorem not_live_replicate (n key : Nat) (v : V) :
    ¬ Live (List.replicate n (default : OACell V)) key v := by
  rintro ⟨i, _, hl, _⟩
  rw [cellAt_replicate] at hl
  exact Bool.noConfusion hl

/-- The search for an absent key does not stop on the occupied cells that precede the
free slot of its probe sequence. -/
theorem walk_to_freeSlot (st : List (OACell V)) (key h s : Nat) (hs : s < st.length)
    (habs : findIn st key h = st.length)
    (hocc : ∀ j, j < s → (cellAt st (probe st.length h j)).label.is_cell_not_empty = true) :
    ∀ j, j < s → findStop (cellAt st (probe st.length h j)) key = false := by
  intro j
  induction j using Nat.strong_induction_on with
  | _ j ih =>
    intro hj
    by_contra hstop
    have hstop' : findStop (cellAt st (probe st.length h j)) key = true := by
      simpa using hstop
    have hl : isLive (cellAt st (probe st.length h j)) key = true := by
      apply isLive_of_findStop _ _ hstop'
      rintro ⟨h1, _⟩
      rw [hocc j hj] at h1
      exact Bool.noConfusion h1
    have := findIn_of_walk st key h j (by omega) (fun j' hj' => ih j' hj' (by omega)) hl
    rw [habs] at this
    have := probe_lt st.length h j (by omega)
    omega

theorem place_storage (t : HashTableOpenAddressing V) (c key : Nat) (elem : V) :
    (place t c key elem).storage = t.storage.set c ⟨key, elem, ⟨true, false⟩⟩ := rfl

/-- Placing an absent key at the free slot of its probe sequence: the key is found at that
slot. -/
theorem findIn_place_self (t : HashTableOpenAddressing V) (c key : Nat) (elem : V)
    (habs : findIn t.storage key (hash t.a t.M key) = t.storage.length)
    (hfree : FreeSlot t.storage (hash t.a t.M key) c) :
    findIn (place t c key elem).storage key (hash t.a t.M key) = c := by
  obtain ⟨s, hs, hp, hc, hocc⟩ := hfree
  have hw := walk_to_freeSlot t.storage key _ s hs habs hocc
  have hclt : c < t.storage.length := by rw [← hp]; exact probe_lt _ _ _ (by omega)
  have := findIn_of_walk (place t c key elem).storage key (hash t.a t.M key) s
    (by simpa [place_storage] using hs) ?_ ?_
  · rw [this, place_storage, List.length_set, hp]
  · intro j hj
    rw [place_storage, List.length_set]
    have hne : c ≠ probe t.storage.length (hash t.a t.M key) j := by
      intro hcj
      have := hocc j hj
      rw [← hcj, hc] at this
      exact Bool.noConfusion this
    rw [cellAt_set_ne _ _ _ _ hne]
    exact hw j hj
  · rw [place_storage, List.length_set, hp, cellAt_set_self _ _ _ hclt]
    simp [isLive]

/-- Placing a key at a cell that is not occupied does not change what is found for the
other keys. -/
theorem findIn_place_other (t : HashTableOpenAddressing V) (hf : Fnd t) (c key : Nat) (elem : V)
    (hc : (cellAt t.storage c).label.is_cell_not_empty = false)
    (key' : Nat) (hne : key' ≠ key) :
    findIn (place t c key elem).storage key' (hash t.a t.M key') =
      findIn t.storage key' (hash t.a t.M key') := by
  rw [place_storage]
  apply findIn_set_of_not_stop _ _ _ _ _ hc
  · simp only [findStop, Bool.not_false, Bool.not_true, Bool.false_or, Bool.true_and,
      beq_eq_false_iff_ne, ne_eq]
    exact fun h => hne h.symm
  · intro i hi hl
    exact hf i key' hi hl

theorem fnd_place (t : HashTableOpenAddressing V) (hf : Fnd t) (c key : Nat) (elem : V)
    (habs : findIn t.storage key (hash t.a t.M key) = t.storage.length)
    (hfree : FreeSlot t.storage (hash t.a t.M key) c) :
    Fnd (place t c key elem) := by
  have hc := hfree.choose_spec.2.2.1
  have hclt : c < t.storage.length := by
    obtain ⟨s, hs, hp, _, _⟩ := hfree
    rw [← hp]; exact probe_lt _ _ _ (by omega)
  intro i key' hi hl
  show findIn (place t c key elem).storage key' (hash t.a t.M key') = i
  rw [place_storage, List.length_set] at hi
  by_cases hk : key' = key
  · subst hk
    rw [findIn_place_self t c key' elem habs hfree]
    by_contra hci
    rw [place_storage, cellAt_set_ne _ _ _ _ hci] at hl
    have := hf i key' hi hl
    omega
  · rw [findIn_place_other t hf c key elem hc key' hk]
    by_cases hci : c = i
    · subst hci
      rw [place_storage, cellAt_set_self _ _ _ hclt] at hl
      have := isLive_key _ _ hl
      exact absurd this.symm hk
    · rw [place_storage, cellAt_set_ne _ _ _ _ hci] at hl
      exact hf i key' hi hl

theorem live_place (t : HashTableOpenAddressing V) (c key : Nat) (elem : V)
    (hclt : c < t.storage.length)
    (hc : (cellAt t.storage c).label.is_cell_not_empty = false) (key' : Nat) (v : V) :
    Live (place t c key elem).storage key' v ↔
      (key' = key ∧ v = elem) ∨ Live t.storage key' v := by
  constructor
  · rintro ⟨i, hi, hl, hv⟩
    rw [place_storage, List.length_set] at hi
    by_cases hci : c = i
    · subst hci
      rw [place_storage, cellAt_set_self _ _ _ hclt] at hl hv
      exact Or.inl ⟨(isLive_key _ _ hl).symm, hv.symm⟩
    · rw [place_storage, cellAt_set_ne _ _ _ _ hci] at hl hv
      exact Or.inr ⟨i, hi, hl, hv⟩
  · rintro (⟨hk, hv⟩ | ⟨i, hi, hl, hv⟩)
    · refine ⟨c, by simpa [place_storage] using hclt, ?_, ?_⟩
      · rw [place_storage, cellAt_set_self _ _ _ hclt]; simp [isLive, hk]
      · rw [place_storage, cellAt_set_self _ _ _ hclt]; exact hv.symm
    · have hci : c ≠ i := by
        intro hci
        subst hci
        have := isLive_occ _ _ hl
        rw [hc] at this
        exact Bool.noConfusion this
      refine ⟨i, by simpa [place_storage] using hi, ?_, ?_⟩
      · rw [place_storage, cellAt_set_ne _ _ _ _ hci]; exact hl
      · rw [place_storage, cellAt_set_ne _ _ _ _ hci]; exact hv

/-- Writing a tombstone over a cell that is not occupied changes nothing that is found. -/
theorem findIn_set_tombstone (t : HashTableOpenAddressing V) (hf : Fnd t) (c key : Nat) (elem : V)
    (hc : (cellAt t.storage c).label.is_cell_not_empty = false) (key' : Nat) :
    findIn (t.storage.set c ⟨key, elem, ⟨false, true⟩⟩) key' (hash t.a t.M key') =
      findIn t.storage key' (hash t.a t.M key') := by
  apply findIn_set_of_not_stop _ _ _ _ _ hc
  · simp [findStop]
  · intro i hi hl
    exact hf i key' hi hl

theorem live_set_tombstone (st : List (OACell V)) (c key : Nat) (elem : V)
    (hc : (cellAt st c).label.is_cell_not_empty = false) (key' : Nat) (v : V) :
    Live (st.set c ⟨key, elem, ⟨false, true⟩⟩) key' v ↔ Live st key' v := by
  constructor
  · rintro ⟨i, hi, hl, hv⟩
    rw [List.length_set] at hi
    by_cases hci : c = i
    · subst hci
      rw [cellAt_set_self _ _ _ hi] at hl
      exact Bool.noConfusion hl
    · rw [cellAt_set_ne _ _ _ _ hci] at hl hv
      exact ⟨i, hi, hl, hv⟩
  · rintro ⟨i, hi, hl, hv⟩
    have hci : c ≠ i := by
      intro hci
      subst hci
      have := isLive_occ _ _ hl
      rw [hc] at this
      exact Bool.noConfusion this
    refine ⟨i, by simpa using hi, ?_, ?_⟩
    · rw [cellAt_set_ne _ _ _ _ hci]; exact hl
    · rw [cellAt_set_ne _ _ _ _ hci]; exact hv

end HashTableOpenAddressing

end PanovaElena

namespace PanovaElena

namespace HashTableOpenAddressing

variable {V : Type} [Inhabited V]

/-! ## The recursion of `insertWithoutSearch` and `repack` -/

theorem insertWithoutSearch_succ (fuel : Nat) (t : HashTableOpenAddressing V) (key : Nat)
    (elem : V) :
    insertWithoutSearch (fuel + 1) t key elem =
      match (if t.size + 1 > fillLimit t.storage.length
             then repackWith (insertWithoutSearch fuel) t else .ok t) with
      | .error e => .error e
      | .ok t1 =>
        if (freeStep t1.storage (hash t1.a t1.M key)).1 = t1.storage.length then
          match repackWith (insertWithoutSearch fuel) t1 with
          | .error e => .error e
          | .ok t2 => insertWithoutSearch fuel t2 key elem
        else
          .ok (place t1 (freeStep t1.storage (hash t1.a t1.M key)).2 key elem,
            (freeStep t1.storage (hash t1.a t1.M key)).2) := by
  rw [insertWithoutSearch]
  beta_reduce
  cases hrep : (if t.size + 1 > fillLimit t.storage.length
      then repackWith (insertWithoutSearch fuel) t else .ok t) with
  | error e => rfl
  | ok t1 =>
    simp only
    rw [insertLoop_eq t1.storage _ t1.storage.length 0 0 (by omega)]
    simp only
    show (if (freeStep t1.storage (hash t1.a t1.M key)).1 = t1.storage.length then _ else _) = _
    split
    · rfl
    · rename_i hne
      have hlt : (freeStep t1.storage (hash t1.a t1.M key)).1 < 0 + t1.storage.length := by
        have := scan_fst_le (fun j => !(cellAt t1.storage (probe t1.storage.length
          (hash t1.a t1.M key) j)).label.is_cell_not_empty)
          (probe t1.storage.length (hash t1.a t1.M key)) t1.storage.length 0 0
        unfold freeStep at hne ⊢
        omega
      have hat := scan_at _ _ _ _ _ hlt
      have hc : (freeStep t1.storage (hash t1.a t1.M key)).2 < t1.storage.length := by
        unfold freeStep
        rw [hat.2]
        exact probe_lt _ _ _ (by omega)
      have hit : iterator (t1.storage.set (freeStep t1.storage (hash t1.a t1.M key)).2
          ⟨key, elem, ⟨true, false⟩⟩) (freeStep t1.storage (hash t1.a t1.M key)).2 =
          (freeStep t1.storage (hash t1.a t1.M key)).2 := by
        apply iterator_of_occupied
        rw [cellAt_set_self _ _ _ hc]
      unfold freeStep at hit ⊢
      rw [hit]
      rfl

theorem freeSlot_of_freeStep (st : List (OACell V)) (h : Nat)
    (hne : (freeStep st h).1 ≠ st.length) : FreeSlot st h (freeStep st h).2 := by
  have hlt : (freeStep st h).1 < 0 + st.length := by
    have := scan_fst_le (fun j => !(cellAt st (probe st.length h j)).label.is_cell_not_empty)
      (probe st.length h) st.length 0 0
    unfold freeStep at hne ⊢
    omega
  have hat := scan_at _ _ _ _ _ hlt
  refine ⟨(freeStep st h).1, by simpa using hlt, hat.2.symm, ?_, ?_⟩
  · have := hat.1
    simp only [Bool.not_eq_true', Bool.not_eq_eq_eq_not, Bool.not_true] at this
    unfold freeStep
    rw [hat.2]
    exact this
  · intro j hj
    have := scan_before _ _ _ _ _ j (Nat.zero_le j) hj
    simpa using this

theorem freeSlot_lt (st : List (OACell V)) (h c : Nat) (hf : FreeSlot st h c) :
    c < st.length := by
  obtain ⟨s, hs, hp, _, _⟩ := hf
  rw [← hp]; exact probe_lt _ _ _ (by omega)

theorem freeSlot_not_occ (st : List (OACell V)) (h c : Nat) (hf : FreeSlot st h c) :
    (cellAt st c).label.is_cell_not_empty = false := by
  obtain ⟨s, _, _, hc, _⟩ := hf
  exact hc

/-- More fuel does not change a result. -/
theorem repackLoop_mono
    (ins ins' : HashTableOpenAddressing V → Nat → V →
      Except Err (HashTableOpenAddressing V × Nat))
    (h : ∀ t key elem r, ins t key elem = .ok r → ins' t key elem = .ok r) :
    ∀ (tmp : List (OACell V)) (t r : HashTableOpenAddressing V),
      repackLoop ins tmp t = .ok r → repackLoop ins' tmp t = .ok r := by
  intro tmp
  induction tmp with
  | nil => intro t r hr; exact hr
  | cons c tmp ih =>
    intro t r hr
    unfold repackLoop at hr ⊢
    split
    · rename_i hc
      rw [if_pos hc] at hr
      cases hi : ins t c.key c.elem with
      | error e => rw [hi] at hr; exact Except.noConfusion hr
      | ok p =>
        rw [hi] at hr
        rw [h _ _ _ _ hi]
        exact ih _ _ hr
    · rename_i hc
      rw [if_neg hc] at hr
      exact ih _ _ hr

theorem insertWithoutSearch_mono_succ (fuel : Nat) :
    ∀ (t : HashTableOpenAddressing V) (key : Nat) (elem : V)
      (r : HashTableOpenAddressing V × Nat),
      insertWithoutSearch fuel t key elem = .ok r →
      insertWithoutSearch (fuel + 1) t key elem = .ok r := by
  induction fuel with
  | zero => intro t key elem r h; exact Except.noConfusion h
  | succ fuel ih =>
    intro t key elem r h
    rw [insertWithoutSearch_succ] at h ⊢
    have hrep : ∀ (t r : HashTableOpenAddressing V),
        repackWith (insertWithoutSearch fuel) t = .ok r →
        repackWith (insertWithoutSearch (fuel + 1)) t = .ok r := by
      intro t r hr
      exact repackLoop_mono _ _ ih _ _ _ hr
    cases h1 : (if t.size + 1 > fillLimit t.storage.length
        then repackWith (insertWithoutSearch fuel) t else .ok t) with
    | error e => rw [h1] at h; exact Except.noConfusion h
    | ok t1 =>
      rw [h1] at h
      have h1' : (if t.size + 1 > fillLimit t.storage.length
          then repackWith (insertWithoutSearch (fuel + 1)) t else .ok t) = .ok t1 := by
        split
        · rename_i hc; rw [if_pos hc] at h1; exact hrep _ _ h1
        · rename_i hc; rw [if_neg hc] at h1; exact h1
      rw [h1']
      simp only at h ⊢
      split
      · rename_i hc
        rw [if_pos hc] at h
        cases h2 : repackWith (insertWithoutSearch fuel) t1 with
        | error e => rw [h2] at h; exact Except.noConfusion h
        | ok t2 =>
          rw [h2] at h
          rw [hrep _ _ h2]
          exact ih _ _ _ _ h
      · rename_i hc
        rw [if_neg hc] at h
        exact h

theorem insertWithoutSearch_mono (fuel fuel' : Nat) (hle : fuel ≤ fuel')
    (t : HashTableOpenAddressing V) (key : Nat) (elem : V)
    (r : HashTableOpenAddressing V × Nat)
    (h : insertWithoutSearch fuel t key elem = .ok r) :
    insertWithoutSearch fuel' t key elem = .ok r := by
  induction hle with
  | refl => exact h
  | step _ ih => exact insertWithoutSearch_mono_succ _ _ _ _ _ ih

theorem repack_mono (fuel fuel' : Nat) (hle : fuel ≤ fuel')
    (t r : HashTableOpenAddressing V) (h : repack fuel t = .ok r) :
    repack fuel' t = .ok r :=
  repackLoop_mono _ _ (fun t key elem r hr => insertWithoutSearch_mono fuel fuel' hle t key elem r hr)
    _ _ _ h

/-- Two runs that both return, return the same. -/
theorem insertWithoutSearch_det (fuel fuel' : Nat) (t : HashTableOpenAddressing V) (key : Nat)
    (elem : V) (r r' : HashTableOpenAddressing V × Nat)
    (h : insertWithoutSearch fuel t key elem = .ok r)
    (h' : insertWithoutSearch fuel' t key elem = .ok r') : r = r' := by
  have h1 := insertWithoutSearch_mono fuel (max fuel fuel') (Nat.le_max_left _ _) t key elem r h
  have h2 := insertWithoutSearch_mono fuel' (max fuel fuel') (Nat.le_max_right _ _) t key elem r' h'
  rw [h1] at h2
  exact Except.ok.inj h2

end HashTableOpenAddressing

end PanovaElena

namespace PanovaElena

namespace HashTableOpenAddressing

variable {V : Type} [Inhabited V]

/-! ## Counting cells -/

theorem occCount_eq (st : List (OACell V)) : occCount st = (occCells st).length :=
  List.countP_eq_length_filter _ _

theorem live_iff_mem_occCells (st : List (OACell V)) (key : Nat) (v : V) :
    Live st key v ↔
      ∃ c, c ∈ occCells st ∧ c.label.is_element_was_deleted = false ∧ c.key = key ∧
        c.elem = v := by
  constructor
  · rintro ⟨i, hi, hl, hv⟩
    refine ⟨cellAt st i, ?_, ?_, isLive_key _ _ hl, hv⟩
    · exact List.mem_filter.mpr ⟨cellAt_mem st i hi, isLive_occ _ _ hl⟩
    · simp only [isLive, Bool.and_eq_true, Bool.not_eq_true'] at hl
      exact hl.1.2
  · rintro ⟨c, hc, hd, hk, hv⟩
    obtain ⟨hmem, hocc⟩ := List.mem_filter.mp hc
    obtain ⟨i, hi, hget⟩ := List.getElem_of_mem hmem
    refine ⟨i, hi, ?_, ?_⟩
    · rw [cellAt_of_lt st i hi, hget]
      simp only [isLive, Bool.and_eq_true, Bool.not_eq_true', beq_iff_eq]
      exact ⟨⟨hocc, hd⟩, hk⟩
    · rw [cellAt_of_lt st i hi, hget]; exact hv

theorem live_of_perm (st st' : List (OACell V)) (h : (occCells st').Perm (occCells st))
    (key : Nat) (v : V) : Live st' key v ↔ Live st key v := by
  rw [live_iff_mem_occCells, live_iff_mem_occCells]
  constructor
  · rintro ⟨c, hc, hr⟩; exact ⟨c, h.mem_iff.mp hc, hr⟩
  · rintro ⟨c, hc, hr⟩; exact ⟨c, h.mem_iff.mpr hc, hr⟩

theorem occCells_set (st : List (OACell V)) :
    ∀ (c : Nat) (x : OACell V), c < st.length →
      (cellAt st c).label.is_cell_not_empty = false →
      (occCells (st.set c x)).Perm
        (if x.label.is_cell_not_empty = true then x :: occCells st else occCells st) := by
  induction st with
  | nil => intro c x h; exact absurd h (Nat.not_lt_zero _)
  | cons y st ih =>
    intro c x hc hocc
    cases c with
    | zero =>
      have hy : y.label.is_cell_not_empty = false := hocc
      simp only [List.set_cons_zero, occCells, List.filter_cons, hy]
      split
      · exact List.Perm.refl _
      · simp
    | succ c =>
      have hocc' : (cellAt st c).label.is_cell_not_empty = false := by
        simpa [cellAt] using hocc
      have := ih c x (by simpa using hc) hocc'
      simp only [List.set_cons_succ, occCells, List.filter_cons]
      simp only [occCells] at this
      by_cases hy : y.label.is_cell_not_empty = true
      · simp only [hy, ↓reduceIte]
        split
        · rename_i hx
          rw [if_pos hx] at this
          exact (List.Perm.cons y this).trans (List.Perm.swap x y _)
        · rename_i hx
          rw [if_neg hx] at this
          exact List.Perm.cons y this
      · simp only [hy]
        exact this

theorem usedCount_set_le (st : List (OACell V)) (c : Nat) (x : OACell V) :
    usedCount (st.set c x) ≤ usedCount st + 1 := by
  by_cases hc : c < st.length
  · unfold usedCount
    rw [List.countP_set _ _ _ _ hc]
    split <;> split <;> omega
  · rw [List.set_eq_of_length_le (by omega)]
    omega

theorem usedCount_replicate (n : Nat) :
    usedCount (List.replicate n (default : OACell V)) = 0 := by
  unfold usedCount
  rw [List.countP_replicate]
  rfl

theorem occCells_replicate (n : Nat) :
    occCells (List.replicate n (default : OACell V)) = [] := by
  unfold occCells
  rw [List.filter_replicate]
  rfl

theorem occCount_le_usedCount (st : List (OACell V)) : occCount st ≤ usedCount st := by
  unfold occCount usedCount
  apply List.countP_mono_left
  intro x _ hx
  simp [hx]

/-! ## What a returning `insertWithoutSearch` or `repack` has done -/

theorem trans_refl (t : HashTableOpenAddressing V) : Trans t t :=
  ⟨rfl, Or.inl rfl, List.Perm.refl _⟩

theorem trans_of_repPost (t tr : HashTableOpenAddressing V) (h : RepPost t tr) : Trans t tr :=
  ⟨h.a_eq, Or.inr ⟨h.M_lt, h.wf, h.size_le, h.used_le⟩, h.perm⟩

theorem trans_comp_repPost (t t1 t2 : HashTableOpenAddressing V) (h1 : Trans t t1)
    (h2 : RepPost t1 t2) : RepPost t t2 := by
  rcases h1.grown with h | ⟨hM, hwf, hs, hu⟩
  · subst h; exact h2
  · exact ⟨h2.a_eq.trans h1.a_eq, Nat.lt_trans hM h2.M_lt, h2.wf,
      Nat.le_trans h2.size_le (Nat.le_trans hu hs), h2.used_le, h2.perm.trans h1.perm⟩

theorem trans_comp (t t1 t2 : HashTableOpenAddressing V) (h1 : Trans t t1)
    (h2 : Trans t1 t2) : Trans t t2 := by
  rcases h2.grown with h | ⟨hM, hwf, hs, hu⟩
  · subst h; exact h1
  · exact trans_of_repPost _ _
      (trans_comp_repPost t t1 t2 h1 ⟨h2.a_eq, hM, hwf, hs, hu, h2.perm⟩)

end HashTableOpenAddressing

end PanovaElena

namespace PanovaElena

namespace HashTableOpenAddressing

variable {V : Type} [Inhabited V]

theorem setLabel_place (tm : HashTableOpenAddressing V) (it key : Nat) (elem : V)
    (label : HashTableOpenAddressingCellLabel) (h : it < tm.storage.length) :
    setLabel (place tm it key elem) it label = put tm it key elem label := by
  unfold setLabel put
  have hc : (place tm it key elem).storage.getD it default = ⟨key, elem, ⟨true, false⟩⟩ :=
    cellAt_set_self tm.storage it _ h
  rw [hc]
  simp only [place, List.set_set]

theorem absent_of_not_live (st : List (OACell V)) (key h : Nat)
    (hno : ∀ v, ¬ Live st key v) : findIn st key h = st.length := by
  apply findIn_eq_length_of_no_live
  intro i hi
  by_contra hl
  exact hno _ ⟨i, hi, by simpa using hl, rfl⟩

theorem good_place (tm : HashTableOpenAddressing V) (hg : Good tm) (it key : Nat) (elem : V)
    (habs : findIn tm.storage key (hash tm.a tm.M key) = tm.storage.length)
    (hfree : FreeSlot tm.storage (hash tm.a tm.M key) it) :
    Good (place tm it key elem) := by
  refine ⟨?_, ?_, fnd_place tm hg.fnd it key elem habs hfree⟩
  · show (tm.storage.set it _).length = 2 ^ tm.M
    rw [List.length_set]; exact hg.wf
  · apply labelsOk_set _ _ _ hg.labels
    rintro ⟨_, h⟩
    exact Bool.noConfusion h

theorem good_put_tombstone (tm : HashTableOpenAddressing V) (hg : Good tm) (it key : Nat)
    (elem : V) (hocc : (cellAt tm.storage it).label.is_cell_not_empty = false) :
    Good (put tm it key elem ⟨false, true⟩) := by
  refine ⟨?_, ?_, ?_⟩
  · show (tm.storage.set it _).length = 2 ^ tm.M
    rw [List.length_set]; exact hg.wf
  · apply labelsOk_set _ _ _ hg.labels
    rintro ⟨h, _⟩
    exact Bool.noConfusion h
  · intro i key' hi hl
    show findIn (tm.storage.set it _) key' (hash tm.a tm.M key') = i
    rw [findIn_set_tombstone tm hg.fnd it key elem hocc key']
    have hi' : i < tm.storage.length := by
      have : i < (tm.storage.set it ⟨key, elem, ⟨false, true⟩⟩).length := hi
      simpa using this
    have hl' : isLive (cellAt (tm.storage.set it ⟨key, elem, ⟨false, true⟩⟩) i) key' = true := hl
    by_cases hci : it = i
    · subst hci
      rw [cellAt_set_self _ _ _ hi'] at hl'
      exact Bool.noConfusion hl'
    · rw [cellAt_set_ne _ _ _ _ hci] at hl'
      exact hg.fnd i key' hi' hl'

theorem pairwise_of_fnd (t : HashTableOpenAddressing V) (hf : Fnd t) (hl : LabelsOk t.storage) :
    t.storage.Pairwise (fun c c' => c.label.is_cell_not_empty = true →
      c'.label.is_cell_not_empty = true → c.key ≠ c'.key) := by
  rw [List.pairwise_iff_getElem]
  intro i j hi hj hij ho ho' hk
  have h1 : isLive (cellAt t.storage i) t.storage[i].key = true := by
    rw [cellAt_of_lt _ _ hi]
    have hd : t.storage[i].label.is_element_was_deleted = false := by
      by_contra hd
      exact hl _ (List.getElem_mem hi) ⟨ho, by simpa using hd⟩
    simp [isLive, ho, hd]
  have h2 : isLive (cellAt t.storage j) t.storage[i].key = true := by
    rw [cellAt_of_lt _ _ hj]
    have hd : t.storage[j].label.is_element_was_deleted = false := by
      by_contra hd
      exact hl _ (List.getElem_mem hj) ⟨ho', by simpa using hd⟩
    simp [isLive, ho', hd, hk]
  have e1 := hf i _ hi h1
  have e2 := hf j _ hj h2
  omega

theorem repackLoop_post
    (ins : HashTableOpenAddressing V → Nat → V → Except Err (HashTableOpenAddressing V × Nat))
    (hins : ∀ p key elem r, ins p key elem = .ok r → InsPost p key elem r) :
    ∀ (rest : List (OACell V)) (p pf : HashTableOpenAddressing V),
      repackLoop ins rest p = .ok pf →
      pf.a = p.a ∧ p.M ≤ pf.M ∧
      (p.storage.length = 2 ^ p.M → pf.storage.length = 2 ^ pf.M) ∧
      (usedCount p.storage ≤ p.size →
        pf.size ≤ p.size + usedCount rest ∧ usedCount pf.storage ≤ pf.size) ∧
      (occCells pf.storage).Perm (occCells p.storage ++ occCells rest) ∧
      (Good p → LabelsOk rest →
        (∀ c ∈ rest, c.label.is_cell_not_empty = true → ∀ v, ¬ Live p.storage c.key v) →
        rest.Pairwise (fun c c' => c.label.is_cell_not_empty = true →
          c'.label.is_cell_not_empty = true → c.key ≠ c'.key) →
        Good pf) := by
  intro rest
  induction rest with
  | nil =>
    intro p pf h
    have hpf : pf = p := (Except.ok.inj h).symm
    subst hpf
    refine ⟨rfl, Nat.le_refl _, id, ?_, ?_, ?_⟩
    · intro hu; exact ⟨by simp [usedCount], hu⟩
    · simp [occCells]
    · intro hg _ _ _; exact hg
  | cons c rest ih =>
    intro p pf h
    unfold repackLoop at h
    by_cases hc : c.label.is_cell_not_empty = true ∨ c.label.is_element_was_deleted = true
    · rw [if_pos hc] at h
      cases hi : ins p c.key c.elem with
      | error e => rw [hi] at h; exact Except.noConfusion h
      | ok r =>
        obtain ⟨p', it⟩ := r
        rw [hi] at h
        simp only at h
        obtain ⟨tm, htrans, hfree, hp', hgood⟩ := hins _ _ _ _ hi
        simp only at hfree hp'
        have hitlt := freeSlot_lt _ _ _ hfree
        have hitocc := freeSlot_not_occ _ _ _ hfree
        rw [hp', setLabel_place tm it c.key c.elem c.label hitlt] at h
        obtain ⟨ha, hM, hwf, hcnt, hperm, hg⟩ := ih _ _ h
        have hMtm : p.M ≤ tm.M := by
          rcases htrans.grown with h1 | h1
          · rw [h1]
          · exact Nat.le_of_lt h1.1
        have hused : usedCount (c :: rest) = usedCount rest + 1 := by
          unfold usedCount
          rw [List.countP_cons]
          have : (c.label.is_cell_not_empty || c.label.is_element_was_deleted) = true := by
            simpa using hc
          simp [this]
        have hceta : (⟨c.key, c.elem, c.label⟩ : OACell V) = c := rfl
        have hpermq : (occCells (put tm it c.key c.elem c.label).storage).Perm
            (if c.label.is_cell_not_empty = true then c :: occCells tm.storage
             else occCells tm.storage) := by
          have := occCells_set tm.storage it ⟨c.key, c.elem, c.label⟩ hitlt hitocc
          simpa [put] using this
        refine ⟨?_, ?_, ?_, ?_, ?_, ?_⟩
        · rw [ha]; exact htrans.a_eq
        · exact Nat.le_trans hMtm hM
        · intro hwfp
          apply hwf
          show (tm.storage.set it _).length = 2 ^ tm.M
          rw [List.length_set]
          rcases htrans.grown with h1 | h1
          · rw [h1]; exact hwfp
          · exact h1.2.1
        · intro hu
          have htm : usedCount tm.storage ≤ tm.size ∧ tm.size ≤ p.size := by
            rcases htrans.grown with h1 | h1
            · rw [h1]; exact ⟨hu, Nat.le_refl _⟩
            · exact ⟨h1.2.2.2, Nat.le_trans h1.2.2.1 hu⟩
          have hq : usedCount (put tm it c.key c.elem c.label).storage ≤
              (put tm it c.key c.elem c.label).size := by
            have := usedCount_set_le tm.storage it ⟨c.key, c.elem, c.label⟩
            show usedCount (tm.storage.set it _) ≤ tm.size + 1
            omega
          obtain ⟨h1, h2⟩ := hcnt hq
          refine ⟨?_, h2⟩
          have : (put tm it c.key c.elem c.label).size = tm.size + 1 := rfl
          rw [hused]
          omega
        · refine hperm.trans ?_
          refine (List.Perm.append_right _ hpermq).trans ?_
          simp only [occCells, List.filter_cons]
          by_cases ho : c.label.is_cell_not_empty = true
          · simp only [ho, ↓reduceIte]
            refine List.Perm.trans ?_ List.perm_middle.symm
            exact List.Perm.cons c (List.Perm.append_right _ htrans.perm)
          · simp only [ho]
            exact List.Perm.append_right _ htrans.perm
        · intro hgp hlab habs hpw
          have hgtm := hgood hgp
          have hlabc := hlab c (List.mem_cons_self _ _)
          have hlabr : LabelsOk rest := fun x hx => hlab x (List.mem_cons_of_mem _ hx)
          rw [List.pairwise_cons] at hpw
          have hlive_tm : ∀ key v, Live tm.storage key v ↔ Live p.storage key v :=
            fun key v => live_of_perm _ _ htrans.perm key v
          by_cases ho : c.label.is_cell_not_empty = true
          · have hd : c.label.is_element_was_deleted = false := by
              by_contra hd
              exact hlabc ⟨ho, by simpa using hd⟩
            have hlabel : c.label = ⟨true, false⟩ := by
              rcases hcl : c.label with ⟨o, d⟩
              rw [hcl] at ho hd
              simp only at ho hd
              rw [ho, hd]
            have habs_tm : findIn tm.storage c.key (hash tm.a tm.M c.key) =
                tm.storage.length := by
              apply absent_of_not_live
              intro v hv
              exact habs c (List.mem_cons_self _ _) ho v ((hlive_tm _ _).mp hv)
            have hq : put tm it c.key c.elem c.label = place tm it c.key c.elem := by
              rw [hlabel]; rfl
            apply hg
            · rw [hq]; exact good_place tm hgtm it c.key c.elem habs_tm hfree
            · exact hlabr
            · intro c' hc' ho' v hv
              rw [hq, live_place tm it c.key c.elem hitlt hitocc] at hv
              rcases hv with ⟨hk, _⟩ | hv
              · exact hpw.1 c' hc' ho ho' hk.symm
              · exact habs c' (List.mem_cons_of_mem _ hc') ho' v ((hlive_tm _ _).mp hv)
            · exact hpw.2
          · have hd : c.label.is_element_was_deleted = true := by
              rcases hc with h1 | h1
              · exact absurd h1 ho
              · exact h1
            have hlabel : c.label = ⟨false, true⟩ := by
              rcases hcl : c.label with ⟨o, d⟩
              rw [hcl] at ho hd
              simp only [Bool.not_eq_true] at ho hd
              rw [ho, hd]
            apply hg
            · rw [hlabel]; exact good_put_tombstone tm hgtm it c.key c.elem hitocc
            · exact hlabr
            · intro c' hc' ho' v hv
              rw [hlabel] at hv
              have hv' : Live (tm.storage.set it ⟨c.key, c.elem, ⟨false, true⟩⟩) c'.key v := hv
              rw [live_set_tombstone tm.storage it c.key c.elem hitocc] at hv'
              exact habs c' (List.mem_cons_of_mem _ hc') ho' v ((hlive_tm _ _).mp hv')
            · exact hpw.2
    · rw [if_neg hc] at h
      obtain ⟨ha, hM, hwf, hcnt, hperm, hg⟩ := ih _ _ h
      have ho : ¬ c.label.is_cell_not_empty = true := fun h1 => hc (Or.inl h1)
      have hused : usedCount (c :: rest) = usedCount rest := by
        unfold usedCount
        rw [List.countP_cons]
        have : (c.label.is_cell_not_empty || c.label.is_element_was_deleted) = false := by
          simpa using hc
        simp [this]
      refine ⟨ha, hM, hwf, ?_, ?_, ?_⟩
      · rw [hused]; exact hcnt
      · simpa [occCells, List.filter_cons, ho] using hperm
      · intro hgp hlab habs hpw
        rw [List.pairwise_cons] at hpw
        exact hg hgp (fun x hx => hlab x (List.mem_cons_of_mem _ hx))
          (fun c' hc' => habs c' (List.mem_cons_of_mem _ hc')) hpw.2

theorem repackWith_post
    (ins : HashTableOpenAddressing V → Nat → V → Except Err (HashTableOpenAddressing V × Nat))
    (hins : ∀ p key elem r, ins p key elem = .ok r → InsPost p key elem r)
    (t tr : HashTableOpenAddressing V) (h : repackWith ins t = .ok tr) :
    RepPost t tr ∧ (Good t → Good tr) := by
  unfold repackWith at h
  obtain ⟨ha, hM, hwf, hcnt, hperm, hg⟩ := repackLoop_post ins hins _ _ _ h
  simp only at ha hM hwf hcnt hperm hg
  have hcnt' := hcnt (by rw [usedCount_replicate])
  refine ⟨⟨ha, hM, ?_, ?_, hcnt'.2, ?_⟩, ?_⟩
  · apply hwf
    rw [List.length_replicate, getTableSize_eq]
  · simpa using hcnt'.1
  · simpa [occCells_replicate] using hperm
  · intro hgt
    apply hg
    · refine ⟨?_, labelsOk_replicate _, fnd_of_empty _ _ rfl⟩
      show (List.replicate _ _).length = 2 ^ (t.M + 1)
      rw [List.length_replicate, getTableSize_eq]
    · exact hgt.labels
    · intro c _ _ v
      exact not_live_replicate _ _ _
    · exact pairwise_of_fnd t hgt.fnd hgt.labels

theorem insertWithoutSearch_post (fuel : Nat) :
    ∀ (t : HashTableOpenAddressing V) (key : Nat) (elem : V)
      (r : HashTableOpenAddressing V × Nat),
      insertWithoutSearch fuel t key elem = .ok r → InsPost t key elem r := by
  induction fuel with
  | zero => intro t key elem r h; exact Except.noConfusion h
  | succ fuel ih =>
    intro t key elem r h
    rw [insertWithoutSearch_succ] at h
    have hrep := repackWith_post (insertWithoutSearch fuel) ih
    cases h1 : (if t.size + 1 > fillLimit t.storage.length
        then repackWith (insertWithoutSearch fuel) t else .ok t) with
    | error e => rw [h1] at h; exact Except.noConfusion h
    | ok t1 =>
      rw [h1] at h
      simp only at h
      have ht1 : Trans t t1 ∧ (Good t → Good t1) := by
        split at h1
        · obtain ⟨hp, hg⟩ := hrep _ _ h1
          exact ⟨trans_of_repPost _ _ hp, hg⟩
        · have : t1 = t := (Except.ok.inj h1).symm
          subst this
          exact ⟨trans_refl _, id⟩
      split at h
      · cases h2 : repackWith (insertWithoutSearch fuel) t1 with
        | error e => rw [h2] at h; exact Except.noConfusion h
        | ok t2 =>
          rw [h2] at h
          simp only at h
          obtain ⟨hp2, hg2⟩ := hrep _ _ h2
          obtain ⟨tm, htr, hfree, hr, hgm⟩ := ih _ _ _ _ h
          exact ⟨tm, trans_comp _ _ _ (trans_comp _ _ _ ht1.1 (trans_of_repPost _ _ hp2)) htr,
            hfree, hr, fun hg => hgm (hg2 (ht1.2 hg))⟩
      · rename_i hne
        have hr : r = (place t1 (freeStep t1.storage (hash t1.a t1.M key)).2 key elem,
            (freeStep t1.storage (hash t1.a t1.M key)).2) := (Except.ok.inj h).symm
        subst hr
        exact ⟨t1, ht1.1, freeSlot_of_freeStep _ _ hne, rfl, ht1.2⟩

theorem repack_post (fuel : Nat) (t tr : HashTableOpenAddressing V)
    (h : repack fuel t = .ok tr) : RepPost t tr ∧ (Good t → Good tr) :=
  repackWith_post _ (insertWithoutSearch_post fuel) t tr h

end HashTableOpenAddressing

end PanovaElena

namespace PanovaElena

namespace HashTableOpenAddressing

variable {V : Type} [Inhabited V]

/-! ## Every probe sequence of a sparsely occupied table has a free slot -/

theorem card_le_countP (p : OACell V → Bool) :
    ∀ (st : List (OACell V)) (S : Finset Nat),
      (∀ i ∈ S, i < st.length ∧ p (cellAt st i) = true) → S.card ≤ st.countP p := by
  intro st
  induction st with
  | nil =>
    intro S hS
    have : S = ∅ := by
      apply Finset.eq_empty_of_forall_not_mem
      intro i hi
      exact Nat.not_lt_zero _ (hS i hi).1
    simp [this]
  | cons x st ih =>
    intro S hS
    have himg : ((S.erase 0).image (fun i => i - 1)).card = (S.erase 0).card := by
      apply Finset.card_image_of_injOn
      intro i hi j hj hij
      have hi' : i ≠ 0 := (Finset.mem_erase.mp hi).1
      have hj' : j ≠ 0 := (Finset.mem_erase.mp hj).1
      simp only at hij
      omega
    have hih := ih ((S.erase 0).image (fun i => i - 1)) (by
      intro j hj
      obtain ⟨i, hi, hij⟩ := Finset.mem_image.mp hj
      obtain ⟨hi0, hiS⟩ := Finset.mem_erase.mp hi
      obtain ⟨h1, h2⟩ := hS i hiS
      obtain ⟨k, rfl⟩ : ∃ k, i = k + 1 := ⟨i - 1, by omega⟩
      simp only [Nat.add_sub_cancel] at hij
      subst hij
      refine ⟨by simpa using h1, ?_⟩
      simpa [cellAt] using h2)
    rw [himg] at hih
    rw [List.countP_cons]
    by_cases h0 : 0 ∈ S
    · have hx : p x = true := by
        have := (hS 0 h0).2
        simpa [cellAt] using this
      rw [Finset.card_erase_of_mem h0] at hih
      simp only [hx, ↓reduceIte]
      omega
    · rw [Finset.erase_eq_of_not_mem h0] at hih
      omega

theorem probe_eq_mod (M h i : Nat) : probe (2 ^ M) h i = (h + i * i) % 2 ^ M := by
  unfold probe
  exact Nat.and_pow_two_sub_one_eq_mod _ _

theorem probe_injOn (M h i j : Nat) (hi : i < 2 ^ (M / 2)) (hj : j < 2 ^ (M / 2))
    (hij : probe (2 ^ M) h i = probe (2 ^ M) h j) : i = j := by
  rw [probe_eq_mod, probe_eq_mod] at hij
  have hsq : ∀ k, k < 2 ^ (M / 2) → k * k < 2 ^ M := by
    intro k hk
    have h1 : k * k < 2 ^ (M / 2) * 2 ^ (M / 2) := Nat.mul_self_lt_mul_self hk
    have h2 : 2 ^ (M / 2) * 2 ^ (M / 2) ≤ 2 ^ M := by
      rw [← Nat.pow_add]
      exact Nat.pow_le_pow_right (by omega) (by omega)
    omega
  have hmod : i * i ≡ j * j [MOD 2 ^ M] := Nat.ModEq.add_left_cancel' h hij
  have : i * i = j * j := by
    have h1 := Nat.mod_eq_of_lt (hsq i hi)
    have h2 := Nat.mod_eq_of_lt (hsq j hj)
    unfold Nat.ModEq at hmod
    omega
  exact Nat.mul_self_inj.mp this

theorem freeStep_found (st : List (OACell V)) (M h : Nat) (hwf : st.length = 2 ^ M)
    (hocc : occCount st < 2 ^ (M / 2)) : (freeStep st h).1 ≠ st.length := by
  intro hex
  have hM : 2 ^ (M / 2) ≤ 2 ^ M := Nat.pow_le_pow_right (by omega) (Nat.div_le_self _ _)
  have hall : ∀ j, j < st.length →
      (cellAt st (probe st.length h j)).label.is_cell_not_empty = true := by
    intro j hj
    have := scan_before (fun j => !(cellAt st (probe st.length h j)).label.is_cell_not_empty)
      (probe st.length h) st.length 0 0 j (Nat.zero_le j) (by unfold freeStep at hex; omega)
    simpa using this
  have hcard : ((Finset.range (2 ^ (M / 2))).image (probe st.length h)).card = 2 ^ (M / 2) := by
    rw [Finset.card_image_of_injOn, Finset.card_range]
    intro i hi j hj hij
    rw [hwf] at hij
    exact probe_injOn M h i j (by simpa using hi) (by simpa using hj) hij
  have hle := card_le_countP (fun c => c.label.is_cell_not_empty) st
    ((Finset.range (2 ^ (M / 2))).image (probe st.length h)) (by
      intro c hc
      obtain ⟨j, hj, hjc⟩ := Finset.mem_image.mp hc
      have hj' : j < st.length := by
        have : j < 2 ^ (M / 2) := by simpa using hj
        omega
      subst hjc
      exact ⟨probe_lt _ _ _ (by omega), hall j hj'⟩)
  rw [hcard] at hle
  unfold occCount at hocc
  omega

/-! ## Termination: enough fuel always exists -/

theorem roomy_mono {N N' M M' : Nat} (h : Roomy N M) (hN : N' ≤ N) (hM : M ≤ M') :
    Roomy N' M' := by
  obtain ⟨h1, h2⟩ := h
  constructor
  · exact Nat.le_trans hN (Nat.le_trans h1
      (fillLimit_mono (Nat.pow_le_pow_right (by omega) hM)))
  · exact Nat.le_trans hN (Nat.le_trans h2
      (Nat.pow_le_pow_right (by omega) (Nat.div_le_div_right hM)))

theorem exists_roomy (N M : Nat) : ∃ d, Roomy N (M + d) := by
  refine ⟨2 * N + 2, ?_, ?_⟩
  · have h1 : 2 * N + 2 < 2 ^ (2 * N + 2) := Nat.lt_two_pow _
    have h2 : 2 ^ (2 * N + 2) ≤ 2 ^ (M + (2 * N + 2)) :=
      Nat.pow_le_pow_right (by omega) (by omega)
    unfold fillLimit
    omega
  · have h1 : N < 2 ^ N := Nat.lt_two_pow _
    have h2 : 2 ^ N ≤ 2 ^ ((M + (2 * N + 2)) / 2) :=
      Nat.pow_le_pow_right (by omega) (by omega)
    omega

end HashTableOpenAddressing

end PanovaElena

namespace PanovaElena

namespace HashTableOpenAddressing

variable {V : Type} [Inhabited V]

theorem trans_bounds (t tm : HashTableOpenAddressing V) (h : Trans t tm) (j : Nat)
    (hwf : t.storage.length = 2 ^ t.M) (hu : usedCount t.storage ≤ j) (hs : t.size ≤ j) :
    tm.storage.length = 2 ^ tm.M ∧ usedCount tm.storage ≤ j ∧ tm.size ≤ j ∧ t.M ≤ tm.M := by
  rcases h.grown with h1 | ⟨h1, h2, h3, h4⟩
  · subst h1; exact ⟨hwf, hu, hs, Nat.le_refl _⟩
  · exact ⟨h2, by omega, by omega, Nat.le_of_lt h1⟩

theorem usedCount_cons_used (c : OACell V) (rest : List (OACell V))
    (hc : c.label.is_cell_not_empty = true ∨ c.label.is_element_was_deleted = true) :
    usedCount (c :: rest) = usedCount rest + 1 := by
  unfold usedCount
  rw [List.countP_cons]
  have : (c.label.is_cell_not_empty || c.label.is_element_was_deleted) = true := by
    simpa using hc
  simp [this]

theorem usedCount_cons_unused (c : OACell V) (rest : List (OACell V))
    (hc : ¬ (c.label.is_cell_not_empty = true ∨ c.label.is_element_was_deleted = true)) :
    usedCount (c :: rest) = usedCount rest := by
  unfold usedCount
  rw [List.countP_cons]
  have : (c.label.is_cell_not_empty || c.label.is_element_was_deleted) = false := by
    simpa using hc
  simp [this]

theorem repackLoop_terminates (N d : Nat)
    (hins : ∀ (N' : Nat) (t : HashTableOpenAddressing V) (key : Nat) (elem : V),
      t.storage.length = 2 ^ t.M → usedCount t.storage ≤ N' → t.size ≤ N' →
      Roomy (N' + 1) (t.M + d) → ∃ fuel r, insertWithoutSearch fuel t key elem = .ok r) :
    ∀ (rest : List (OACell V)) (p : HashTableOpenAddressing V) (j : Nat),
      p.storage.length = 2 ^ p.M → usedCount p.storage ≤ j → p.size ≤ j →
      j + usedCount rest ≤ N → Roomy N (p.M + d) →
      ∃ fuel pf, repackLoop (insertWithoutSearch fuel) rest p = .ok pf := by
  intro rest
  induction rest with
  | nil => intro p j _ _ _ _ _; exact ⟨0, p, rfl⟩
  | cons c rest ih =>
    intro p j hwf hu hs hN hroom
    by_cases hc : c.label.is_cell_not_empty = true ∨ c.label.is_element_was_deleted = true
    · rw [usedCount_cons_used c rest hc] at hN
      obtain ⟨fuel1, ⟨p', it⟩, h1⟩ := hins j p c.key c.elem hwf hu hs
        (roomy_mono hroom (by omega) (Nat.le_refl _))
      obtain ⟨tm, htrans, hfree, hp', _⟩ := insertWithoutSearch_post _ _ _ _ _ h1
      simp only at hfree hp'
      have hitlt := freeSlot_lt _ _ _ hfree
      obtain ⟨b1, b2, b3, b4⟩ := trans_bounds p tm htrans j hwf hu hs
      have hq : setLabel p' it c.label = put tm it c.key c.elem c.label := by
        rw [hp', setLabel_place tm it c.key c.elem c.label hitlt]
      obtain ⟨fuel2, pf, h2⟩ := ih (put tm it c.key c.elem c.label) (j + 1)
        (by show (tm.storage.set it _).length = 2 ^ tm.M
            rw [List.length_set]; exact b1)
        (by have := usedCount_set_le tm.storage it ⟨c.key, c.elem, c.label⟩
            show usedCount (tm.storage.set it _) ≤ j + 1
            omega)
        (by show tm.size + 1 ≤ j + 1
            omega)
        (by omega)
        (roomy_mono hroom (Nat.le_refl _) (by show p.M + d ≤ tm.M + d; omega))
      refine ⟨max fuel1 fuel2, pf, ?_⟩
      unfold repackLoop
      rw [if_pos hc, insertWithoutSearch_mono fuel1 _ (Nat.le_max_left _ _) _ _ _ _ h1]
      simp only
      rw [hq]
      exact repackLoop_mono _ _
        (fun t key elem r hr =>
          insertWithoutSearch_mono fuel2 _ (Nat.le_max_right _ _) t key elem r hr) _ _ _ h2
    · rw [usedCount_cons_unused c rest hc] at hN
      obtain ⟨fuel, pf, h⟩ := ih p j hwf hu hs hN hroom
      refine ⟨fuel, pf, ?_⟩
      unfold repackLoop
      rw [if_neg hc]
      exact h

theorem repackWith_terminates (N d : Nat)
    (hins : ∀ (N' : Nat) (t : HashTableOpenAddressing V) (key : Nat) (elem : V),
      t.storage.length = 2 ^ t.M → usedCount t.storage ≤ N' → t.size ≤ N' →
      Roomy (N' + 1) (t.M + d) → ∃ fuel r, insertWithoutSearch fuel t key elem = .ok r)
    (t : HashTableOpenAddressing V) (hu : usedCount t.storage ≤ N)
    (hroom : Roomy N (t.M + 1 + d)) :
    ∃ fuel tr, repackWith (insertWithoutSearch fuel) t = .ok tr := by
  unfold repackWith
  apply repackLoop_terminates N d hins t.storage _ 0
  · show (List.replicate _ _).length = 2 ^ (t.M + 1)
    rw [List.length_replicate, getTableSize_eq]
  · show usedCount (List.replicate _ _) ≤ 0
    rw [usedCount_replicate]
  · exact Nat.le_refl _
  · omega
  · exact hroom

theorem insertWithoutSearch_terminates_aux (d : Nat) :
    ∀ (N : Nat) (t : HashTableOpenAddressing V) (key : Nat) (elem : V),
      t.storage.length = 2 ^ t.M → usedCount t.storage ≤ N → t.size ≤ N →
      Roomy (N + 1) (t.M + d) → ∃ fuel r, insertWithoutSearch fuel t key elem = .ok r := by
  induction d with
  | zero =>
    intro N t key elem hwf hu hs hroom
    obtain ⟨hr1, hr2⟩ := hroom
    refine ⟨1, (place t (freeStep t.storage (hash t.a t.M key)).2 key elem,
      (freeStep t.storage (hash t.a t.M key)).2), ?_⟩
    rw [insertWithoutSearch_succ]
    have hload : ¬ t.size + 1 > fillLimit t.storage.length := by
      rw [hwf]
      simp only [Nat.add_zero] at hr1
      omega
    rw [if_neg hload]
    simp only
    have hfound : (freeStep t.storage (hash t.a t.M key)).1 ≠ t.storage.length := by
      apply freeStep_found _ t.M _ hwf
      have := occCount_le_usedCount t.storage
      simp only [Nat.add_zero] at hr2
      omega
    rw [if_neg hfound]
  | succ d ih =>
    intro N t key elem hwf hu hs hroom
    have hrep : ∀ t' : HashTableOpenAddressing V, usedCount t'.storage ≤ N → t.M ≤ t'.M →
        ∃ fuel tr, repackWith (insertWithoutSearch fuel) t' = .ok tr := by
      intro t' hu' hM
      exact repackWith_terminates N d ih t' hu'
        (roomy_mono hroom (by omega) (by omega))
    have hA : ∃ fuelA t1, (∀ fuel, fuelA ≤ fuel →
        (if t.size + 1 > fillLimit t.storage.length
          then repackWith (insertWithoutSearch fuel) t else .ok t) = .ok t1) ∧
        t1.storage.length = 2 ^ t1.M ∧ usedCount t1.storage ≤ N ∧ t1.size ≤ N ∧
        t.M ≤ t1.M := by
      by_cases hload : t.size + 1 > fillLimit t.storage.length
      · obtain ⟨fuelA, t1, h1⟩ := hrep t hu (Nat.le_refl _)
        obtain ⟨hp, _⟩ := repackWith_post _ (insertWithoutSearch_post fuelA) _ _ h1
        refine ⟨fuelA, t1, ?_, hp.wf, ?_, ?_, Nat.le_of_lt hp.M_lt⟩
        · intro fuel hle
          rw [if_pos hload]
          exact repack_mono fuelA fuel hle _ _ h1
        · exact Nat.le_trans hp.used_le (Nat.le_trans hp.size_le hu)
        · exact Nat.le_trans hp.size_le hu
      · refine ⟨0, t, ?_, hwf, hu, hs, Nat.le_refl _⟩
        intro fuel _
        rw [if_neg hload]
    obtain ⟨fuelA, t1, hA1, hwf1, hu1, hs1, hM1⟩ := hA
    by_cases hfound : (freeStep t1.storage (hash t1.a t1.M key)).1 = t1.storage.length
    · obtain ⟨fuelB, t2, h2⟩ := hrep t1 hu1 hM1
      obtain ⟨hp, _⟩ := repackWith_post _ (insertWithoutSearch_post fuelB) _ _ h2
      obtain ⟨fuelC, r, h3⟩ := ih N t2 key elem hp.wf
        (Nat.le_trans hp.used_le (Nat.le_trans hp.size_le hu1))
        (Nat.le_trans hp.size_le hu1)
        (roomy_mono hroom (Nat.le_refl _) (by have := hp.M_lt; omega))
      refine ⟨max fuelA (max fuelB fuelC) + 1, r, ?_⟩
      rw [insertWithoutSearch_succ, hA1 _ (Nat.le_max_left _ _)]
      simp only
      rw [if_pos hfound]
      have h2' := repack_mono fuelB (max fuelA (max fuelB fuelC))
        (Nat.le_trans (Nat.le_max_left _ _) (Nat.le_max_right _ _)) _ _ h2
      unfold repack at h2'
      rw [h2']
      simp only
      exact insertWithoutSearch_mono fuelC _
        (Nat.le_trans (Nat.le_max_right _ _) (Nat.le_max_right _ _)) _ _ _ _ h3
    · refine ⟨fuelA + 1, (place t1 (freeStep t1.storage (hash t1.a t1.M key)).2 key elem,
        (freeStep t1.storage (hash t1.a t1.M key)).2), ?_⟩
      rw [insertWithoutSearch_succ, hA1 _ (Nat.le_refl _)]
      simp only
      rw [if_neg hfound]

/-- `insertWithoutSearch` returns on every table whose storage has `2 ^ M` cells. -/
theorem insertWithoutSearch_terminates (t : HashTableOpenAddressing V) (key : Nat) (elem : V)
    (hwf : t.storage.length = 2 ^ t.M) :
    ∃ fuel r, insertWithoutSearch fuel t key elem = .ok r := by
  obtain ⟨d, hd⟩ := exists_roomy (max (usedCount t.storage) t.size + 1) t.M
  exact insertWithoutSearch_terminates_aux d (max (usedCount t.storage) t.size) t key elem hwf
    (Nat.le_max_left _ _) (Nat.le_max_right _ _) hd

/-- `repack` returns on every table. -/
theorem repack_terminates (t : HashTableOpenAddressing V) :
    ∃ fuel tr, repack fuel t = .ok tr := by
  obtain ⟨d, hd⟩ := exists_roomy (usedCount t.storage) (t.M + 1)
  exact repackWith_terminates (usedCount t.storage) d
    (insertWithoutSearch_terminates_aux d) t (Nat.le_refl _) hd

end HashTableOpenAddressing

end PanovaElena

namespace PanovaElena

namespace HashTableOpenAddressing

variable {V : Type} [Inhabited V]

/-! ## `insert` and `erase` through `Table` -/

theorem insert_eq (fuel : Nat) (t : HashTableOpenAddressing V) (key : Nat) (elem : V) :
    insert fuel t key elem =
      if findIn t.storage key (hash t.a t.M key) ≠ t.storage.length then
        .ok (t, findIn t.storage key (hash t.a t.M key), false)
      else
        match insertWithoutSearch fuel t key elem with
        | .error e => .error e
        | .ok (t', it) => .ok (t', it, true) := by
  unfold insert Table.insert
  simp only [derived, find_eq, end_eq]
  split
  · rfl
  · rcases insertWithoutSearch fuel t key elem with e | ⟨t', it⟩ <;> rfl

theorem eraseWithoutSearch_eq (t : HashTableOpenAddressing V) (c : Nat) :
    eraseWithoutSearch t c =
      { t with size := decr32 t.size,
               storage := t.storage.set c
                 ⟨(cellAt t.storage c).key, (cellAt t.storage c).elem, ⟨false, true⟩⟩ } := by
  unfold eraseWithoutSearch setLabel
  simp only [List.set_set]
  by_cases hc : c < t.storage.length
  · have h1 : ∀ x : OACell V, (t.storage.set c x).getD c default = x :=
      fun x => cellAt_set_self t.storage c x hc
    rw [h1]
    rfl
  · rw [List.set_eq_of_length_le (by omega), List.set_eq_of_length_le (by omega)]

theorem erase_eq (t : HashTableOpenAddressing V) (key : Nat) :
    erase t key =
      if findIn t.storage key (hash t.a t.M key) = t.storage.length then .ok (t, false)
      else .ok (eraseWithoutSearch t (findIn t.storage key (hash t.a t.M key)), true) := by
  unfold erase Table.erase
  simp only [derived, find_eq, end_eq]

/-! ## Tombstoning a live cell -/

theorem findIn_tombstone_other (st : List (OACell V)) (c key key' h : Nat) (k0 : Nat) (e0 : V)
    (hl : isLive (cellAt st c) key = true) (hne : key' ≠ key) :
    findIn (st.set c ⟨k0, e0, ⟨false, true⟩⟩) key' h = findIn st key' h := by
  apply findIn_set_of_not_stop_both
  · simp only [isLive, Bool.and_eq_true, Bool.not_eq_true', beq_iff_eq] at hl
    simp only [findStop, hl.1.1, hl.1.2, hl.2, Bool.not_false, Bool.not_true, Bool.false_or,
      Bool.true_and, beq_eq_false_iff_ne, ne_eq]
    exact fun h => hne h.symm
  · simp [findStop]

theorem findIn_tombstone_self (t : HashTableOpenAddressing V) (hf : Fnd t) (c key : Nat)
    (k0 : Nat) (e0 : V) (hc : c < t.storage.length)
    (hl : isLive (cellAt t.storage c) key = true) :
    findIn (t.storage.set c ⟨k0, e0, ⟨false, true⟩⟩) key (hash t.a t.M key) =
      t.storage.length := by
  by_contra hne
  have hne' : findIn (t.storage.set c ⟨k0, e0, ⟨false, true⟩⟩) key (hash t.a t.M key) ≠
      (t.storage.set c ⟨k0, e0, ⟨false, true⟩⟩).length := by simpa using hne
  obtain ⟨s, _, _, _, hl', hlt⟩ := findIn_hit _ _ _ hne'
  rw [List.length_set] at hlt
  by_cases hci : c = findIn (t.storage.set c ⟨k0, e0, ⟨false, true⟩⟩) key (hash t.a t.M key)
  · rw [← hci, cellAt_set_self _ _ _ hc] at hl'
    exact Bool.noConfusion hl'
  · rw [cellAt_set_ne _ _ _ _ hci] at hl'
    have h1 := hf _ key hlt hl'
    have h2 := hf c key hc hl
    omega

theorem fnd_tombstone (t : HashTableOpenAddressing V) (hf : Fnd t) (c key : Nat) (k0 : Nat)
    (e0 : V) (n : Nat) (hc : c < t.storage.length)
    (hl : isLive (cellAt t.storage c) key = true) :
    Fnd { t with size := n, storage := t.storage.set c ⟨k0, e0, ⟨false, true⟩⟩ } := by
  intro i key' hi hl'
  have hi' : i < t.storage.length := by
    have : i < (t.storage.set c ⟨k0, e0, ⟨false, true⟩⟩).length := hi
    simpa using this
  have hl'' : isLive (cellAt (t.storage.set c ⟨k0, e0, ⟨false, true⟩⟩) i) key' = true := hl'
  show findIn (t.storage.set c _) key' (hash t.a t.M key') = i
  by_cases hci : c = i
  · subst hci
    rw [cellAt_set_self _ _ _ hc] at hl''
    exact Bool.noConfusion hl''
  · rw [cellAt_set_ne _ _ _ _ hci] at hl''
    have hk : key' ≠ key := by
      intro hk
      subst hk
      have h1 := hf i key' hi' hl''
      have h2 := hf c key' hc hl
      omega
    rw [findIn_tombstone_other _ _ _ _ _ _ _ hl hk]
    exact hf i key' hi' hl''

theorem occCount_tombstone (st : List (OACell V)) (c : Nat) (k0 : Nat) (e0 : V)
    (hc : c < st.length) (ho : (cellAt st c).label.is_cell_not_empty = true) :
    occCount (st.set c ⟨k0, e0, ⟨false, true⟩⟩) + 1 = occCount st := by
  have hpos : 0 < occCount st := by
    unfold occCount
    rw [List.countP_pos_iff]
    exact ⟨cellAt st c, cellAt_mem st c hc, ho⟩
  unfold occCount at hpos ⊢
  rw [List.countP_set _ _ _ _ hc]
  rw [cellAt_of_lt st c hc] at ho
  simp only [ho, ↓reduceIte, Bool.false_eq_true, Nat.add_zero]
  omega

/-! ## The invariant of the reachable states -/

theorem good_empty (t : HashTableOpenAddressing V) (M : Nat)
    (hs : t.storage = List.replicate (getTableSize M) default) (hM : t.M = M) : Good t := by
  refine ⟨?_, ?_, fnd_of_empty t _ hs⟩
  · rw [hs, List.length_replicate, getTableSize_eq, hM]
  · rw [hs]; exact labelsOk_replicate _

theorem inv_construct (M a : Nat) : Inv (construct M a : HashTableOpenAddressing V) := by
  refine ⟨good_empty _ M rfl rfl, ?_⟩
  show occCount (List.replicate _ _) ≤ 0
  have := occCount_le_usedCount (List.replicate (getTableSize M) (default : OACell V))
  rw [usedCount_replicate] at this
  exact this

theorem inv_clear (t : HashTableOpenAddressing V) : Inv (clear t) := by
  refine ⟨good_empty _ FIRST_TABLE_SIZE_DEG rfl rfl, ?_⟩
  show occCount (List.replicate _ _) ≤ 0
  have := occCount_le_usedCount
    (List.replicate (getTableSize FIRST_TABLE_SIZE_DEG) (default : OACell V))
  rw [usedCount_replicate] at this
  exact this

/-- The table in which a returning `insertWithoutSearch` of an absent key writes, and what
holds of it. -/
theorem insertWithoutSearch_absent (fuel : Nat) (t t' : HashTableOpenAddressing V)
    (key : Nat) (elem : V) (it : Nat) (hinv : Inv t)
    (habs : findIn t.storage key (hash t.a t.M key) = t.storage.length)
    (h : insertWithoutSearch fuel t key elem = .ok (t', it)) :
    ∃ tm, Trans t tm ∧ Inv tm ∧ FreeSlot tm.storage (hash tm.a tm.M key) it ∧
      t' = place tm it key elem ∧
      findIn tm.storage key (hash tm.a tm.M key) = tm.storage.length := by
  obtain ⟨tm, htrans, hfree, hp, hg⟩ := insertWithoutSearch_post _ _ _ _ _ h
  have hgm := hg hinv.good
  refine ⟨tm, htrans, ⟨hgm, ?_⟩, hfree, hp, ?_⟩
  · rcases htrans.grown with h1 | h1
    · rw [h1]; exact hinv.occ_le
    · exact Nat.le_trans (occCount_le_usedCount _) h1.2.2.2
  · apply absent_of_not_live
    intro v hv
    rw [live_of_perm _ _ htrans.perm] at hv
    have := (valueAt_findIn_iff t hinv.good.fnd key v).mpr hv
    rw [habs] at this
    simp [valueAt] at this

theorem occCount_place (tm : HashTableOpenAddressing V) (it key : Nat) (elem : V)
    (hlt : it < tm.storage.length)
    (ho : (cellAt tm.storage it).label.is_cell_not_empty = false) :
    occCount (place tm it key elem).storage = occCount tm.storage + 1 := by
  rw [occCount_eq, occCount_eq]
  have := (occCells_set tm.storage it ⟨key, elem, ⟨true, false⟩⟩ hlt ho).length_eq
  simpa [place_storage] using this

theorem inv_place (tm : HashTableOpenAddressing V) (hinv : Inv tm) (it key : Nat) (elem : V)
    (habs : findIn tm.storage key (hash tm.a tm.M key) = tm.storage.length)
    (hfree : FreeSlot tm.storage (hash tm.a tm.M key) it) :
    Inv (place tm it key elem) := by
  refine ⟨good_place tm hinv.good it key elem habs hfree, ?_⟩
  rw [occCount_place tm it key elem (freeSlot_lt _ _ _ hfree) (freeSlot_not_occ _ _ _ hfree)]
  have := hinv.occ_le
  show occCount tm.storage + 1 ≤ tm.size + 1
  omega

theorem inv_insert (fuel : Nat) (t t' : HashTableOpenAddressing V) (key : Nat) (elem : V)
    (it : Nat) (b : Bool) (hinv : Inv t) (h : insert fuel t key elem = .ok (t', it, b)) :
    Inv t' := by
  rw [insert_eq] at h
  split at h
  · have := Except.ok.inj h
    simp only [Prod.mk.injEq] at this
    rw [← this.1]; exact hinv
  · rename_i habs
    have habs' : findIn t.storage key (hash t.a t.M key) = t.storage.length := by
      simpa using habs
    cases hi : insertWithoutSearch fuel t key elem with
    | error e => rw [hi] at h; exact Except.noConfusion h
    | ok r =>
      obtain ⟨t'', it''⟩ := r
      rw [hi] at h
      have := Except.ok.inj h
      simp only [Prod.mk.injEq] at this
      obtain ⟨tm, _, hinvm, hfree, hp, habsm⟩ :=
        insertWithoutSearch_absent fuel t t'' key elem it'' hinv habs' hi
      rw [← this.1, hp]
      exact inv_place tm hinvm it'' key elem habsm hfree

theorem inv_erase (t t' : HashTableOpenAddressing V) (key : Nat) (b : Bool) (hinv : Inv t)
    (h : erase t key = .ok (t', b)) : Inv t' := by
  rw [erase_eq] at h
  split at h
  · have := Except.ok.inj h
    simp only [Prod.mk.injEq] at this
    rw [← this.1]; exact hinv
  · rename_i hne
    have := Except.ok.inj h
    simp only [Prod.mk.injEq] at this
    rw [← this.1, eraseWithoutSearch_eq]
    obtain ⟨s, _, _, _, hl, hlt⟩ := findIn_hit _ _ _ hne
    refine ⟨⟨?_, ?_, fnd_tombstone t hinv.good.fnd _ key _ _ _ hlt hl⟩, ?_⟩
    · show (t.storage.set _ _).length = 2 ^ t.M
      rw [List.length_set]; exact hinv.good.wf
    · apply labelsOk_set _ _ _ hinv.good.labels
      rintro ⟨h1, _⟩
      exact Bool.noConfusion h1
    · have h1 := occCount_tombstone t.storage _ (cellAt t.storage
        (findIn t.storage key (hash t.a t.M key))).key (cellAt t.storage
        (findIn t.storage key (hash t.a t.M key))).elem hlt (isLive_occ _ _ hl)
      have h2 := hinv.occ_le
      show occCount (t.storage.set _ _) ≤ decr32 t.size
      unfold decr32
      split <;> omega

theorem inv_of_reachable (t : HashTableOpenAddressing V) (h : Reachable t) : Inv t := by
  induction h with
  | construct M a => exact inv_construct M a
  | insert _ hi ih => exact inv_insert _ _ _ _ _ _ _ ih hi
  | erase _ he ih => exact inv_erase _ _ _ _ ih he
  | clear _ _ => exact inv_clear _

end HashTableOpenAddressing

end PanovaElena

namespace PanovaElena

namespace HashTableOpenAddressing

variable {V : Type} [Inhabited V]

/-! ## Inserting an absent key -/

theorem absent_iff (t : HashTableOpenAddressing V) (key : Nat) :
    find t key = .ok (end_ t) ↔
      findIn t.storage key (hash t.a t.M key) = t.storage.length := by
  rw [find_eq, end_eq]
  constructor
  · intro h; exact Except.ok.inj h
  · intro h; rw [h]

theorem valueAt_place_self (tm : HashTableOpenAddressing V) (it key : Nat) (elem : V)
    (hlt : it < tm.storage.length) :
    valueAt (place tm it key elem).storage it = some elem := by
  unfold valueAt
  rw [place_storage, List.length_set, if_neg (by omega), cellAt_set_self _ _ _ hlt]

/-- Open addressing: inserting an absent key into a table that satisfies the invariant
returns; afterwards the key is found at the returned locator with the inserted value, and
every other key is looked up as before. -/
theorem insert_absent_of_inv (t : HashTableOpenAddressing V) (hinv : Inv t) (key : Nat)
    (elem : V) (habs : find t key = .ok (end_ t)) :
    ∃ fuel t' it, insert fuel t key elem = .ok (t', it, true) ∧
      Inv t' ∧ find t' key = .ok it ∧ lookup t' key = .ok (some elem) ∧
      (∀ key', key' ≠ key → lookup t' key' = lookup t key') ∧
      (∀ fuel' r, insert fuel' t key elem = .ok r → r = (t', it, true)) := by
  have habs' := (absent_iff t key).mp habs
  obtain ⟨fuel, ⟨t', it⟩, hi⟩ := insertWithoutSearch_terminates t key elem hinv.good.wf
  obtain ⟨tm, htrans, hinvm, hfree, hp, habsm⟩ :=
    insertWithoutSearch_absent fuel t t' key elem it hinv habs' hi
  have hlt := freeSlot_lt _ _ _ hfree
  have hocc := freeSlot_not_occ _ _ _ hfree
  have hinv' : Inv t' := by rw [hp]; exact inv_place tm hinvm it key elem habsm hfree
  have hfind : findIn t'.storage key (hash t'.a t'.M key) = it := by
    rw [hp]; exact findIn_place_self tm it key elem habsm hfree
  refine ⟨fuel, t', it, ?_, hinv', ?_, ?_, ?_, ?_⟩
  · rw [insert_eq, if_neg (by simpa using habs'), hi]
  · rw [find_eq, hfind]
  · rw [lookup_eq, hfind, hp]
    exact congrArg Except.ok (valueAt_place_self tm it key elem hlt)
  · intro key' hne
    rw [lookup_eq, lookup_eq]
    apply congrArg Except.ok
    apply valueAt_eq_of_live t t' hinv.good.fnd hinv'.good.fnd
    intro v
    rw [hp, live_place tm it key elem hlt hocc, live_of_perm _ _ htrans.perm]
    constructor
    · rintro (⟨hk, _⟩ | h)
      · exact absurd hk hne
      · exact h
    · exact fun h => Or.inr h
  · intro fuel' r hr
    rw [insert_eq, if_neg (by simpa using habs')] at hr
    cases hi' : insertWithoutSearch fuel' t key elem with
    | error e => rw [hi'] at hr; exact Except.noConfusion hr
    | ok r' =>
      obtain ⟨t'', it''⟩ := r'
      rw [hi'] at hr
      have hdet := insertWithoutSearch_det fuel' fuel t key elem _ _ hi' hi
      simp only [Prod.mk.injEq] at hdet
      rw [← Except.ok.inj hr, hdet.1, hdet.2]

/-! ## Erasing -/

/-- Open addressing, under the invariant: `erase` returns `true` exactly on a hit, after
which the key is a miss and `size` is one less. -/
theorem erase_self_of_inv (t : HashTableOpenAddressing V) (hinv : Inv t) (key : Nat) :
    ∃ t' b, erase t key = .ok (t', b) ∧
      (b = true ↔ find t key ≠ .ok (end_ t)) ∧
      (b = true → find t' key = .ok (end_ t') ∧ getSize t' + 1 = getSize t) := by
  rw [erase_eq]
  split
  · rename_i h
    refine ⟨t, false, rfl, ?_, fun hb => Bool.noConfusion hb⟩
    constructor
    · intro hb; exact Bool.noConfusion hb
    · intro hne; exact absurd ((absent_iff t key).mpr h) hne
  · rename_i hne
    refine ⟨_, true, rfl, ?_, ?_⟩
    · constructor
      · intro _ habs; exact hne ((absent_iff t key).mp habs)
      · intro _; rfl
    · intro _
      obtain ⟨s, _, _, _, hl, hlt⟩ := findIn_hit _ _ _ hne
      constructor
      · rw [absent_iff, eraseWithoutSearch_eq]
        show findIn (t.storage.set _ _) key (hash t.a t.M key) = (t.storage.set _ _).length
        rw [List.length_set]
        exact findIn_tombstone_self t hinv.good.fnd _ key _ _ hlt hl
      · rw [eraseWithoutSearch_eq]
        show decr32 t.size + 1 = t.size
        have hpos : 0 < occCount t.storage := by
          unfold occCount
          rw [List.countP_pos_iff]
          exact ⟨_, cellAt_mem t.storage _ hlt, isLive_occ _ _ hl⟩
        have := hinv.occ_le
        unfold decr32
        rw [if_neg (by omega)]
        omega

end HashTableOpenAddressing

end PanovaElena

namespace PanovaElena

theorem hash_lt (a M key : Nat) : hash a M key < 2 ^ M := by
  unfold hash W
  rw [Nat.shiftRight_eq_div_pow, Nat.div_lt_iff_lt_mul (Nat.pow_pos (by omega))]
  have h1 : (a * key) % 2 ^ 64 % 2 ^ 32 < 2 ^ 32 := Nat.mod_lt _ (by omega)
  have h2 : 2 ^ 32 ≤ 2 ^ M * 2 ^ (32 - M) := by
    rw [← Nat.pow_add]
    exact Nat.pow_le_pow_right (by omega) (by omega)
  omega

namespace HashTableSeparateChaining

variable {V : Type}

/-! ## Separate chaining: lists, iterators and `find` -/

theorem findInList_le (key : Nat) (l : List (Nat × V)) : findInList key l ≤ l.length := by
  induction l with
  | nil => simp [findInList]
  | cons e l ih =>
    unfold findInList
    split
    · simp only [List.length_cons]; omega
    · omega

theorem firstWith_nil (key : Nat) : firstWith key ([] : List (Nat × V)) = none := rfl

theorem firstWith_cons (key : Nat) (e : Nat × V) (l : List (Nat × V)) :
    firstWith key (e :: l) = if e.1 = key then some e else firstWith key l := by
  unfold firstWith
  by_cases h : e.1 = key
  · simp [findInList, h]
  · simp [findInList, h]

theorem firstWith_eq_none_iff (key : Nat) (l : List (Nat × V)) :
    firstWith key l = none ↔ ∀ e ∈ l, e.1 ≠ key := by
  induction l with
  | nil => simp [firstWith_nil]
  | cons e l ih =>
    rw [firstWith_cons]
    by_cases h : e.1 = key
    · simp [h]
    · simp [h, ih]

theorem firstWith_eq_none_iff_length (key : Nat) (l : List (Nat × V)) :
    firstWith key l = none ↔ findInList key l = l.length := by
  unfold firstWith
  rw [List.getElem?_eq_none_iff]
  have := findInList_le key l
  omega

theorem firstWith_some (key : Nat) (l : List (Nat × V)) (e : Nat × V)
    (h : firstWith key l = some e) : e ∈ l ∧ e.1 = key := by
  induction l with
  | nil => rw [firstWith_nil] at h; exact Option.noConfusion h
  | cons x l ih =>
    rw [firstWith_cons] at h
    split at h
    · rename_i hx
      have := Option.some.inj h
      subst this
      exact ⟨List.mem_cons_self _ _, hx⟩
    · obtain ⟨h1, h2⟩ := ih h
      exact ⟨List.mem_cons_of_mem _ h1, h2⟩

theorem firstWith_of_mem (key : Nat) (l : List (Nat × V)) (v : V)
    (hnd : (l.map Prod.fst).Nodup) (h : (key, v) ∈ l) : firstWith key l = some (key, v) := by
  induction l with
  | nil => exact absurd h (List.not_mem_nil _)
  | cons x l ih =>
    rw [firstWith_cons]
    rw [List.map_cons, List.nodup_cons] at hnd
    rcases List.mem_cons.mp h with h1 | h1
    · rw [← h1]; simp
    · have hx : x.1 ≠ key := by
        intro hx
        apply hnd.1
        rw [hx]
        exact List.mem_map.mpr ⟨(key, v), h1, rfl⟩
      rw [if_neg hx]
      exact ih hnd.2 h1

theorem moveLoop_stay (st : List (List (Nat × V))) (n cell idx : Nat)
    (h : ¬ (cell < st.length - 1 ∧ idx = (st.getD cell []).length)) :
    moveLoop st n (cell, idx) = (cell, idx) := by
  cases n with
  | zero => rfl
  | succ n =>
    unfold moveLoop
    rw [if_neg h]

theorem iterator_of_ne (st : List (List (Nat × V))) (cell idx : Nat)
    (h : idx ≠ (st.getD cell []).length) : iterator st cell idx = (cell, idx) := by
  unfold iterator moveIteratorToExistingValueOrEnd
  exact moveLoop_stay _ _ _ _ (fun hh => h hh.2)

theorem sc_end_eq (t : HashTableSeparateChaining V) :
    end_ t = (t.storage.length - 1, (t.storage.getD (t.storage.length - 1) []).length) := by
  unfold end_ iterator moveIteratorToExistingValueOrEnd
  exact moveLoop_stay _ _ _ _ (fun hh => Nat.lt_irrefl _ hh.1)

theorem sc_find_eq (t : HashTableSeparateChaining V) (key : Nat) :
    find t key =
      if findInList key (t.storage.getD (hash t.a t.M key) []) =
          (t.storage.getD (hash t.a t.M key) []).length then .ok (end_ t)
      else .ok (hash t.a t.M key, findInList key (t.storage.getD (hash t.a t.M key) [])) := by
  unfold find
  simp only
  split
  · rfl
  · rename_i h
    rw [iterator_of_ne _ _ _ h]

theorem hit_ne_end (t : HashTableSeparateChaining V) (cell idx : Nat)
    (h : idx < (t.storage.getD cell []).length) : (cell, idx) ≠ end_ t := by
  rw [sc_end_eq]
  intro heq
  simp only [Prod.mk.injEq] at heq
  rw [heq.1] at h
  omega

theorem sc_absent_iff (t : HashTableSeparateChaining V) (key : Nat) :
    find t key = .ok (end_ t) ↔
      firstWith key (t.storage.getD (hash t.a t.M key) []) = none := by
  rw [sc_find_eq, firstWith_eq_none_iff_length]
  constructor
  · intro h
    by_contra hne
    rw [if_neg hne] at h
    have hlt : findInList key (t.storage.getD (hash t.a t.M key) []) <
        (t.storage.getD (hash t.a t.M key) []).length := by
      have := findInList_le key (t.storage.getD (hash t.a t.M key) [])
      omega
    exact hit_ne_end t _ _ hlt (Except.ok.inj h)
  · intro h
    rw [if_pos h]

theorem sc_lookup_eq (t : HashTableSeparateChaining V) (key : Nat) :
    lookup t key =
      .ok ((firstWith key (t.storage.getD (hash t.a t.M key) [])).map Prod.snd) := by
  unfold lookup
  rw [sc_find_eq]
  by_cases h : findInList key (t.storage.getD (hash t.a t.M key) []) =
      (t.storage.getD (hash t.a t.M key) []).length
  · rw [if_pos h]
    simp only [deref, if_true]
    rw [(firstWith_eq_none_iff_length _ _).mpr h]
  · rw [if_neg h]
    have hlt : findInList key (t.storage.getD (hash t.a t.M key) []) <
        (t.storage.getD (hash t.a t.M key) []).length := by
      have := findInList_le key (t.storage.getD (hash t.a t.M key) [])
      omega
    simp only [deref]
    rw [if_neg (hit_ne_end t _ _ hlt)]
    rfl

end HashTableSeparateChaining

end PanovaElena

namespace PanovaElena

namespace HashTableSeparateChaining

variable {V : Type}

/-! ## Separate chaining: the recursion of `insertWithoutSearch` and `repack` -/

theorem sc_insertWithoutSearch_succ (fuel : Nat) (t : HashTableSeparateChaining V) (key : Nat)
    (elem : V) :
    insertWithoutSearch (fuel + 1) t key elem =
      match (if t.size + 1 > fillLimit t.storage.length
             then repackWith (insertWithoutSearch fuel) t else .ok t) with
      | .error e => .error e
      | .ok t1 => .ok (push t1 key elem,
          iterator (push t1 key elem).storage (hash t1.a t1.M key) 0) := by
  rw [insertWithoutSearch]
  rfl

theorem repackBucket_mono
    (ins ins' : HashTableSeparateChaining V → Nat → V →
      Except Err (HashTableSeparateChaining V × (Nat × Nat)))
    (h : ∀ t key elem r, ins t key elem = .ok r → ins' t key elem = .ok r) :
    ∀ (l : List (Nat × V)) (t r : HashTableSeparateChaining V),
      repackBucket ins l t = .ok r → repackBucket ins' l t = .ok r := by
  intro l
  induction l with
  | nil => intro t r hr; exact hr
  | cons e l ih =>
    intro t r hr
    unfold repackBucket at hr ⊢
    cases hi : ins t e.1 e.2 with
    | error err => rw [hi] at hr; exact Except.noConfusion hr
    | ok p =>
      rw [hi] at hr
      rw [h _ _ _ _ hi]
      exact ih _ _ hr

theorem sc_repackLoop_mono
    (ins ins' : HashTableSeparateChaining V → Nat → V →
      Except Err (HashTableSeparateChaining V × (Nat × Nat)))
    (h : ∀ t key elem r, ins t key elem = .ok r → ins' t key elem = .ok r) :
    ∀ (tmp : List (List (Nat × V))) (t r : HashTableSeparateChaining V),
      repackLoop ins tmp t = .ok r → repackLoop ins' tmp t = .ok r := by
  intro tmp
  induction tmp with
  | nil => intro t r hr; exact hr
  | cons b tmp ih =>
    intro t r hr
    unfold repackLoop at hr ⊢
    cases hi : repackBucket ins b t with
    | error err => rw [hi] at hr; exact Except.noConfusion hr
    | ok p =>
      rw [hi] at hr
      rw [repackBucket_mono ins ins' h _ _ _ hi]
      exact ih _ _ hr

theorem sc_insertWithoutSearch_mono_succ (fuel : Nat) :
    ∀ (t : HashTableSeparateChaining V) (key : Nat) (elem : V)
      (r : HashTableSeparateChaining V × (Nat × Nat)),
      insertWithoutSearch fuel t key elem = .ok r →
      insertWithoutSearch (fuel + 1) t key elem = .ok r := by
  induction fuel with
  | zero => intro t key elem r h; exact Except.noConfusion h
  | succ fuel ih =>
    intro t key elem r h
    rw [sc_insertWithoutSearch_succ] at h ⊢
    by_cases hload : t.size + 1 > fillLimit t.storage.length
    · rw [if_pos hload] at h ⊢
      cases h1 : repackWith (insertWithoutSearch fuel) t with
      | error e => rw [h1] at h; exact Except.noConfusion h
      | ok t1 =>
        rw [h1] at h
        have h1' : repackWith (insertWithoutSearch (fuel + 1)) t = .ok t1 :=
          sc_repackLoop_mono _ _ ih _ _ _ h1
        rw [h1']
        exact h
    · rw [if_neg hload] at h ⊢
      exact h

theorem sc_insertWithoutSearch_mono (fuel fuel' : Nat) (hle : fuel ≤ fuel')
    (t : HashTableSeparateChaining V) (key : Nat) (elem : V)
    (r : HashTableSeparateChaining V × (Nat × Nat))
    (h : insertWithoutSearch fuel t key elem = .ok r) :
    insertWithoutSearch fuel' t key elem = .ok r := by
  induction hle with
  | refl => exact h
  | step _ ih => exact sc_insertWithoutSearch_mono_succ _ _ _ _ _ ih

theorem sc_insertWithoutSearch_det (fuel fuel' : Nat) (t : HashTableSeparateChaining V)
    (key : Nat) (elem : V) (r r' : HashTableSeparateChaining V × (Nat × Nat))
    (h : insertWithoutSearch fuel t key elem = .ok r)
    (h' : insertWithoutSearch fuel' t key elem = .ok r') : r = r' := by
  have h1 := sc_insertWithoutSearch_mono fuel (max fuel fuel') (Nat.le_max_left _ _) t key elem r h
  have h2 := sc_insertWithoutSearch_mono fuel' (max fuel fuel') (Nat.le_max_right _ _) t key elem r' h'
  rw [h1] at h2
  exact Except.ok.inj h2

/-! ## Separate chaining: the entries of a storage -/

theorem getD_set_self (st : List (List (Nat × V))) (i : Nat) (b : List (Nat × V))
    (h : i < st.length) : (st.set i b).getD i [] = b := by
  simp [List.getD_eq_getElem?_getD, List.getElem?_set, h]

theorem getD_set_ne (st : List (List (Nat × V))) (i j : Nat) (b : List (Nat × V))
    (h : i ≠ j) : (st.set i b).getD j [] = st.getD j [] := by
  simp [List.getD_eq_getElem?_getD, List.getElem?_set, h]

theorem getD_replicate (n i : Nat) :
    (List.replicate n ([] : List (Nat × V))).getD i [] = [] := by
  simp only [List.getD_eq_getElem?_getD, List.getElem?_replicate]
  split <;> rfl

theorem entries_replicate (n : Nat) :
    entries (List.replicate n ([] : List (Nat × V))) = [] := by
  induction n with
  | zero => rfl
  | succ n ih =>
    rw [List.replicate_succ]
    unfold entries at ih ⊢
    rw [List.flatten_cons, ih]
    rfl

theorem mem_entries (st : List (List (Nat × V))) (e : Nat × V) :
    e ∈ entries st ↔ ∃ i, i < st.length ∧ e ∈ st.getD i [] := by
  unfold entries
  rw [List.mem_flatten]
  constructor
  · rintro ⟨l, hl, he⟩
    obtain ⟨i, hi, hget⟩ := List.getElem_of_mem hl
    refine ⟨i, hi, ?_⟩
    rw [List.getD_eq_getElem?_getD, List.getElem?_eq_getElem hi, hget]
    exact he
  · rintro ⟨i, hi, he⟩
    rw [List.getD_eq_getElem?_getD, List.getElem?_eq_getElem hi] at he
    exact ⟨st[i], List.getElem_mem hi, he⟩

theorem entries_set_cons (st : List (List (Nat × V))) :
    ∀ (h : Nat) (x : Nat × V), h < st.length →
      (entries (st.set h (x :: st.getD h []))).Perm (x :: entries st) := by
  induction st with
  | nil => intro h x hh; exact absurd hh (Nat.not_lt_zero _)
  | cons b st ih =>
    intro h x hh
    cases h with
    | zero => exact List.Perm.refl _
    | succ h =>
      have := ih h x (by simpa using hh)
      show (b ++ entries (st.set h (x :: st.getD h []))).Perm (x :: (b ++ entries st))
      exact (List.Perm.append_left b this).trans List.perm_middle

theorem entries_set_eraseIdx (st : List (List (Nat × V))) :
    ∀ (h i : Nat) (e0 : Nat × V), (st.getD h [])[i]? = some e0 →
      (e0 :: entries (st.set h ((st.getD h []).eraseIdx i))).Perm (entries st) := by
  induction st with
  | nil => intro h i e0 hh; simp at hh
  | cons b st ih =>
    intro h i e0 hh
    cases h with
    | zero =>
      have hb : b[i]? = some e0 := hh
      show (e0 :: (b.eraseIdx i ++ entries st)).Perm (b ++ entries st)
      have hperm : (e0 :: b.eraseIdx i).Perm b := by
        clear ih hh
        induction b generalizing i with
        | nil => simp at hb
        | cons y b ihb =>
          cases i with
          | zero =>
            simp only [List.getElem?_cons_zero, Option.some.injEq] at hb
            subst hb
            exact List.Perm.refl _
          | succ i =>
            simp only [List.getElem?_cons_succ] at hb
            rw [List.eraseIdx_cons_succ]
            exact (List.Perm.swap y e0 _).trans (List.Perm.cons y (ihb i hb))
      exact List.Perm.append_right (entries st) hperm
    | succ h =>
      have := ih h i e0 (by simpa using hh)
      show (e0 :: (b ++ entries (st.set h ((st.getD h []).eraseIdx i)))).Perm (b ++ entries st)
      exact List.perm_middle.symm.trans (List.Perm.append_left b this)

/-! ## Separate chaining: what a returning `insertWithoutSearch` or `repack` has done -/

theorem push_getD (tm : HashTableSeparateChaining V) (key : Nat) (elem : V) (i : Nat)
    (hlt : hash tm.a tm.M key < tm.storage.length) :
    (push tm key elem).storage.getD i [] =
      if i = hash tm.a tm.M key then (key, elem) :: tm.storage.getD i []
      else tm.storage.getD i [] := by
  unfold push
  simp only
  split
  · rename_i h
    subst h
    exact getD_set_self _ _ _ hlt
  · rename_i h
    exact getD_set_ne _ _ _ _ (fun hh => h hh.symm)

theorem entries_push (tm : HashTableSeparateChaining V) (key : Nat) (elem : V)
    (hlt : hash tm.a tm.M key < tm.storage.length) :
    (entries (push tm key elem).storage).Perm ((key, elem) :: entries tm.storage) :=
  entries_set_cons tm.storage _ _ hlt

theorem built_push (tm : HashTableSeparateChaining V) (hb : Built tm) (key : Nat) (elem : V) :
    Built (push tm key elem) := by
  have hlt : hash tm.a tm.M key < tm.storage.length := by
    rw [hb.wf]; exact hash_lt _ _ _
  refine ⟨?_, ?_, ?_⟩
  · show (tm.storage.set _ _).length = 2 ^ tm.M
    rw [List.length_set]; exact hb.wf
  · intro i hi e he
    have hi' : i < tm.storage.length := by
      have : i < (tm.storage.set (hash tm.a tm.M key)
        ((key, elem) :: tm.storage.getD (hash tm.a tm.M key) [])).length := hi
      simpa using this
    rw [push_getD tm key elem i hlt] at he
    show hash tm.a tm.M e.1 = i
    split at he
    · rename_i hih
      rcases List.mem_cons.mp he with h1 | h1
      · rw [h1]; exact hih.symm
      · exact hb.placed i hi' e h1
    · exact hb.placed i hi' e he
  · show tm.size + 1 = (entries (push tm key elem).storage).length
    rw [(entries_push tm key elem hlt).length_eq, List.length_cons, hb.size_eq]

theorem built_empty (t : HashTableSeparateChaining V) (hs : t.storage = List.replicate (2 ^ t.M) [])
    (hz : t.size = 0) : Built t := by
  refine ⟨?_, ?_, ?_⟩
  · rw [hs, List.length_replicate]
  · intro i _ e he
    rw [hs, getD_replicate] at he
    exact absurd he (List.not_mem_nil _)
  · rw [hs, entries_replicate, hz]; rfl

theorem trans_built (p tm : HashTableSeparateChaining V) (h : Trans p tm) (hb : Built p) :
    Built tm := by
  rcases h.grown with ⟨h1, _⟩ | ⟨_, h1⟩
  · rw [h1]; exact hb
  · exact h1

theorem trans_M_le (p tm : HashTableSeparateChaining V) (h : Trans p tm) : p.M ≤ tm.M := by
  rcases h.grown with ⟨h1, _⟩ | ⟨h1, _⟩
  · rw [h1]
  · exact Nat.le_of_lt h1

theorem repackBucket_post
    (ins : HashTableSeparateChaining V → Nat → V →
      Except Err (HashTableSeparateChaining V × (Nat × Nat)))
    (hins : ∀ p key elem r, ins p key elem = .ok r → InsPost p key elem r) :
    ∀ (l : List (Nat × V)) (p pf : HashTableSeparateChaining V),
      repackBucket ins l p = .ok pf → Built p →
      pf.a = p.a ∧ p.M ≤ pf.M ∧ Built pf ∧
      (entries pf.storage).Perm (l ++ entries p.storage) := by
  intro l
  induction l with
  | nil =>
    intro p pf h hb
    have : pf = p := (Except.ok.inj h).symm
    subst this
    exact ⟨rfl, Nat.le_refl _, hb, List.Perm.refl _⟩
  | cons e l ih =>
    intro p pf h hb
    unfold repackBucket at h
    cases hi : ins p e.1 e.2 with
    | error err => rw [hi] at h; exact Except.noConfusion h
    | ok r =>
      obtain ⟨p', it⟩ := r
      rw [hi] at h
      simp only at h
      obtain ⟨tm, htrans, hp', _⟩ := hins _ _ _ _ hi
      simp only at hp'
      have hbm := trans_built p tm htrans hb
      have hlt : hash tm.a tm.M e.1 < tm.storage.length := by
        rw [hbm.wf]; exact hash_lt _ _ _
      rw [hp'] at h
      obtain ⟨ha, hM, hbf, hperm⟩ := ih _ _ h (built_push tm hbm e.1 e.2)
      refine ⟨ha.trans htrans.a_eq, Nat.le_trans (trans_M_le p tm htrans) hM, hbf, ?_⟩
      refine hperm.trans ?_
      refine (List.Perm.append_left l (entries_push tm e.1 e.2 hlt)).trans ?_
      refine List.perm_middle.trans ?_
      exact List.Perm.cons _ (List.Perm.append_left l htrans.perm)

theorem sc_repackLoop_post
    (ins : HashTableSeparateChaining V → Nat → V →
      Except Err (HashTableSeparateChaining V × (Nat × Nat)))
    (hins : ∀ p key elem r, ins p key elem = .ok r → InsPost p key elem r) :
    ∀ (tmp : List (List (Nat × V))) (p pf : HashTableSeparateChaining V),
      repackLoop ins tmp p = .ok pf → Built p →
      pf.a = p.a ∧ p.M ≤ pf.M ∧ Built pf ∧
      (entries pf.storage).Perm (entries tmp ++ entries p.storage) := by
  intro tmp
  induction tmp with
  | nil =>
    intro p pf h hb
    have : pf = p := (Except.ok.inj h).symm
    subst this
    exact ⟨rfl, Nat.le_refl _, hb, List.Perm.refl _⟩
  | cons b tmp ih =>
    intro p pf h hb
    unfold repackLoop at h
    cases hi : repackBucket ins b p with
    | error err => rw [hi] at h; exact Except.noConfusion h
    | ok p' =>
      rw [hi] at h
      simp only at h
      obtain ⟨ha1, hM1, hb1, hperm1⟩ := repackBucket_post ins hins _ _ _ hi hb
      obtain ⟨ha2, hM2, hb2, hperm2⟩ := ih _ _ h hb1
      refine ⟨ha2.trans ha1, Nat.le_trans hM1 hM2, hb2, ?_⟩
      refine hperm2.trans ?_
      refine (List.Perm.append_left _ hperm1).trans ?_
      show (entries tmp ++ (b ++ entries p.storage)).Perm ((b ++ entries tmp) ++ entries p.storage)
      rw [← List.append_assoc]
      exact List.Perm.append_right _ List.perm_append_comm

theorem sc_repackWith_post
    (ins : HashTableSeparateChaining V → Nat → V →
      Except Err (HashTableSeparateChaining V × (Nat × Nat)))
    (hins : ∀ p key elem r, ins p key elem = .ok r → InsPost p key elem r)
    (t tr : HashTableSeparateChaining V) (h : repackWith ins t = .ok tr) :
    tr.a = t.a ∧ t.M < tr.M ∧ Built tr ∧ (entries tr.storage).Perm (entries t.storage) := by
  unfold repackWith at h
  obtain ⟨ha, hM, hb, hperm⟩ := sc_repackLoop_post ins hins _ _ _ h
    (built_empty _ (by simp [getTableSize_eq]) rfl)
  simp only at ha hM hperm
  refine ⟨ha, hM, hb, ?_⟩
  rw [entries_replicate, List.append_nil] at hperm
  exact hperm

theorem sc_insertWithoutSearch_post (fuel : Nat) :
    ∀ (t : HashTableSeparateChaining V) (key : Nat) (elem : V)
      (r : HashTableSeparateChaining V × (Nat × Nat)),
      insertWithoutSearch fuel t key elem = .ok r → InsPost t key elem r := by
  induction fuel with
  | zero => intro t key elem r h; exact Except.noConfusion h
  | succ fuel ih =>
    intro t key elem r h
    rw [sc_insertWithoutSearch_succ] at h
    by_cases hload : t.size + 1 > fillLimit t.storage.length
    · rw [if_pos hload] at h
      cases h1 : repackWith (insertWithoutSearch fuel) t with
      | error e => rw [h1] at h; exact Except.noConfusion h
      | ok t1 =>
        rw [h1] at h
        obtain ⟨ha, hM, hb, hperm⟩ := sc_repackWith_post _ ih _ _ h1
        have hr := (Except.ok.inj h).symm
        subst hr
        exact ⟨t1, ⟨ha, Or.inr ⟨hM, hb⟩, hperm⟩, rfl, rfl⟩
    · rw [if_neg hload] at h
      have hr := (Except.ok.inj h).symm
      subst hr
      exact ⟨t, ⟨rfl, Or.inl ⟨rfl, by omega⟩, List.Perm.refl _⟩, rfl, rfl⟩

end HashTableSeparateChaining

end PanovaElena

namespace PanovaElena

namespace HashTableSeparateChaining

variable {V : Type}

/-! ## Separate chaining: termination under the load bound -/

theorem insertWithoutSearch_one (p : HashTableSeparateChaining V) (key : Nat) (elem : V)
    (h : p.size + 1 ≤ fillLimit p.storage.length) :
    insertWithoutSearch 1 p key elem =
      .ok (push p key elem, iterator (push p key elem).storage (hash p.a p.M key) 0) := by
  rw [sc_insertWithoutSearch_succ, if_neg (by omega)]

theorem repackBucket_one :
    ∀ (l : List (Nat × V)) (p : HashTableSeparateChaining V),
      p.size + l.length ≤ fillLimit p.storage.length →
      ∃ pf, repackBucket (insertWithoutSearch 1) l p = .ok pf ∧
        pf.size = p.size + l.length ∧ pf.storage.length = p.storage.length := by
  intro l
  induction l with
  | nil => intro p _; exact ⟨p, rfl, rfl, rfl⟩
  | cons e l ih =>
    intro p h
    simp only [List.length_cons] at h
    obtain ⟨pf, h1, h2, h3⟩ := ih (push p e.1 e.2) (by
      show p.size + 1 + l.length ≤ fillLimit (p.storage.set _ _).length
      rw [List.length_set]; omega)
    refine ⟨pf, ?_, ?_, ?_⟩
    · unfold repackBucket
      rw [insertWithoutSearch_one p e.1 e.2 (by omega)]
      exact h1
    · rw [h2]
      show p.size + 1 + l.length = p.size + (l.length + 1)
      omega
    · rw [h3]
      exact List.length_set _ _ _

theorem repackLoop_one :
    ∀ (tmp : List (List (Nat × V))) (p : HashTableSeparateChaining V),
      p.size + (entries tmp).length ≤ fillLimit p.storage.length →
      ∃ pf, repackLoop (insertWithoutSearch 1) tmp p = .ok pf ∧
        pf.size = p.size + (entries tmp).length ∧ pf.storage.length = p.storage.length := by
  intro tmp
  induction tmp with
  | nil => intro p _; exact ⟨p, rfl, rfl, rfl⟩
  | cons b tmp ih =>
    intro p h
    have hlen : (entries (b :: tmp)).length = b.length + (entries tmp).length := by
      show (b ++ entries tmp).length = _
      exact List.length_append _ _
    rw [hlen] at h
    obtain ⟨p1, h1, h2, h3⟩ := repackBucket_one b p (by omega)
    obtain ⟨pf, h4, h5, h6⟩ := ih p1 (by rw [h2, h3]; omega)
    refine ⟨pf, ?_, ?_, ?_⟩
    · unfold repackLoop
      rw [h1]
      exact h4
    · rw [h5, h2, hlen]; omega
    · rw [h6, h3]

/-- Under the invariant two levels of calls suffice: `repack` reinserts without a nested
`repack`. -/
theorem sc_insertWithoutSearch_terminates (t : HashTableSeparateChaining V)
    (hb : Built t) (hload : t.size ≤ fillLimit t.storage.length) (key : Nat) (elem : V) :
    ∃ r, insertWithoutSearch 2 t key elem = .ok r := by
  rw [sc_insertWithoutSearch_succ]
  by_cases h : t.size + 1 > fillLimit t.storage.length
  · rw [if_pos h]
    have hrep : ∃ tr, repackWith (insertWithoutSearch 1) t = .ok tr := by
      unfold repackWith
      obtain ⟨pf, h1, _, _⟩ := repackLoop_one t.storage
        { t with M := t.M + 1, storage := List.replicate (getTableSize (t.M + 1)) [],
                 size := 0 } (by
          show 0 + (entries t.storage).length ≤ fillLimit (List.replicate _ _).length
          rw [List.length_replicate, getTableSize_eq, ← hb.size_eq]
          have h1 := hb.wf
          have h2 : fillLimit t.storage.length ≤ fillLimit (2 ^ (t.M + 1)) := by
            apply fillLimit_mono
            rw [h1]
            exact Nat.pow_le_pow_right (by omega) (by omega)
          omega)
      exact ⟨pf, h1⟩
    obtain ⟨tr, htr⟩ := hrep
    rw [htr]
    exact ⟨_, rfl⟩
  · rw [if_neg h]
    exact ⟨_, rfl⟩

/-! ## Separate chaining: the invariant of the reachable states -/

theorem bucket_sublist (st : List (List (Nat × V))) (i : Nat) :
    (st.getD i []).Sublist (entries st) := by
  by_cases hi : i < st.length
  · rw [List.getD_eq_getElem?_getD, List.getElem?_eq_getElem hi]
    exact List.sublist_flatten_of_mem (List.getElem_mem hi)
  · rw [List.getD_eq_getElem?_getD, List.getElem?_eq_none (by omega)]
    exact List.nil_sublist _

theorem firstWith_iff_mem (t : HashTableSeparateChaining V) (hb : Built t)
    (hnd : ((entries t.storage).map Prod.fst).Nodup) (key : Nat) (v : V) :
    firstWith key (t.storage.getD (hash t.a t.M key) []) = some (key, v) ↔
      (key, v) ∈ entries t.storage := by
  constructor
  · intro h
    exact (bucket_sublist _ _).subset (firstWith_some _ _ _ h).1
  · intro h
    obtain ⟨i, hi, he⟩ := (mem_entries _ _).mp h
    have hpl := hb.placed i hi _ he
    simp only at hpl
    rw [hpl]
    apply firstWith_of_mem _ _ _ _ he
    exact List.Nodup.sublist ((bucket_sublist _ _).map Prod.fst) hnd

theorem absent_iff_not_mem (t : HashTableSeparateChaining V) (hb : Built t) (key : Nat) :
    firstWith key (t.storage.getD (hash t.a t.M key) []) = none ↔
      key ∉ (entries t.storage).map Prod.fst := by
  rw [firstWith_eq_none_iff]
  constructor
  · intro h hmem
    obtain ⟨e, he, hk⟩ := List.mem_map.mp hmem
    obtain ⟨i, hi, hei⟩ := (mem_entries _ _).mp he
    have hpl := hb.placed i hi _ hei
    rw [hk] at hpl
    rw [hpl] at h
    exact h e hei hk
  · intro h e he hk
    apply h
    exact List.mem_map.mpr ⟨e, (bucket_sublist _ _).subset he, hk⟩

/-- Two tables with the same entries return the same values. -/
theorem lookup_eq_of_perm (t t' : HashTableSeparateChaining V) (hb : Built t) (hb' : Built t')
    (hnd : ((entries t.storage).map Prod.fst).Nodup)
    (hperm : (entries t'.storage).Perm (entries t.storage)) (key : Nat) :
    lookup t' key = lookup t key := by
  have hnd' : ((entries t'.storage).map Prod.fst).Nodup :=
    (hperm.map Prod.fst).nodup_iff.mpr hnd
  rw [sc_lookup_eq, sc_lookup_eq]
  apply congrArg Except.ok
  apply Option.ext
  intro v
  simp only [Option.mem_def, Option.map_eq_some', Prod.exists, exists_eq_right]
  constructor
  · rintro ⟨k, h⟩
    have hk := (firstWith_some _ _ _ h).2
    simp only at hk
    subst hk
    exact ⟨k, (firstWith_iff_mem t hb hnd k v).mpr
      (hperm.mem_iff.mp ((firstWith_iff_mem t' hb' hnd' k v).mp h))⟩
  · rintro ⟨k, h⟩
    have hk := (firstWith_some _ _ _ h).2
    simp only at hk
    subst hk
    exact ⟨k, (firstWith_iff_mem t' hb' hnd' k v).mpr
      (hperm.mem_iff.mpr ((firstWith_iff_mem t hb hnd k v).mp h))⟩

theorem inv_empty (t : HashTableSeparateChaining V)
    (hs : t.storage = List.replicate (2 ^ t.M) []) (hz : t.size = 0) : Inv t := by
  refine ⟨built_empty t hs hz, ?_, ?_⟩
  · rw [hs, entries_replicate]; exact List.nodup_nil
  · rw [hz]; exact Nat.zero_le _

theorem sc_inv_construct (M a : Nat) : Inv (construct M a : HashTableSeparateChaining V) :=
  inv_empty _ (by simp [construct, getTableSize_eq]) rfl

theorem sc_inv_clear (t : HashTableSeparateChaining V) : Inv (clear t) :=
  inv_empty _ (by simp [clear, getTableSize_eq]) rfl

theorem insert_eq_of_absent (fuel : Nat) (t : HashTableSeparateChaining V) (key : Nat)
    (elem : V) (habs : find t key = .ok (end_ t)) :
    insert fuel t key elem =
      match insertWithoutSearch fuel t key elem with
      | .error e => .error e
      | .ok (t', it) => .ok (t', it, true) := by
  unfold insert Table.insert
  simp only [derived, habs, ne_eq, not_true_eq_false, ↓reduceIte]
  rcases insertWithoutSearch fuel t key elem with e | ⟨t', it⟩ <;> rfl

theorem insert_eq_of_present (fuel : Nat) (t : HashTableSeparateChaining V) (key : Nat)
    (elem : V) (it : Nat × Nat) (hf : find t key = .ok it) (hne : it ≠ end_ t) :
    insert fuel t key elem = .ok (t, it, false) := by
  unfold insert Table.insert
  simp only [derived, hf, ne_eq, hne, not_false_eq_true, ↓reduceIte]

theorem find_total (t : HashTableSeparateChaining V) (key : Nat) :
    ∃ it, find t key = .ok it := by
  rw [sc_find_eq]
  split
  · exact ⟨_, rfl⟩
  · exact ⟨_, rfl⟩

/-- The table in which a returning `insertWithoutSearch` of an absent key writes. -/
theorem sc_insertWithoutSearch_absent (fuel : Nat) (t t' : HashTableSeparateChaining V)
    (key : Nat) (elem : V) (it : Nat × Nat) (hinv : Inv t)
    (habs : find t key = .ok (end_ t))
    (h : insertWithoutSearch fuel t key elem = .ok (t', it)) :
    ∃ tm, Trans t tm ∧ Built tm ∧ ((entries tm.storage).map Prod.fst).Nodup ∧
      key ∉ (entries tm.storage).map Prod.fst ∧ t' = push tm key elem ∧
      it = (hash tm.a tm.M key, 0) ∧ Inv t' := by
  obtain ⟨tm, htrans, hp, hit⟩ := sc_insertWithoutSearch_post _ _ _ _ _ h
  simp only at hp hit
  have hbm := trans_built t tm htrans hinv.built
  have hndm : ((entries tm.storage).map Prod.fst).Nodup :=
    (htrans.perm.map Prod.fst).nodup_iff.mpr hinv.nodup
  have hnot : key ∉ (entries tm.storage).map Prod.fst := by
    rw [(htrans.perm.map Prod.fst).mem_iff]
    exact (absent_iff_not_mem t hinv.built key).mp ((sc_absent_iff t key).mp habs)
  have hlt : hash tm.a tm.M key < tm.storage.length := by
    rw [hbm.wf]; exact hash_lt _ _ _
  refine ⟨tm, htrans, hbm, hndm, hnot, hp, ?_, ?_⟩
  · rw [hit]
    apply iterator_of_ne
    rw [push_getD tm key elem _ hlt, if_pos rfl]
    simp
  · rw [hp]
    refine ⟨built_push tm hbm key elem, ?_, ?_⟩
    · rw [((entries_push tm key elem hlt).map Prod.fst).nodup_iff, List.map_cons,
        List.nodup_cons]
      exact ⟨hnot, hndm⟩
    · show tm.size + 1 ≤ fillLimit (tm.storage.set _ _).length
      rw [List.length_set]
      rcases htrans.grown with ⟨h1, h2⟩ | ⟨h1, _⟩
      · rw [h1]; exact h2
      · have hs : tm.size = t.size := by
          rw [hbm.size_eq, hinv.built.size_eq, htrans.perm.length_eq]
        have hl := hinv.load
        rw [hinv.built.wf] at hl
        rw [hbm.wf, hs]
        have hpow : 2 * 2 ^ t.M ≤ 2 ^ tm.M := by
          have : 2 ^ (t.M + 1) ≤ 2 ^ tm.M := Nat.pow_le_pow_right (by omega) h1
          rw [Nat.pow_succ] at this
          omega
        have hpos : 0 < 2 ^ t.M := Nat.pow_pos (by omega)
        have := fillLimit_mono hpow
        unfold fillLimit at hl this ⊢
        rcases Nat.lt_or_ge (2 ^ t.M) 2 with h2 | h2
        · have h3 : 2 ^ t.M = 1 := by omega
          rw [h3] at hl this
          omega
        · omega

theorem sc_inv_insert (fuel : Nat) (t t' : HashTableSeparateChaining V) (key : Nat) (elem : V)
    (it : Nat × Nat) (b : Bool) (hinv : Inv t)
    (h : insert fuel t key elem = .ok (t', it, b)) : Inv t' := by
  obtain ⟨it0, hf⟩ := find_total t key
  by_cases habs : it0 = end_ t
  · rw [habs] at hf
    rw [insert_eq_of_absent fuel t key elem hf] at h
    cases hi : insertWithoutSearch fuel t key elem with
    | error e => rw [hi] at h; exact Except.noConfusion h
    | ok r =>
      obtain ⟨t'', it''⟩ := r
      rw [hi] at h
      have := Except.ok.inj h
      simp only [Prod.mk.injEq] at this
      obtain ⟨tm, _, _, _, _, _, _, hinv'⟩ :=
        sc_insertWithoutSearch_absent fuel t t'' key elem it'' hinv hf hi
      rw [← this.1]; exact hinv'
  · rw [insert_eq_of_present fuel t key elem it0 hf habs] at h
    have := Except.ok.inj h
    simp only [Prod.mk.injEq] at this
    rw [← this.1]; exact hinv

end HashTableSeparateChaining

end PanovaElena

namespace PanovaElena

namespace HashTableSeparateChaining

variable {V : Type}

/-! ## Separate chaining: `erase` -/

theorem erase_eq_of_absent (t : HashTableSeparateChaining V) (key : Nat)
    (habs : find t key = .ok (end_ t)) : erase t key = .ok (t, false) := by
  unfold erase Table.erase
  simp only [derived, habs, ↓reduceIte]

theorem erase_eq_of_present (t : HashTableSeparateChaining V) (key : Nat)
    (hpres : find t key ≠ .ok (end_ t)) :
    ∃ e0, (t.storage.getD (hash t.a t.M key) [])[findInList key
        (t.storage.getD (hash t.a t.M key) [])]? = some e0 ∧ e0.1 = key ∧
      find t key = .ok (hash t.a t.M key,
        findInList key (t.storage.getD (hash t.a t.M key) [])) ∧
      erase t key = .ok (unlink t (hash t.a t.M key)
        (findInList key (t.storage.getD (hash t.a t.M key) [])), true) := by
  have hne : firstWith key (t.storage.getD (hash t.a t.M key) []) ≠ none :=
    fun h => hpres ((sc_absent_iff t key).mpr h)
  obtain ⟨e0, he0⟩ := Option.ne_none_iff_exists'.mp hne
  have hk := (firstWith_some _ _ _ he0).2
  have hlen : findInList key (t.storage.getD (hash t.a t.M key) []) ≠
      (t.storage.getD (hash t.a t.M key) []).length :=
    fun h => hne ((firstWith_eq_none_iff_length _ _).mpr h)
  have hf : find t key = .ok (hash t.a t.M key,
      findInList key (t.storage.getD (hash t.a t.M key) [])) := by
    rw [sc_find_eq, if_neg hlen]
  have hlt : findInList key (t.storage.getD (hash t.a t.M key) []) <
      (t.storage.getD (hash t.a t.M key) []).length := by
    have := findInList_le key (t.storage.getD (hash t.a t.M key) [])
    omega
  refine ⟨e0, he0, hk, hf, ?_⟩
  unfold erase Table.erase
  simp only [derived, hf]
  rw [if_neg (hit_ne_end t _ _ hlt)]
  have he0' : (t.storage.getD (hash t.a t.M key) [])[findInList key
      (t.storage.getD (hash t.a t.M key) [])]? = some e0 := he0
  simp only [eraseWithoutSearch, he0', hk, ↓reduceIte]
  rfl

theorem unlink_getD (t : HashTableSeparateChaining V) (h idx i : Nat) :
    (unlink t h idx).storage.getD i [] =
      if i = h then (t.storage.getD h []).eraseIdx idx else t.storage.getD i [] := by
  unfold unlink
  simp only
  split
  · rename_i hi
    subst hi
    by_cases hlt : i < t.storage.length
    · exact getD_set_self _ _ _ hlt
    · rw [List.set_eq_of_length_le (by omega)]
      rw [List.getD_eq_getElem?_getD, List.getElem?_eq_none (by omega)]
      rfl
  · rename_i hi
    exact getD_set_ne _ _ _ _ (fun hh => hi hh.symm)

theorem inv_unlink (t : HashTableSeparateChaining V) (hinv : Inv t) (h idx : Nat)
    (e0 : Nat × V) (he0 : (t.storage.getD h [])[idx]? = some e0) :
    Inv (unlink t h idx) ∧ (unlink t h idx).size + 1 = t.size ∧
      e0.1 ∉ (entries (unlink t h idx).storage).map Prod.fst := by
  have hperm := entries_set_eraseIdx t.storage h idx e0 he0
  have hlen : (entries (unlink t h idx).storage).length + 1 = (entries t.storage).length := by
    have := hperm.length_eq
    rw [List.length_cons] at this
    exact this
  have hsize : (unlink t h idx).size + 1 = t.size := by
    show decr32 t.size + 1 = t.size
    have := hinv.built.size_eq
    unfold decr32
    rw [if_neg (by omega)]
    omega
  have hnd : (e0.1 :: (entries (unlink t h idx).storage).map Prod.fst).Nodup := by
    have := (hperm.map Prod.fst).nodup_iff.mpr hinv.nodup
    rw [List.map_cons] at this
    exact this
  rw [List.nodup_cons] at hnd
  refine ⟨⟨⟨?_, ?_, ?_⟩, hnd.2, ?_⟩, hsize, hnd.1⟩
  · show (t.storage.set _ _).length = 2 ^ t.M
    rw [List.length_set]; exact hinv.built.wf
  · intro i hi e he
    have hi' : i < t.storage.length := by
      have : i < (t.storage.set h ((t.storage.getD h []).eraseIdx idx)).length := hi
      simpa using this
    rw [unlink_getD] at he
    show hash t.a t.M e.1 = i
    split at he
    · rename_i hih
      subst hih
      exact hinv.built.placed i hi' e (List.mem_of_mem_eraseIdx he)
    · exact hinv.built.placed i hi' e he
  · have := hinv.built.size_eq
    omega
  · show decr32 t.size ≤ fillLimit (t.storage.set _ _).length
    rw [List.length_set]
    have := hinv.load
    have : decr32 t.size + 1 = t.size := hsize
    omega

theorem sc_inv_erase (t t' : HashTableSeparateChaining V) (key : Nat) (b : Bool) (hinv : Inv t)
    (h : erase t key = .ok (t', b)) : Inv t' := by
  by_cases habs : find t key = .ok (end_ t)
  · rw [erase_eq_of_absent t key habs] at h
    have := Except.ok.inj h
    simp only [Prod.mk.injEq] at this
    rw [← this.1]; exact hinv
  · obtain ⟨e0, he0, _, _, he⟩ := erase_eq_of_present t key habs
    rw [he] at h
    have := Except.ok.inj h
    simp only [Prod.mk.injEq] at this
    rw [← this.1]
    exact (inv_unlink t hinv _ _ e0 he0).1

theorem sc_inv_of_reachable (t : HashTableSeparateChaining V) (h : Reachable t) : Inv t := by
  induction h with
  | construct M a => exact sc_inv_construct M a
  | insert _ hi ih => exact sc_inv_insert _ _ _ _ _ _ _ ih hi
  | erase _ he ih => exact sc_inv_erase _ _ _ _ ih he
  | clear _ _ => exact sc_inv_clear _

/-- Separate chaining, under the invariant: `erase` returns `true` exactly on a hit, after
which the key is a miss and `size` is one less. -/
theorem sc_erase_self_of_inv (t : HashTableSeparateChaining V) (hinv : Inv t) (key : Nat) :
    ∃ t' b, erase t key = .ok (t', b) ∧
      (b = true ↔ find t key ≠ .ok (end_ t)) ∧
      (b = true → find t' key = .ok (end_ t') ∧ getSize t' + 1 = getSize t) := by
  by_cases habs : find t key = .ok (end_ t)
  · refine ⟨t, false, erase_eq_of_absent t key habs, ?_, fun hb => Bool.noConfusion hb⟩
    constructor
    · intro hb; exact Bool.noConfusion hb
    · intro hne; exact absurd habs hne
  · obtain ⟨e0, he0, hk, _, he⟩ := erase_eq_of_present t key habs
    refine ⟨_, true, he, ⟨fun _ => habs, fun _ => rfl⟩, fun _ => ?_⟩
    obtain ⟨hinv', hsize, hnot⟩ := inv_unlink t hinv _ _ e0 he0
    refine ⟨?_, hsize⟩
    rw [sc_absent_iff]
    rw [hk] at hnot
    exact (absent_iff_not_mem _ hinv'.built key).mpr hnot

/-! ## Separate chaining: inserting an absent key -/

theorem lookup_push_self (tm : HashTableSeparateChaining V) (key : Nat) (elem : V)
    (hlt : hash tm.a tm.M key < tm.storage.length) :
    find (push tm key elem) key = .ok (hash tm.a tm.M key, 0) ∧
      lookup (push tm key elem) key = .ok (some elem) := by
  have hb : (push tm key elem).storage.getD (hash tm.a tm.M key) [] =
      (key, elem) :: tm.storage.getD (hash tm.a tm.M key) [] := by
    rw [push_getD tm key elem _ hlt, if_pos rfl]
  have ha : (push tm key elem).a = tm.a := rfl
  have hM : (push tm key elem).M = tm.M := rfl
  have h0 : findInList key ((key, elem) :: tm.storage.getD (hash tm.a tm.M key) []) = 0 := by
    simp [findInList]
  constructor
  · rw [sc_find_eq, ha, hM, hb, h0, if_neg]
    simp
  · rw [sc_lookup_eq]
    show Except.ok (Option.map Prod.snd
      (firstWith key ((push tm key elem).storage.getD (hash tm.a tm.M key) []))) = _
    rw [hb, firstWith_cons]
    simp

theorem lookup_push_other (tm : HashTableSeparateChaining V) (key : Nat) (elem : V)
    (hlt : hash tm.a tm.M key < tm.storage.length) (key' : Nat) (hne : key' ≠ key) :
    lookup (push tm key elem) key' = lookup tm key' := by
  rw [sc_lookup_eq, sc_lookup_eq]
  show Except.ok (Option.map Prod.snd
    (firstWith key' ((push tm key elem).storage.getD (hash tm.a tm.M key') []))) = _
  rw [push_getD tm key elem _ hlt]
  split
  · rename_i hh
    rw [firstWith_cons, if_neg (fun h => hne h.symm)]
  · rfl

/-- Separate chaining: inserting an absent key into a table that satisfies the invariant
returns; afterwards the key is found at the returned locator with the inserted value, and
every other key is looked up as before. -/
theorem sc_insert_absent_of_inv (t : HashTableSeparateChaining V) (hinv : Inv t) (key : Nat)
    (elem : V) (habs : find t key = .ok (end_ t)) :
    ∃ fuel t' it, insert fuel t key elem = .ok (t', it, true) ∧
      Inv t' ∧ find t' key = .ok it ∧ lookup t' key = .ok (some elem) ∧
      (∀ key', key' ≠ key → lookup t' key' = lookup t key') ∧
      (∀ fuel' r, insert fuel' t key elem = .ok r → r = (t', it, true)) := by
  obtain ⟨⟨t', it⟩, hi⟩ := sc_insertWithoutSearch_terminates t hinv.built hinv.load key elem
  obtain ⟨tm, htrans, hbm, hndm, hnot, hp, hit, hinv'⟩ :=
    sc_insertWithoutSearch_absent 2 t t' key elem it hinv habs hi
  have hlt : hash tm.a tm.M key < tm.storage.length := by
    rw [hbm.wf]; exact hash_lt _ _ _
  refine ⟨2, t', it, ?_, hinv', ?_, ?_, ?_, ?_⟩
  · rw [insert_eq_of_absent 2 t key elem habs, hi]
  · rw [hp, hit]; exact (lookup_push_self tm key elem hlt).1
  · rw [hp]; exact (lookup_push_self tm key elem hlt).2
  · intro key' hne
    rw [hp, lookup_push_other tm key elem hlt key' hne]
    exact lookup_eq_of_perm t tm hinv.built hbm hinv.nodup htrans.perm key'
  · intro fuel' r hr
    rw [insert_eq_of_absent fuel' t key elem habs] at hr
    cases hi' : insertWithoutSearch fuel' t key elem with
    | error e => rw [hi'] at hr; exact Except.noConfusion hr
    | ok r' =>
      obtain ⟨t'', it''⟩ := r'
      rw [hi'] at hr
      have hdet := sc_insertWithoutSearch_det fuel' 2 t key elem _ _ hi' hi
      simp only [Prod.mk.injEq] at hdet
      rw [← Except.ok.inj hr, hdet.1, hdet.2]

end HashTableSeparateChaining

end PanovaElena

namespace PanovaElena

namespace HashTableOpenAddressing

variable {V : Type} [Inhabited V]

/-! ## Open addressing: growth, and tables filled without `erase` -/

theorem insertWithoutSearch_grows (fuel : Nat) (t : HashTableOpenAddressing V) (key : Nat)
    (elem : V) (r : HashTableOpenAddressing V × Nat)
    (h : insertWithoutSearch fuel t key elem = .ok r)
    (hload : t.size + 1 > fillLimit t.storage.length) : t.M < r.1.M := by
  cases fuel with
  | zero => exact Except.noConfusion h
  | succ fuel =>
    rw [insertWithoutSearch_succ, if_pos hload] at h
    cases h1 : repackWith (insertWithoutSearch fuel) t with
    | error e => rw [h1] at h; exact Except.noConfusion h
    | ok t1 =>
      rw [h1] at h
      simp only at h
      have hp1 := (repack_post fuel t t1 h1).1
      split at h
      · cases h2 : repackWith (insertWithoutSearch fuel) t1 with
        | error e => rw [h2] at h; exact Except.noConfusion h
        | ok t2 =>
          rw [h2] at h
          simp only at h
          have hp2 := (repack_post fuel t1 t2 h2).1
          obtain ⟨tm, htr, _, hr, _⟩ := insertWithoutSearch_post _ _ _ _ _ h
          have hM : t2.M ≤ tm.M := by
            rcases htr.grown with h3 | h3
            · rw [h3]
            · exact Nat.le_of_lt h3.1
          rw [hr]
          show t.M < tm.M
          have := hp1.M_lt
          have := hp2.M_lt
          omega
      · have hr := (Except.ok.inj h).symm
        subst hr
        exact hp1.M_lt

/-- The counters of a table that has no tombstone and counts its occupied cells. -/
theorem counts_place (tm : HashTableOpenAddressing V) (it key : Nat) (elem : V)
    (hlt : it < tm.storage.length)
    (ho : (cellAt tm.storage it).label.is_cell_not_empty = false)
    (hu : usedCount tm.storage = occCount tm.storage) (hs : tm.size = occCount tm.storage) :
    usedCount (place tm it key elem).storage = occCount (place tm it key elem).storage ∧
      (place tm it key elem).size = occCount (place tm it key elem).storage := by
  have h1 := occCount_place tm it key elem hlt ho
  have h2 := usedCount_set_le tm.storage it ⟨key, elem, ⟨true, false⟩⟩
  have h3 := occCount_le_usedCount (place tm it key elem).storage
  rw [place_storage] at h1 h3 ⊢
  have h4 : (place tm it key elem).size = tm.size + 1 := rfl
  rw [h4]
  omega

theorem filled_spec (t : HashTableOpenAddressing V) (kvs : List (Nat × V))
    (h : Filled t kvs) :
    Inv t ∧ usedCount t.storage = occCount t.storage ∧ t.size = occCount t.storage ∧
      t.size = kvs.length ∧ (∀ k v, Live t.storage k v ↔ (k, v) ∈ kvs) := by
  induction h with
  | construct M a =>
    have hinv := inv_construct (V := V) M a
    have h0 : usedCount (construct M a : HashTableOpenAddressing V).storage = 0 :=
      usedCount_replicate _
    have h1 := occCount_le_usedCount (construct M a : HashTableOpenAddressing V).storage
    refine ⟨hinv, by omega, ?_, rfl, ?_⟩
    · show 0 = occCount _
      omega
    · intro k v
      constructor
      · intro hl; exact absurd hl (not_live_replicate _ _ _)
      · intro hm; exact absurd hm (List.not_mem_nil _)
  | @insert t t' kvs fuel key elem it b _ hnot hi ih =>
    obtain ⟨hinv, hu, hs, hlen, hlive⟩ := ih
    have habs : findIn t.storage key (hash t.a t.M key) = t.storage.length := by
      apply absent_of_not_live
      intro v hv
      exact hnot (List.mem_map.mpr ⟨(key, v), (hlive key v).mp hv, rfl⟩)
    rw [insert_eq, if_neg (by simpa using habs)] at hi
    cases hi' : insertWithoutSearch fuel t key elem with
    | error e => rw [hi'] at hi; exact Except.noConfusion hi
    | ok r =>
      obtain ⟨t'', it''⟩ := r
      rw [hi'] at hi
      have heq := Except.ok.inj hi
      simp only [Prod.mk.injEq] at heq
      obtain ⟨tm, htrans, hinvm, hfree, hp, habsm⟩ :=
        insertWithoutSearch_absent fuel t t'' key elem it'' hinv habs hi'
      have hlt := freeSlot_lt _ _ _ hfree
      have hocc := freeSlot_not_occ _ _ _ hfree
      have hoccm : occCount tm.storage = occCount t.storage := by
        rw [occCount_eq, occCount_eq]; exact htrans.perm.length_eq
      have hcm : usedCount tm.storage = occCount tm.storage ∧ tm.size = occCount tm.storage := by
        rcases htrans.grown with h1 | ⟨_, _, h3, h4⟩
        · rw [h1]; exact ⟨hu, hs⟩
        · have := occCount_le_usedCount tm.storage
          constructor <;> omega
      have hc := counts_place tm it'' key elem hlt hocc hcm.1 hcm.2
      rw [← heq.1, hp]
      refine ⟨inv_place tm hinvm it'' key elem habsm hfree, hc.1, hc.2, ?_, ?_⟩
      · show tm.size + 1 = kvs.length + 1
        omega
      · intro k v
        rw [live_place tm it'' key elem hlt hocc, live_of_perm _ _ htrans.perm, hlive,
          List.mem_cons, Prod.mk.injEq]

theorem filled_lookup (t : HashTableOpenAddressing V) (kvs : List (Nat × V))
    (h : Filled t kvs) (k : Nat) (v : V) (hm : (k, v) ∈ kvs) :
    lookup t k = .ok (some v) := by
  obtain ⟨hinv, _, _, _, hlive⟩ := filled_spec t kvs h
  rw [lookup_eq]
  exact congrArg Except.ok ((valueAt_findIn_iff t hinv.good.fnd k v).mpr ((hlive k v).mpr hm))

/-- Open addressing: the insert that crosses the fill limit grows the table, and after
inserts of distinct keys only, nothing is lost. -/
theorem insert_grows_of_inv (t : HashTableOpenAddressing V) (hinv : Inv t) (key : Nat)
    (elem : V) (habs : find t key = .ok (end_ t))
    (hload : getSize t + 1 > fillLimit t.storage.length) :
    ∃ fuel t' it, insert fuel t key elem = .ok (t', it, true) ∧
      t.storage.length < t'.storage.length ∧
      (∀ fuel' r, insert fuel' t key elem = .ok r → r = (t', it, true)) := by
  obtain ⟨fuel, t', it, hi, hinv', _, _, _, hdet⟩ := insert_absent_of_inv t hinv key elem habs
  refine ⟨fuel, t', it, hi, ?_, hdet⟩
  have habs' := (absent_iff t key).mp habs
  rw [insert_eq, if_neg (by simpa using habs')] at hi
  cases hi' : insertWithoutSearch fuel t key elem with
  | error e => rw [hi'] at hi; exact Except.noConfusion hi
  | ok r =>
    obtain ⟨t'', it''⟩ := r
    rw [hi'] at hi
    have heq := Except.ok.inj hi
    simp only [Prod.mk.injEq] at heq
    have hM := insertWithoutSearch_grows fuel t key elem _ hi' hload
    rw [heq.1] at hM
    rw [hinv.good.wf, hinv'.good.wf]
    exact Nat.pow_lt_pow_right (by omega) hM

end HashTableOpenAddressing

namespace HashTableSeparateChaining

variable {V : Type}

/-! ## Separate chaining: growth, and tables filled without `erase` -/

theorem sc_filled_spec (t : HashTableSeparateChaining V) (kvs : List (Nat × V))
    (h : Filled t kvs) : Inv t ∧ (entries t.storage).Perm kvs := by
  induction h with
  | construct M a =>
    refine ⟨sc_inv_construct M a, ?_⟩
    show (entries (List.replicate _ _)).Perm []
    rw [entries_replicate]
  | @insert t t' kvs fuel key elem it b _ hnot hi ih =>
    obtain ⟨hinv, hperm⟩ := ih
    have habs : find t key = .ok (end_ t) := by
      rw [sc_absent_iff, absent_iff_not_mem t hinv.built, (hperm.map Prod.fst).mem_iff]
      exact hnot
    rw [insert_eq_of_absent fuel t key elem habs] at hi
    cases hi' : insertWithoutSearch fuel t key elem with
    | error e => rw [hi'] at hi; exact Except.noConfusion hi
    | ok r =>
      obtain ⟨t'', it''⟩ := r
      rw [hi'] at hi
      have heq := Except.ok.inj hi
      simp only [Prod.mk.injEq] at heq
      obtain ⟨tm, htrans, hbm, _, _, hp, _, hinv'⟩ :=
        sc_insertWithoutSearch_absent fuel t t'' key elem it'' hinv habs hi'
      have hlt : hash tm.a tm.M key < tm.storage.length := by
        rw [hbm.wf]; exact hash_lt _ _ _
      rw [← heq.1]
      refine ⟨hinv', ?_⟩
      rw [hp]
      exact (entries_push tm key elem hlt).trans (List.Perm.cons _ (htrans.perm.trans hperm))

theorem filled_size (t : HashTableSeparateChaining V) (kvs : List (Nat × V))
    (h : Filled t kvs) : getSize t = kvs.length := by
  obtain ⟨hinv, hperm⟩ := sc_filled_spec t kvs h
  show t.size = kvs.length
  rw [hinv.built.size_eq, hperm.length_eq]

theorem sc_filled_lookup (t : HashTableSeparateChaining V) (kvs : List (Nat × V))
    (h : Filled t kvs) (k : Nat) (v : V) (hm : (k, v) ∈ kvs) :
    lookup t k = .ok (some v) := by
  obtain ⟨hinv, hperm⟩ := sc_filled_spec t kvs h
  rw [sc_lookup_eq, (firstWith_iff_mem t hinv.built hinv.nodup k v).mpr (hperm.mem_iff.mpr hm)]
  rfl

/-- Separate chaining: the insert that crosses the fill limit grows the table. -/
theorem sc_insert_grows_of_inv (t : HashTableSeparateChaining V) (hinv : Inv t) (key : Nat)
    (elem : V) (habs : find t key = .ok (end_ t))
    (hload : getSize t + 1 > fillLimit t.storage.length) :
    ∃ fuel t' it, insert fuel t key elem = .ok (t', it, true) ∧
      t.storage.length < t'.storage.length ∧
      (∀ fuel' r, insert fuel' t key elem = .ok r → r = (t', it, true)) := by
  obtain ⟨fuel, t', it, hi, hinv', _, _, _, hdet⟩ := sc_insert_absent_of_inv t hinv key elem habs
  refine ⟨fuel, t', it, hi, ?_, hdet⟩
  rw [insert_eq_of_absent fuel t key elem habs] at hi
  cases hi' : insertWithoutSearch fuel t key elem with
  | error e => rw [hi'] at hi; exact Except.noConfusion hi
  | ok r =>
    obtain ⟨t'', it''⟩ := r
    rw [hi'] at hi
    have heq := Except.ok.inj hi
    simp only [Prod.mk.injEq] at heq
    obtain ⟨tm, htrans, hbm, _, _, hp, _, _⟩ :=
      sc_insertWithoutSearch_absent fuel t t'' key elem it'' hinv habs hi'
    rw [← heq.1, hp]
    show t.storage.length < (tm.storage.set _ _).length
    rw [List.length_set]
    rcases htrans.grown with ⟨_, h2⟩ | ⟨h1, _⟩
    · have : t.size + 1 > fillLimit t.storage.length := hload
      omega
    · rw [hinv.built.wf, hbm.wf]
      exact Nat.pow_lt_pow_right (by omega) h1

end HashTableSeparateChaining

end PanovaElena

namespace PanovaElena

/-! ## `Table::insert` and `Table::erase` on a present and on an absent key -/

theorem Table.insert_of_present {T V L : Type} [DecidableEq L] (der : Derived T V L) (t : T)
    (key : Nat) (elem : V) (it : L) (hf : der.find t key = .ok it) (hne : it ≠ der.end_ t) :
    Table.insert der t key elem = .ok (t, it, false) := by
  unfold Table.insert
  rw [hf]
  simp only [ne_eq, hne, not_false_eq_true, ↓reduceIte]

namespace HashTableOpenAddressing

variable {V : Type} [Inhabited V]

theorem reachable_afterInsert (fuel : Nat) (t : HashTableOpenAddressing V) (key : Nat)
    (elem : V) (h : Reachable t) : Reachable (afterInsert fuel t key elem) := by
  unfold afterInsert
  cases hi : insert fuel t key elem with
  | error e => exact h
  | ok r => exact Reachable.insert h (hi : insert fuel t key elem = .ok (r.1, r.2.1, r.2.2))

theorem reachable_afterErase (t : HashTableOpenAddressing V) (key : Nat)
    (h : Reachable t) : Reachable (afterErase t key) := by
  unfold afterErase
  cases hi : erase t key with
  | error e => exact h
  | ok r => exact Reachable.erase h (hi : erase t key = .ok (r.1, r.2))

theorem reachable_collisionTable : Reachable collisionTable :=
  reachable_afterInsert _ _ _ _ (reachable_afterInsert _ _ _ _
    (reachable_afterInsert _ _ _ _ (Reachable.construct 3 1)))

theorem reachable_spreadTable : Reachable spreadTable :=
  reachable_afterInsert _ _ _ _ (reachable_afterInsert _ _ _ _
    (reachable_afterInsert _ _ _ _ (reachable_afterInsert _ _ _ _
      (reachable_afterInsert _ _ _ _ (Reachable.construct 3 1)))))

theorem reachable_tombstoneTable : Reachable tombstoneTable :=
  reachable_afterInsert _ _ _ _ (reachable_afterErase _ _
    (reachable_afterInsert _ _ _ _ (Reachable.construct 1 1)))

theorem reachable_erasedThenFilled : Reachable erasedThenFilled :=
  reachable_afterInsert _ _ _ _ (reachable_afterInsert _ _ _ _
    (reachable_afterInsert _ _ _ _ (reachable_afterInsert _ _ _ _
      (reachable_afterInsert _ _ _ _ (reachable_afterErase _ _
        (reachable_afterInsert _ _ _ _ (Reachable.construct 3 1)))))))

theorem reachable_of_filled (t : HashTableOpenAddressing V) (kvs : List (Nat × V))
    (h : Filled t kvs) : Reachable t := by
  induction h with
  | construct M a => exact Reachable.construct M a
  | insert _ _ hi ih => exact Reachable.insert ih hi

theorem absent_of_filled (t : HashTableOpenAddressing V) (kvs : List (Nat × V))
    (h : Filled t kvs) (key : Nat) (hnot : key ∉ kvs.map Prod.fst) :
    find t key = .ok (end_ t) := by
  obtain ⟨_, _, _, _, hlive⟩ := filled_spec t kvs h
  rw [absent_iff]
  apply absent_of_not_live
  intro v hv
  exact hnot (List.mem_map.mpr ⟨(key, v), (hlive key v).mp hv, rfl⟩)

end HashTableOpenAddressing

namespace HashTableSeparateChaining

variable {V : Type}

theorem sc_reachable_afterInsert (fuel : Nat) (t : HashTableSeparateChaining V) (key : Nat)
    (elem : V) (h : Reachable t) : Reachable (afterInsert fuel t key elem) := by
  unfold afterInsert
  cases hi : insert fuel t key elem with
  | error e => exact h
  | ok r => exact Reachable.insert h (hi : insert fuel t key elem = .ok (r.1, r.2.1, r.2.2))

theorem sc_reachable_collisionTable : Reachable collisionTable :=
  sc_reachable_afterInsert _ _ _ _ (sc_reachable_afterInsert _ _ _ _
    (sc_reachable_afterInsert _ _ _ _ (Reachable.construct 3 1)))

theorem sc_reachable_spreadTable : Reachable spreadTable :=
  sc_reachable_afterInsert _ _ _ _ (sc_reachable_afterInsert _ _ _ _
    (sc_reachable_afterInsert _ _ _ _ (sc_reachable_afterInsert _ _ _ _
      (sc_reachable_afterInsert _ _ _ _ (Reachable.construct 3 1)))))

theorem sc_reachable_of_filled (t : HashTableSeparateChaining V) (kvs : List (Nat × V))
    (h : Filled t kvs) : Reachable t := by
  induction h with
  | construct M a => exact Reachable.construct M a
  | insert _ _ hi ih => exact Reachable.insert ih hi

theorem sc_absent_of_filled (t : HashTableSeparateChaining V) (kvs : List (Nat × V))
    (h : Filled t kvs) (key : Nat) (hnot : key ∉ kvs.map Prod.fst) :
    find t key = .ok (end_ t) := by
  obtain ⟨hinv, hperm⟩ := sc_filled_spec t kvs h
  rw [sc_absent_iff, absent_iff_not_mem t hinv.built, (hperm.map Prod.fst).mem_iff]
  exact hnot

end HashTableSeparateChaining

end PanovaElena

namespace PanovaElena

/-! ## The claims -/

namespace HashTableOpenAddressing

/-- C1. Open addressing: in every state reachable from a freshly constructed table by
insert/erase/clear, for every multiplier and every key absent from the table,
`insert(key, elem)` returns with `inserted = true`; afterwards `find(key)` is the returned
locator and yields `elem`, and every other key yields the same value as before the insert,
or a miss if it was a miss before, whether or not keys collide and whether or not the insert
repacked (any run of the insert that returns, returns this result). -/
theorem oa_insert_absent_then_find {V : Type} [Inhabited V] (t : HashTableOpenAddressing V)
    (hr : Reachable t) (key : Nat) (elem : V) (habs : find t key = .ok (end_ t)) :
    ∃ fuel t' it, insert fuel t key elem = .ok (t', it, true) ∧
      find t' key = .ok it ∧ lookup t' key = .ok (some elem) ∧
      (∀ key', key' ≠ key → lookup t' key' = lookup t key') ∧
      (∀ fuel' r, insert fuel' t key elem = .ok r → r = (t', it, true)) := by
  obtain ⟨fuel, t', it, h1, _, h2, h3, h4, h5⟩ :=
    insert_absent_of_inv t (inv_of_reachable t hr) key elem habs
  exact ⟨fuel, t', it, h1, h2, h3, h4, h5⟩

/-- Witness of C1: key 3 is absent from the fixture table holding the colliding keys 0, 1, 2;
its insert finds no free cell on its probe sequence and repacks. -/
theorem oa_insert_absent_then_find_witness :
    find collisionTable 3 = .ok (end_ collisionTable) ∧
    ∃ fuel t' it, insert fuel collisionTable 3 'd' = .ok (t', it, true) ∧
      find t' 3 = .ok it ∧ lookup t' 3 = .ok (some 'd') ∧
      (∀ key', key' ≠ 3 → lookup t' key' = lookup collisionTable key') ∧
      (∀ fuel' r, insert fuel' collisionTable 3 'd' = .ok r → r = (t', it, true)) :=
  ⟨by decide, oa_insert_absent_then_find collisionTable reachable_collisionTable 3 'd'
    (by decide)⟩

end HashTableOpenAddressing

namespace HashTableSeparateChaining

/-- Separate chaining, on the states of exponent at least 1, where the shift of `hash` is
defined: in every such state reachable from a freshly constructed table by
insert/erase/clear, for every multiplier and every key absent from the table,
`insert(key, elem)` returns with `inserted = true`; afterwards `find(key)` is the returned
locator and yields `elem`, and every other key yields the same value as before the insert,
or a miss if it was a miss before, whatever the collisions and whether or not the insert
repacked. -/
theorem sc_insert_absent_then_find {V : Type} (t : HashTableSeparateChaining V)
    (hr : Reachable t) (hM : 1 ≤ t.M) (key : Nat) (elem : V)
    (habs : find t key = .ok (end_ t)) :
    ∃ fuel t' it, insert fuel t key elem = .ok (t', it, true) ∧
      find t' key = .ok it ∧ lookup t' key = .ok (some elem) ∧
      (∀ key', key' ≠ key → lookup t' key' = lookup t key') ∧
      (∀ fuel' r, insert fuel' t key elem = .ok r → r = (t', it, true)) := by
  obtain ⟨fuel, t', it, h1, _, h2, h3, h4, h5⟩ :=
    sc_insert_absent_of_inv t (sc_inv_of_reachable t hr) key elem habs
  exact ⟨fuel, t', it, h1, h2, h3, h4, h5⟩

/-- An instance: the sixth key that does not collide is absent from the fixture table
(exponent 3) holding the first five; its insert repacks. -/
theorem sc_insert_absent_then_find_witness :
    1 ≤ spreadTable.M ∧
    find spreadTable (6 * 2 ^ 29) = .ok (end_ spreadTable) ∧
    ∃ fuel t' it, insert fuel spreadTable (6 * 2 ^ 29) 'f' = .ok (t', it, true) ∧
      find t' (6 * 2 ^ 29) = .ok it ∧ lookup t' (6 * 2 ^ 29) = .ok (some 'f') ∧
      (∀ key', key' ≠ 6 * 2 ^ 29 → lookup t' key' = lookup spreadTable key') ∧
      (∀ fuel' r, insert fuel' spreadTable (6 * 2 ^ 29) 'f' = .ok r → r = (t', it, true)) :=
  ⟨by decide, by decide,
    sc_insert_absent_then_find spreadTable sc_reachable_spreadTable (by decide) (6 * 2 ^ 29) 'f'
      (by decide)⟩

end HashTableSeparateChaining

/-- For open addressing in every reachable state, and for separate chaining in every
reachable state of exponent at least 1 (where the shift of `hash` is defined):
`erase(key)` returns, and returns `true` exactly when `find(key)` was a hit before the call;
after a successful `erase(key)`, `find(key)` is the end iterator and `getSize()` is one less
than before. -/
theorem erase_hit_then_miss {V : Type} [Inhabited V] :
    (∀ t : HashTableOpenAddressing V, HashTableOpenAddressing.Reachable t → ∀ key,
      ∃ t' b, HashTableOpenAddressing.erase t key = .ok (t', b) ∧
        (b = true ↔ HashTableOpenAddressing.find t key ≠
          .ok (HashTableOpenAddressing.end_ t)) ∧
        (b = true → HashTableOpenAddressing.find t' key =
            .ok (HashTableOpenAddressing.end_ t') ∧
          HashTableOpenAddressing.getSize t' + 1 = HashTableOpenAddressing.getSize t)) ∧
    (∀ t : HashTableSeparateChaining V, HashTableSeparateChaining.Reachable t →
      1 ≤ t.M → ∀ key,
      ∃ t' b, HashTableSeparateChaining.erase t key = .ok (t', b) ∧
        (b = true ↔ HashTableSeparateChaining.find t key ≠
          .ok (HashTableSeparateChaining.end_ t)) ∧
        (b = true → HashTableSeparateChaining.find t' key =
            .ok (HashTableSeparateChaining.end_ t') ∧
          HashTableSeparateChaining.getSize t' + 1 = HashTableSeparateChaining.getSize t)) :=
  ⟨fun t hr key => HashTableOpenAddressing.erase_self_of_inv t
      (HashTableOpenAddressing.inv_of_reachable t hr) key,
   fun t hr _ key => HashTableSeparateChaining.sc_erase_self_of_inv t
      (HashTableSeparateChaining.sc_inv_of_reachable t hr) key⟩

/-- An instance: erasing key 1 from the fixture tables (exponent 3) holding the colliding
keys 0, 1, 2 (test `cannot_find_element_if_it_is_erased`). -/
theorem erase_hit_then_miss_witness :
    (HashTableOpenAddressing.find HashTableOpenAddressing.collisionTable 1 ≠
        .ok (HashTableOpenAddressing.end_ HashTableOpenAddressing.collisionTable) ∧
      ∃ t' b, HashTableOpenAddressing.erase HashTableOpenAddressing.collisionTable 1 =
          .ok (t', b) ∧
        (b = true ↔ HashTableOpenAddressing.find HashTableOpenAddressing.collisionTable 1 ≠
          .ok (HashTableOpenAddressing.end_ HashTableOpenAddressing.collisionTable)) ∧
        (b = true → HashTableOpenAddressing.find t' 1 =
            .ok (HashTableOpenAddressing.end_ t') ∧
          HashTableOpenAddressing.getSize t' + 1 =
            HashTableOpenAddressing.getSize HashTableOpenAddressing.collisionTable)) ∧
    (HashTableSeparateChaining.find HashTableSeparateChaining.collisionTable 1 ≠
        .ok (HashTableSeparateChaining.end_ HashTableSeparateChaining.collisionTable) ∧
      ∃ t' b, HashTableSeparateChaining.erase HashTableSeparateChaining.collisionTable 1 =
          .ok (t', b) ∧
        (b = true ↔ HashTableSeparateChaining.find HashTableSeparateChaining.collisionTable 1 ≠
          .ok (HashTableSeparateChaining.end_ HashTableSeparateChaining.collisionTable)) ∧
        (b = true → HashTableSeparateChaining.find t' 1 =
            .ok (HashTableSeparateChaining.end_ t') ∧
          HashTableSeparateChaining.getSize t' + 1 =
            HashTableSeparateChaining.getSize HashTableSeparateChaining.collisionTable)) :=
  ⟨⟨by decide, (erase_hit_then_miss (V := Char)).1 _
      HashTableOpenAddressing.reachable_collisionTable 1⟩,
   ⟨by decide, (erase_hit_then_miss (V := Char)).2 _
      HashTableSeparateChaining.sc_reachable_collisionTable (by decide) 1⟩⟩

end PanovaElena

namespace PanovaElena

/-- C5. For every table strategy (unsorted, sorted, open addressing, separate chaining) and
every table state (so every reachable one) in which `find(key)` is a hit: `insert(key, elem)`
returns `inserted = false` together with the locator `find(key)` of the existing entry, and
the table state is unchanged, so the stored value, `getSize()` and the capacity are
unchanged and no entry is created. -/
theorem insert_present_unchanged {V : Type} [Inhabited V] :
    (∀ (t : UnsortedTable V) (key it : Nat), UnsortedTable.find t key = .ok it →
      it ≠ UnsortedTable.end_ t →
      ∀ elem, UnsortedTable.insert t key elem = .ok (t, it, false)) ∧
    (∀ (t : SortedTable V) (key it : Nat), SortedTable.find t key = .ok it →
      it ≠ SortedTable.end_ t →
      ∀ elem, SortedTable.insert t key elem = .ok (t, it, false)) ∧
    (∀ (t : HashTableOpenAddressing V) (key it : Nat),
      HashTableOpenAddressing.find t key = .ok it → it ≠ HashTableOpenAddressing.end_ t →
      ∀ fuel elem, HashTableOpenAddressing.insert fuel t key elem = .ok (t, it, false)) ∧
    (∀ (t : HashTableSeparateChaining V) (key : Nat) (it : Nat × Nat),
      HashTableSeparateChaining.find t key = .ok it → it ≠ HashTableSeparateChaining.end_ t →
      ∀ fuel elem, HashTableSeparateChaining.insert fuel t key elem = .ok (t, it, false)) :=
  ⟨fun t key it hf hne elem => Table.insert_of_present UnsortedTable.derived t key elem it hf hne,
   fun t key it hf hne elem => Table.insert_of_present SortedTable.derived t key elem it hf hne,
   fun t key it hf hne fuel elem =>
     Table.insert_of_present (HashTableOpenAddressing.derived fuel) t key elem it hf hne,
   fun t key it hf hne fuel elem =>
     Table.insert_of_present (HashTableSeparateChaining.derived fuel) t key elem it hf hne⟩

/-- Witness of C5: inserting key 1 a second time (tests `insert_existend_key_gives_false`
and `can_insert_and_find_first_element_if_collision`). -/
theorem insert_present_unchanged_witness :
    UnsortedTable.insert ⟨[(1, 'a')]⟩ 1 'b' = .ok (⟨[(1, 'a')]⟩, 0, false) ∧
    SortedTable.insert ⟨[(1, 'a')]⟩ 1 'b' = .ok (⟨[(1, 'a')]⟩, 0, false) ∧
    HashTableOpenAddressing.insert 1 HashTableOpenAddressing.collisionTable 1 'z' =
      .ok (HashTableOpenAddressing.collisionTable, 1, false) ∧
    HashTableSeparateChaining.insert 1 HashTableSeparateChaining.collisionTable 1 'z' =
      .ok (HashTableSeparateChaining.collisionTable, (0, 1), false) :=
  ⟨(insert_present_unchanged (V := Char)).1 ⟨[(1, 'a')]⟩ 1 0 (by decide) (by decide) 'b',
   (insert_present_unchanged (V := Char)).2.1 ⟨[(1, 'a')]⟩ 1 0 (by decide) (by decide) 'b',
   (insert_present_unchanged (V := Char)).2.2.1 HashTableOpenAddressing.collisionTable 1 1
     (by decide) (by decide) 1 'z',
   (insert_present_unchanged (V := Char)).2.2.2 HashTableSeparateChaining.collisionTable 1
     (0, 1) (by decide) (by decide) 1 'z'⟩

namespace HashTableOpenAddressing

/-- C7 (the code at a failing input). After `insert(0)`, `erase(0)` and five inserts into
the fixture table (capacity `2^3`, `a = 1`), the sixth insert repacks; `repack` reinserts the
tombstoned entry and counts it, so `getSize()` is 7 while the iteration from `begin()` to
`end()` visits 6 positions, the 6 occupied cells.  And after `insert(0)`, `erase(0)`,
`insert(2^31)`, `insert(1)`, `erase(1)`, `erase(2^31)` on a table of capacity `2^1`,
`isEmpty()` is false although `begin() == end()`. -/
theorem size_counts_reinserted_tombstones :
    Reachable (afterInsert 2 erasedThenFilled (6 * 2 ^ 29) 'f') ∧
    getSize (afterInsert 2 erasedThenFilled (6 * 2 ^ 29) 'f') = 7 ∧
    (positions (afterInsert 2 erasedThenFilled (6 * 2 ^ 29) 'f')).length = 6 ∧
    occCount (afterInsert 2 erasedThenFilled (6 * 2 ^ 29) 'f').storage = 6 ∧
    Reachable (afterErase (afterErase (afterInsert 2 tombstoneTable 1 'c') 1) (2 ^ 31)) ∧
    isEmpty (afterErase (afterErase (afterInsert 2 tombstoneTable 1 'c') 1) (2 ^ 31)) = false ∧
    begin (afterErase (afterErase (afterInsert 2 tombstoneTable 1 'c') 1) (2 ^ 31)) =
      end_ (afterErase (afterErase (afterInsert 2 tombstoneTable 1 'c') 1) (2 ^ 31)) :=
  ⟨reachable_afterInsert _ _ _ _ reachable_erasedThenFilled, by decide!, by decide!, by decide!,
   reachable_afterErase _ _ (reachable_afterErase _ _
     (reachable_afterInsert _ _ _ _ reachable_tombstoneTable)),
   by decide!, by decide!⟩

/-- Counterexample to C8 as stated: repacking the table of capacity `2^1` whose cell 0 is a
tombstone and whose cell 1 is occupied yields a table whose cell 0 is tombstoned again and
whose live count is 2, while the old array had one occupied cell. -/
theorem repack_keeps_tombstones_counterexample :
    repack 1 tombstoneTable =
      .ok ⟨[⟨0, 'a', ⟨false, true⟩⟩, default, ⟨2 ^ 31, 'b', ⟨true, false⟩⟩, default], 2, 1, 2⟩ ∧
    occCount tombstoneTable.storage = 1 := by
  decide!

/-- C8, amended. Open addressing `repack` returns on every table state (every run that
returns, returns the same table); the occupied cells of the new array hold exactly the
`(key, value)` entries of the old cells whose occupied flag was set, so their number is
unchanged; the new array has `2 ^ M` cells for the new, larger exponent `M`.  (Old
tombstoned cells are reinserted as well and keep their label; nothing is said about the
live count.) -/
theorem repack_carries_occupied_entries {V : Type} [Inhabited V]
    (t : HashTableOpenAddressing V) :
    ∃ fuel tr, repack fuel t = .ok tr ∧
      (∀ fuel' tr', repack fuel' t = .ok tr' → tr' = tr) ∧
      ((occCells tr.storage).map (fun c => (c.key, c.elem))).Perm
        ((occCells t.storage).map (fun c => (c.key, c.elem))) ∧
      occCount tr.storage = occCount t.storage ∧
      t.M < tr.M ∧ tr.storage.length = 2 ^ tr.M := by
  obtain ⟨fuel, tr, h⟩ := repack_terminates t
  have hp := (repack_post fuel t tr h).1
  refine ⟨fuel, tr, h, ?_, hp.perm.map _, ?_, hp.M_lt, hp.wf⟩
  · intro fuel' tr' h'
    have h1 := repack_mono fuel (max fuel fuel') (Nat.le_max_left _ _) t tr h
    have h2 := repack_mono fuel' (max fuel fuel') (Nat.le_max_right _ _) t tr' h'
    rw [h1] at h2
    exact (Except.ok.inj h2).symm
  · rw [occCount_eq, occCount_eq]
    exact hp.perm.length_eq

/-- C10 (the code at a failing input). A table constructed with exponent 1 and `a = 1`:
after `insert(0)`, `erase(0)`, `insert(2^31)`, the call `insert(1)` repacks to capacity 4;
`repack` counts the reinserted tombstone, so after the insert `getSize()` is 3, more than
`0.7 * 4`. -/
theorem load_factor_exceeded_after_insert :
    Reachable tombstoneTable ∧
    insert 2 tombstoneTable 1 'c' = .ok (afterInsert 2 tombstoneTable 1 'c', 0, true) ∧
    getSize (afterInsert 2 tombstoneTable 1 'c') = 3 ∧
    (afterInsert 2 tombstoneTable 1 'c').storage.length = 4 ∧
    ¬ (10 * getSize (afterInsert 2 tombstoneTable 1 'c') ≤
        7 * (afterInsert 2 tombstoneTable 1 'c').storage.length) :=
  ⟨reachable_tombstoneTable, by decide!, by decide!, by decide!, by decide!⟩

end HashTableOpenAddressing

/-- Separate chaining keeps the load factor: in every reachable state, so after every
insert, `10 * getSize() ≤ 7 * capacity`. -/
theorem HashTableSeparateChaining.load_factor_of_reachable {V : Type}
    (t : HashTableSeparateChaining V) (hr : HashTableSeparateChaining.Reachable t) :
    10 * HashTableSeparateChaining.getSize t ≤ 7 * t.storage.length := by
  have h := (HashTableSeparateChaining.sc_inv_of_reachable t hr).load
  unfold HashTableSeparateChaining.getSize
  unfold fillLimit at h
  omega

end PanovaElena

namespace PanovaElena

theorem HashTableOpenAddressing.filled_afterInsert {V : Type} [Inhabited V]
    (t : HashTableOpenAddressing V) (kvs : List (Nat × V))
    (h : HashTableOpenAddressing.Filled t kvs) (fuel key : Nat) (elem : V)
    (hnot : key ∉ kvs.map Prod.fst)
    (hok : (HashTableOpenAddressing.insert fuel t key elem).toBool = true) :
    HashTableOpenAddressing.Filled (HashTableOpenAddressing.afterInsert fuel t key elem)
      ((key, elem) :: kvs) := by
  unfold HashTableOpenAddressing.afterInsert
  cases hi : HashTableOpenAddressing.insert fuel t key elem with
  | error e => rw [hi] at hok; exact Bool.noConfusion hok
  | ok r =>
    exact HashTableOpenAddressing.Filled.insert h hnot
      (hi : HashTableOpenAddressing.insert fuel t key elem = .ok (r.1, r.2.1, r.2.2))

theorem HashTableSeparateChaining.sc_filled_afterInsert {V : Type}
    (t : HashTableSeparateChaining V) (kvs : List (Nat × V))
    (h : HashTableSeparateChaining.Filled t kvs) (fuel key : Nat) (elem : V)
    (hnot : key ∉ kvs.map Prod.fst)
    (hok : (HashTableSeparateChaining.insert fuel t key elem).toBool = true) :
    HashTableSeparateChaining.Filled (HashTableSeparateChaining.afterInsert fuel t key elem)
      ((key, elem) :: kvs) := by
  unfold HashTableSeparateChaining.afterInsert
  cases hi : HashTableSeparateChaining.insert fuel t key elem with
  | error e => rw [hi] at hok; exact Bool.noConfusion hok
  | ok r =>
    exact HashTableSeparateChaining.Filled.insert h hnot
      (hi : HashTableSeparateChaining.insert fuel t key elem = .ok (r.1, r.2.1, r.2.2))

theorem HashTableOpenAddressing.filled_spreadTable :
    HashTableOpenAddressing.Filled HashTableOpenAddressing.spreadTable
      [(5 * 2 ^ 29, 'e'), (4 * 2 ^ 29, 'd'), (3 * 2 ^ 29, 'c'), (2 * 2 ^ 29, 'b'),
        (1 * 2 ^ 29, 'a')] :=
  HashTableOpenAddressing.filled_afterInsert _ _
    (HashTableOpenAddressing.filled_afterInsert _ _
      (HashTableOpenAddressing.filled_afterInsert _ _
        (HashTableOpenAddressing.filled_afterInsert _ _
          (HashTableOpenAddressing.filled_afterInsert _ _
            (HashTableOpenAddressing.Filled.construct 3 1) 1 _ _ (by decide) (by decide))
          1 _ _ (by decide) (by decide))
        1 _ _ (by decide) (by decide))
      1 _ _ (by decide) (by decide))
    1 _ _ (by decide) (by decide)

theorem HashTableSeparateChaining.sc_filled_spreadTable :
    HashTableSeparateChaining.Filled HashTableSeparateChaining.spreadTable
      [(5 * 2 ^ 29, 'e'), (4 * 2 ^ 29, 'd'), (3 * 2 ^ 29, 'c'), (2 * 2 ^ 29, 'b'),
        (1 * 2 ^ 29, 'a')] :=
  HashTableSeparateChaining.sc_filled_afterInsert _ _
    (HashTableSeparateChaining.sc_filled_afterInsert _ _
      (HashTableSeparateChaining.sc_filled_afterInsert _ _
        (HashTableSeparateChaining.sc_filled_afterInsert _ _
          (HashTableSeparateChaining.sc_filled_afterInsert _ _
            (HashTableSeparateChaining.Filled.construct 3 1) 1 _ _ (by decide) (by decide))
          1 _ _ (by decide) (by decide))
        1 _ _ (by decide) (by decide))
      1 _ _ (by decide) (by decide))
    1 _ _ (by decide) (by decide)

/-- For open addressing, and for separate chaining on the tables of exponent at least 1
(where the shift of `hash` is defined): if a reachable table has capacity `C` and live
count `getSize() = n` with `n + 1 > floor(0.7 * C)`, then inserting an absent key returns
and leaves a capacity strictly greater than `C`; and if the table was produced from a fresh
one by inserting `n` pairwise distinct keys with no erase, then `getSize()` is `n`, and
after inserting a further key `getSize()` is `n + 1` and all `n + 1` keys are found with
their values, whether or not the insert grew the table. -/
theorem insert_over_fill_limit_grows {V : Type} [Inhabited V] :
    (∀ t : HashTableOpenAddressing V, HashTableOpenAddressing.Reachable t →
      ∀ (key : Nat) (elem : V),
      HashTableOpenAddressing.find t key = .ok (HashTableOpenAddressing.end_ t) →
      HashTableOpenAddressing.getSize t + 1 > fillLimit t.storage.length →
      ∃ fuel t' it, HashTableOpenAddressing.insert fuel t key elem = .ok (t', it, true) ∧
        t.storage.length < t'.storage.length ∧
        (∀ fuel' r, HashTableOpenAddressing.insert fuel' t key elem = .ok r →
          r = (t', it, true))) ∧
    (∀ (t : HashTableOpenAddressing V) (kvs : List (Nat × V)),
      HashTableOpenAddressing.Filled t kvs → ∀ (key : Nat) (elem : V),
      key ∉ kvs.map Prod.fst →
      HashTableOpenAddressing.getSize t = kvs.length ∧
      ∃ fuel t' it, HashTableOpenAddressing.insert fuel t key elem = .ok (t', it, true) ∧
        HashTableOpenAddressing.getSize t' = kvs.length + 1 ∧
        ∀ k v, (k, v) ∈ (key, elem) :: kvs →
          HashTableOpenAddressing.lookup t' k = .ok (some v)) ∧
    (∀ t : HashTableSeparateChaining V, HashTableSeparateChaining.Reachable t →
      1 ≤ t.M → ∀ (key : Nat) (elem : V),
      HashTableSeparateChaining.find t key = .ok (HashTableSeparateChaining.end_ t) →
      HashTableSeparateChaining.getSize t + 1 > fillLimit t.storage.length →
      ∃ fuel t' it, HashTableSeparateChaining.insert fuel t key elem = .ok (t', it, true) ∧
        t.storage.length < t'.storage.length ∧
        (∀ fuel' r, HashTableSeparateChaining.insert fuel' t key elem = .ok r →
          r = (t', it, true))) ∧
    (∀ (t : HashTableSeparateChaining V) (kvs : List (Nat × V)),
      HashTableSeparateChaining.Filled t kvs → 1 ≤ t.M → ∀ (key : Nat) (elem : V),
      key ∉ kvs.map Prod.fst →
      HashTableSeparateChaining.getSize t = kvs.length ∧
      ∃ fuel t' it, HashTableSeparateChaining.insert fuel t key elem = .ok (t', it, true) ∧
        HashTableSeparateChaining.getSize t' = kvs.length + 1 ∧
        ∀ k v, (k, v) ∈ (key, elem) :: kvs →
          HashTableSeparateChaining.lookup t' k = .ok (some v)) := by
  refine ⟨?_, ?_, ?_, ?_⟩
  · intro t hr key elem habs hload
    exact HashTableOpenAddressing.insert_grows_of_inv t
      (HashTableOpenAddressing.inv_of_reachable t hr) key elem habs hload
  · intro t kvs hf key elem hnot
    have hr := HashTableOpenAddressing.reachable_of_filled t kvs hf
    have habs := HashTableOpenAddressing.absent_of_filled t kvs hf key hnot
    obtain ⟨fuel, t', it, hi, _⟩ := HashTableOpenAddressing.insert_absent_of_inv t
      (HashTableOpenAddressing.inv_of_reachable t hr) key elem habs
    have hf' := HashTableOpenAddressing.Filled.insert hf hnot hi
    obtain ⟨_, _, _, hlen, _⟩ := HashTableOpenAddressing.filled_spec t kvs hf
    obtain ⟨_, _, _, hlen', _⟩ := HashTableOpenAddressing.filled_spec t' _ hf'
    exact ⟨hlen, fuel, t', it, hi, hlen',
      fun k v hm => HashTableOpenAddressing.filled_lookup t' _ hf' k v hm⟩
  · intro t hr _ key elem habs hload
    exact HashTableSeparateChaining.sc_insert_grows_of_inv t
      (HashTableSeparateChaining.sc_inv_of_reachable t hr) key elem habs hload
  · intro t kvs hf _ key elem hnot
    have hr := HashTableSeparateChaining.sc_reachable_of_filled t kvs hf
    have habs := HashTableSeparateChaining.sc_absent_of_filled t kvs hf key hnot
    obtain ⟨fuel, t', it, hi, _⟩ := HashTableSeparateChaining.sc_insert_absent_of_inv t
      (HashTableSeparateChaining.sc_inv_of_reachable t hr) key elem habs
    have hf' := HashTableSeparateChaining.Filled.insert hf hnot hi
    exact ⟨HashTableSeparateChaining.filled_size t kvs hf, fuel, t', it, hi,
      HashTableSeparateChaining.filled_size t' _ hf',
      fun k v hm => HashTableSeparateChaining.sc_filled_lookup t' _ hf' k v hm⟩

/-- An instance: capacity 8 (exponent 3), multiplier 1, the keys `i * 2^29`, `i = 1..5`,
inserted; the
insert of `6 * 2^29` crosses the fill limit `floor(0.7 * 8) = 5` and grows the table (test
`can_repack_table_if_it_is_almost_filled`), and all six keys are found afterwards. -/
theorem insert_over_fill_limit_grows_witness :
    (HashTableOpenAddressing.getSize HashTableOpenAddressing.spreadTable + 1 >
        fillLimit HashTableOpenAddressing.spreadTable.storage.length ∧
      ∃ fuel t' it, HashTableOpenAddressing.insert fuel HashTableOpenAddressing.spreadTable
          (6 * 2 ^ 29) 'f' = .ok (t', it, true) ∧
        HashTableOpenAddressing.spreadTable.storage.length < t'.storage.length ∧
        (∀ fuel' r, HashTableOpenAddressing.insert fuel' HashTableOpenAddressing.spreadTable
          (6 * 2 ^ 29) 'f' = .ok r → r = (t', it, true))) ∧
    (∃ fuel t' it, HashTableOpenAddressing.insert fuel HashTableOpenAddressing.spreadTable
        (6 * 2 ^ 29) 'f' = .ok (t', it, true) ∧
      HashTableOpenAddressing.getSize t' = 6 ∧
      HashTableOpenAddressing.lookup t' (6 * 2 ^ 29) = .ok (some 'f') ∧
      HashTableOpenAddressing.lookup t' (1 * 2 ^ 29) = .ok (some 'a')) ∧
    (HashTableSeparateChaining.getSize HashTableSeparateChaining.spreadTable + 1 >
        fillLimit HashTableSeparateChaining.spreadTable.storage.length ∧
      ∃ fuel t' it, HashTableSeparateChaining.insert fuel HashTableSeparateChaining.spreadTable
          (6 * 2 ^ 29) 'f' = .ok (t', it, true) ∧
        HashTableSeparateChaining.spreadTable.storage.length < t'.storage.length ∧
        (∀ fuel' r, HashTableSeparateChaining.insert fuel' HashTableSeparateChaining.spreadTable
          (6 * 2 ^ 29) 'f' = .ok r → r = (t', it, true))) ∧
    (∃ fuel t' it, HashTableSeparateChaining.insert fuel HashTableSeparateChaining.spreadTable
        (6 * 2 ^ 29) 'f' = .ok (t', it, true) ∧
      HashTableSeparateChaining.getSize t' = 6 ∧
      HashTableSeparateChaining.lookup t' (6 * 2 ^ 29) = .ok (some 'f') ∧
      HashTableSeparateChaining.lookup t' (1 * 2 ^ 29) = .ok (some 'a')) := by
  refine ⟨⟨by decide, (insert_over_fill_limit_grows (V := Char)).1 _
      HashTableOpenAddressing.reachable_spreadTable (6 * 2 ^ 29) 'f' (by decide) (by decide)⟩,
    ?_, ⟨by decide, (insert_over_fill_limit_grows (V := Char)).2.2.1 _
      HashTableSeparateChaining.sc_reachable_spreadTable (by decide) (6 * 2 ^ 29) 'f'
      (by decide) (by decide)⟩, ?_⟩
  · obtain ⟨_, fuel, t', it, hi, hs, hl⟩ := (insert_over_fill_limit_grows (V := Char)).2.1 _ _
      HashTableOpenAddressing.filled_spreadTable (6 * 2 ^ 29) 'f' (by decide)
    exact ⟨fuel, t', it, hi, hs, hl _ _ (by decide), hl _ _ (by decide)⟩
  · obtain ⟨_, fuel, t', it, hi, hs, hl⟩ := (insert_over_fill_limit_grows (V := Char)).2.2.2 _ _
      HashTableSeparateChaining.sc_filled_spreadTable (by decide) (6 * 2 ^ 29) 'f' (by decide)
    exact ⟨fuel, t', it, hi, hs, hl _ _ (by decide), hl _ _ (by decide)⟩

end PanovaElena

namespace PanovaElena

/-! ## The hash function -/

theorem hash_eq_div (a M key : Nat) :
    hash a M key = (a * key) % 2 ^ 32 / 2 ^ (32 - M) := by
  unfold hash W
  rw [Nat.shiftRight_eq_div_pow, Nat.mod_mod_of_dvd _ (Nat.pow_dvd_pow 2 (by decide : 32 ≤ 64))]

/-- C15. Universal hash: for a 64-bit multiplier `a`, a 32-bit key and an exponent `M`
with `1 ≤ M ≤ 32`, `hash(key)` is `((a * key) mod 2^32) div 2^(32 - M)`, the top `M` bits
of the 32-bit product, and lies in `[0, 2^M)`. -/
theorem hash_is_top_bits (a key M : Nat) (ha : a < 2 ^ 64) (hk : key < 2 ^ 32)
    (h1 : 1 ≤ M) (hM : M ≤ 32) :
    hash a M key = (a * key) % 2 ^ 32 / 2 ^ (32 - M) ∧ hash a M key < 2 ^ M :=
  ⟨hash_eq_div a M key, hash_lt a M key⟩

/-- Witness of C15: with `a = 1` and `M = 3` (the test fixture `TestHashTable`),
`hash(k) = 0` for `k = 0..5` and `hash(i * 2^29) = i` for `i = 1..6`. -/
theorem hash_is_top_bits_witness :
    (1 < 2 ^ 64 ∧ 5 * 2 ^ 29 < 2 ^ 32 ∧ 1 ≤ 3 ∧ 3 ≤ 32 ∧
      hash 1 3 (5 * 2 ^ 29) = (1 * (5 * 2 ^ 29)) % 2 ^ 32 / 2 ^ (32 - 3) ∧
      hash 1 3 (5 * 2 ^ 29) < 2 ^ 3) ∧
    (∀ k, k < 6 → hash 1 3 k = 0) ∧
    (∀ i, 1 ≤ i → i < 7 → hash 1 3 (i * 2 ^ 29) = i) :=
  ⟨⟨by decide, by decide, by decide, by decide,
    hash_is_top_bits 1 (5 * 2 ^ 29) 3 (by decide) (by decide) (by decide) (by decide)⟩,
   by decide, by decide⟩

end PanovaElena

namespace PanovaElena

namespace HashTableOpenAddressing

variable {V : Type} [Inhabited V]

/-! ## The frame of `eraseWithoutSearch` -/

theorem occCount_pos_of_occupied (st : List (OACell V)) (pos : Nat) (hpos : pos < st.length)
    (ho : (cellAt st pos).label.is_cell_not_empty = true) : 0 < occCount st := by
  unfold occCount
  rw [List.countP_pos_iff]
  exact ⟨cellAt st pos, cellAt_mem st pos hpos, ho⟩

theorem decr32_succ (n : Nat) (h : 0 < n) : decr32 n + 1 = n := by
  unfold decr32
  rw [if_neg (by omega)]
  omega

/-- C20. Open-addressing `eraseWithoutSearch(locator)`, for a locator of a slot of the
table: the label of the located slot becomes `(occupied = false, tombstoned = true)`, its
key and value stay in storage, every other slot, the capacity, the exponent `M` and the
multiplier are unchanged (so nothing grows), and `size--` is executed: the live count drops
by one whenever it was positive, which it is in every reachable state whose located slot is
occupied. -/
theorem eraseWithoutSearch_only_relabels (t : HashTableOpenAddressing V) (pos : Nat)
    (hpos : pos < t.storage.length) :
    (cellAt (eraseWithoutSearch t pos).storage pos).label = ⟨false, true⟩ ∧
    (cellAt (eraseWithoutSearch t pos).storage pos).key = (cellAt t.storage pos).key ∧
    (cellAt (eraseWithoutSearch t pos).storage pos).elem = (cellAt t.storage pos).elem ∧
    (∀ j, j ≠ pos → cellAt (eraseWithoutSearch t pos).storage j = cellAt t.storage j) ∧
    (eraseWithoutSearch t pos).storage.length = t.storage.length ∧
    (eraseWithoutSearch t pos).M = t.M ∧
    (eraseWithoutSearch t pos).a = t.a ∧
    (eraseWithoutSearch t pos).size = decr32 t.size ∧
    (0 < t.size → getSize (eraseWithoutSearch t pos) + 1 = getSize t) ∧
    (Reachable t → (cellAt t.storage pos).label.is_cell_not_empty = true →
      getSize (eraseWithoutSearch t pos) + 1 = getSize t) := by
  rw [eraseWithoutSearch_eq]
  refine ⟨?_, ?_, ?_, ?_, ?_, rfl, rfl, rfl, ?_, ?_⟩
  · show (cellAt (t.storage.set pos _) pos).label = _
    rw [cellAt_set_self _ _ _ hpos]
  · show (cellAt (t.storage.set pos _) pos).key = _
    rw [cellAt_set_self _ _ _ hpos]
  · show (cellAt (t.storage.set pos _) pos).elem = _
    rw [cellAt_set_self _ _ _ hpos]
  · intro j hj
    exact cellAt_set_ne _ _ _ _ (Ne.symm hj)
  · exact List.length_set _ _ _
  · intro h
    exact decr32_succ t.size h
  · intro hr ho
    have hinv := inv_of_reachable t hr
    have := occCount_pos_of_occupied t.storage pos hpos ho
    exact decr32_succ t.size (Nat.lt_of_lt_of_le this hinv.occ_le)

/-- Witness of C20: in the table of the test fixture with the keys 0, 1, 2 in the slots 0,
1, 4, erasing through the locator of slot 1 leaves key 1 and `'b'` in the slot, relabels it
`(false, true)`, and takes the live count from 3 to 2. -/
theorem eraseWithoutSearch_only_relabels_witness :
    1 < collisionTable.storage.length ∧
    cellAt collisionTable.storage 1 = ⟨1, 'b', ⟨true, false⟩⟩ ∧
    getSize collisionTable = 3 ∧
    (cellAt (eraseWithoutSearch collisionTable 1).storage 1).label = ⟨false, true⟩ ∧
    (cellAt (eraseWithoutSearch collisionTable 1).storage 1).key = 1 ∧
    (cellAt (eraseWithoutSearch collisionTable 1).storage 1).elem = 'b' ∧
    getSize (eraseWithoutSearch collisionTable 1) = 2 ∧
    (eraseWithoutSearch collisionTable 1).storage.length = 8 :=
  have h := eraseWithoutSearch_only_relabels collisionTable 1 (by decide)
  ⟨by decide, by decide, by decide, h.1, h.2.1.trans (by decide), h.2.2.1.trans (by decide),
    by decide, h.2.2.2.2.1.trans (by decide)⟩

end HashTableOpenAddressing

end PanovaElena

namespace PanovaElena

namespace HashTableOpenAddressing

variable {V : Type} [Inhabited V]

/-! ## Probe exhaustion -/

theorem repackLoop_error
    (ins : HashTableOpenAddressing V → Nat → V → Except Err (HashTableOpenAddressing V × Nat))
    (h : ∀ t key elem e, ins t key elem = .error e → e = .outOfFuel) :
    ∀ (tmp : List (OACell V)) (t : HashTableOpenAddressing V) (e : Err),
      repackLoop ins tmp t = .error e → e = .outOfFuel := by
  intro tmp
  induction tmp with
  | nil => intro t e he; exact Except.noConfusion he
  | cons c tmp ih =>
    intro t e he
    unfold repackLoop at he
    split at he
    · cases hi : ins t c.key c.elem with
      | error e' =>
        rw [hi] at he
        have : e' = e := by injection he
        rw [← this]
        exact h _ _ _ _ hi
      | ok p =>
        rw [hi] at he
        exact ih _ _ he
    · exact ih _ _ he

/-- The only error of `insertWithoutSearch` is the exhausted budget of the embedding: the
`'Empty table'` error of `getProbeSequenceElem` is never produced. -/
theorem insertWithoutSearch_error (fuel : Nat) :
    ∀ (t : HashTableOpenAddressing V) (key : Nat) (elem : V) (e : Err),
      insertWithoutSearch fuel t key elem = .error e → e = .outOfFuel := by
  induction fuel with
  | zero =>
    intro t key elem e he
    have : (Except.error Err.outOfFuel : Except Err (HashTableOpenAddressing V × Nat)) =
        .error e := he
    injection this with h
    exact h.symm
  | succ fuel ih =>
    intro t key elem e he
    rw [insertWithoutSearch_succ] at he
    have hrep : ∀ (t0 : HashTableOpenAddressing V) (e0 : Err),
        repackWith (insertWithoutSearch fuel) t0 = .error e0 → e0 = .outOfFuel :=
      fun t0 e0 h0 => repackLoop_error _ ih _ _ _ h0
    cases h1 : (if t.size + 1 > fillLimit t.storage.length
        then repackWith (insertWithoutSearch fuel) t else .ok t) with
    | error e1 =>
      rw [h1] at he
      have : e1 = e := by injection he
      rw [← this]
      split at h1
      · exact hrep _ _ h1
      · exact Except.noConfusion h1
    | ok t1 =>
      rw [h1] at he
      dsimp only at he
      split at he
      · cases h2 : repackWith (insertWithoutSearch fuel) t1 with
        | error e2 =>
          rw [h2] at he
          have : e2 = e := by injection he
          rw [← this]
          exact hrep _ _ h2
        | ok t2 =>
          rw [h2] at he
          exact ih _ _ _ _ he
      · exact Except.noConfusion he

theorem insertWithoutSearch_exhausted (fuel : Nat) (t : HashTableOpenAddressing V) (key : Nat)
    (elem : V) (r : HashTableOpenAddressing V × Nat)
    (hwf : t.storage.length = 2 ^ t.M)
    (hfull : ProbesOccupied t.storage (hash t.a t.M key))
    (h : insertWithoutSearch fuel t key elem = .ok r) :
    t.storage.length < r.1.storage.length ∧ t.M < r.1.M ∧ r.1.storage.length = 2 ^ r.1.M ∧
      r.2 < r.1.storage.length ∧ cellAt r.1.storage r.2 = ⟨key, elem, ⟨true, false⟩⟩ := by
  obtain ⟨tm, htr, hfree, hr1, _⟩ := insertWithoutSearch_post fuel t key elem r h
  have hlt := freeSlot_lt _ _ _ hfree
  have hlen : r.1.storage.length = tm.storage.length := by
    rw [hr1]; exact List.length_set _ _ _
  have hcell : cellAt r.1.storage r.2 = ⟨key, elem, ⟨true, false⟩⟩ := by
    rw [hr1]; exact cellAt_set_self _ _ _ hlt
  have hM : r.1.M = tm.M := by rw [hr1]; rfl
  rcases htr.grown with heq | ⟨hMlt, hwf', _, _⟩
  · exfalso
    rw [heq] at hfree
    obtain ⟨s, hs, hp, hocc, _⟩ := hfree
    have := hfull s hs
    rw [hp, hocc] at this
    exact Bool.noConfusion this
  · refine ⟨?_, ?_, ?_, ?_, hcell⟩
    · rw [hlen, hwf, hwf']
      exact Nat.pow_lt_pow_right (by decide) hMlt
    · rw [hM]; exact hMlt
    · rw [hlen, hM]; exact hwf'
    · rw [hlen]; exact hlt

/-- C17. Probe exhaustion is recovered internally: for every reachable open-addressing
table and every key whose probe sequence (steps `0 .. capacity - 1`) meets occupied slots
only, `insertWithoutSearch(k, v)` returns (a budget exists from which on the call yields the
same result, so the recursion through `repack` terminates), the capacity and the exponent
are strictly larger than before, the entry `(k, v)` is stored in the returned slot with the
label `(true, false)`, and no error other than the budget of the embedding is ever
produced. -/
theorem probe_exhaustion_recovered (t : HashTableOpenAddressing V) (key : Nat) (elem : V)
    (hr : Reachable t) (hfull : ProbesOccupied t.storage (hash t.a t.M key)) :
    ∃ fuel t' it, insertWithoutSearch fuel t key elem = .ok (t', it) ∧
      (∀ fuel', fuel ≤ fuel' → insertWithoutSearch fuel' t key elem = .ok (t', it)) ∧
      t.storage.length < t'.storage.length ∧ t.M < t'.M ∧
      t'.storage.length = 2 ^ t'.M ∧ it < t'.storage.length ∧
      cellAt t'.storage it = ⟨key, elem, ⟨true, false⟩⟩ ∧
      (∀ fuel' e, insertWithoutSearch fuel' t key elem = .error e → e = .outOfFuel) := by
  have hwf := (inv_of_reachable t hr).good.wf
  obtain ⟨fuel, r, h⟩ := insertWithoutSearch_terminates t key elem hwf
  obtain ⟨h1, h2, h3, h4, h5⟩ := insertWithoutSearch_exhausted fuel t key elem r hwf hfull h
  exact ⟨fuel, r.1, r.2, h, fun fuel' hle => insertWithoutSearch_mono fuel fuel' hle _ _ _ _ h,
    h1, h2, h3, h4, h5, fun fuel' e he => insertWithoutSearch_error fuel' t key elem e he⟩

/-- Witness of C17: capacity 8, multiplier 1, the keys 0, 1, 2 inserted (slots 0, 1, 4);
key 3 hashes to slot 0 as well and its probe sequence meets only those three slots, so the
fourth insert grows the table to capacity 16 (test
`can_repack_table_if_insert_is_called_and_empty_cell_didnt_find`). -/
theorem probe_exhaustion_recovered_witness :
    (Reachable collisionTable ∧
      ProbesOccupied collisionTable.storage (hash collisionTable.a collisionTable.M 3) ∧
      collisionTable.storage.length = 8 ∧
      getSize collisionTable + 1 ≤ fillLimit collisionTable.storage.length) ∧
    (∃ fuel t' it, insertWithoutSearch fuel collisionTable 3 'd' = .ok (t', it) ∧
      (∀ fuel', fuel ≤ fuel' → insertWithoutSearch fuel' collisionTable 3 'd' = .ok (t', it)) ∧
      collisionTable.storage.length < t'.storage.length ∧ collisionTable.M < t'.M ∧
      t'.storage.length = 2 ^ t'.M ∧ it < t'.storage.length ∧
      cellAt t'.storage it = ⟨3, 'd', ⟨true, false⟩⟩ ∧
      (∀ fuel' e, insertWithoutSearch fuel' collisionTable 3 'd' = .error e →
        e = .outOfFuel)) ∧
    (afterInsert 2 collisionTable 3 'd').storage.length = 16 ∧
    lookup (afterInsert 2 collisionTable 3 'd') 3 = .ok (some 'd') :=
  ⟨⟨reachable_collisionTable, by unfold ProbesOccupied; decide, by decide, by decide⟩,
   probe_exhaustion_recovered collisionTable 3 'd' reachable_collisionTable
     (by unfold ProbesOccupied; decide),
   by decide!, by decide!⟩

end HashTableOpenAddressing

end PanovaElena

namespace PanovaElena

namespace HashTableOpenAddressing

variable {V : Type} [Inhabited V]

/-! ## The capacity -/

theorem insertWithoutSearch_length_le (fuel : Nat) (t : HashTableOpenAddressing V) (key : Nat)
    (elem : V) (r : HashTableOpenAddressing V × Nat) (hwf : t.storage.length = 2 ^ t.M)
    (h : insertWithoutSearch fuel t key elem = .ok r) :
    t.storage.length ≤ r.1.storage.length := by
  obtain ⟨tm, htr, _, hr1, _⟩ := insertWithoutSearch_post fuel t key elem r h
  have hlen : r.1.storage.length = tm.storage.length := by
    rw [hr1]; exact List.length_set _ _ _
  rw [hlen]
  rcases htr.grown with heq | ⟨hMlt, hwf', _, _⟩
  · rw [heq]
  · rw [hwf, hwf']
    exact Nat.le_of_lt (Nat.pow_lt_pow_right (by decide) hMlt)

theorem insert_length_le (fuel : Nat) (t : HashTableOpenAddressing V) (key : Nat) (elem : V)
    (r : HashTableOpenAddressing V × Nat × Bool) (hwf : t.storage.length = 2 ^ t.M)
    (h : insert fuel t key elem = .ok r) : t.storage.length ≤ r.1.storage.length := by
  rw [insert_eq] at h
  split at h
  · have : (t, findIn t.storage key (hash t.a t.M key), false) = r := by injection h
    rw [← this]
  · cases hi : insertWithoutSearch fuel t key elem with
    | error e => rw [hi] at h; exact Except.noConfusion h
    | ok p =>
      rw [hi] at h
      have : (p.1, p.2, true) = r := by injection h
      rw [← this]
      exact insertWithoutSearch_length_le fuel t key elem p hwf hi

theorem insert_error (fuel : Nat) (t : HashTableOpenAddressing V) (key : Nat) (elem : V)
    (e : Err) (h : insert fuel t key elem = .error e) : e = .outOfFuel := by
  rw [insert_eq] at h
  split at h
  · exact Except.noConfusion h
  · cases hi : insertWithoutSearch fuel t key elem with
    | error e' =>
      rw [hi] at h
      have : e' = e := by injection h
      rw [← this]
      exact insertWithoutSearch_error fuel t key elem e' hi
    | ok p => rw [hi] at h; exact Except.noConfusion h

theorem erase_length (t : HashTableOpenAddressing V) (key : Nat)
    (r : HashTableOpenAddressing V × Bool) (h : erase t key = .ok r) :
    r.1.storage.length = t.storage.length ∧ r.1.M = t.M := by
  rw [erase_eq] at h
  split at h
  · have : (t, false) = r := by injection h
    rw [← this]
    exact ⟨rfl, rfl⟩
  · have : (eraseWithoutSearch t (findIn t.storage key (hash t.a t.M key)), true) = r := by
      injection h
    rw [← this, eraseWithoutSearch_eq]
    exact ⟨List.length_set _ _ _, rfl⟩

end HashTableOpenAddressing

namespace HashTableSeparateChaining

variable {V : Type}

theorem sc_insertWithoutSearch_length_le (fuel : Nat) (t : HashTableSeparateChaining V)
    (key : Nat) (elem : V) (r : HashTableSeparateChaining V × (Nat × Nat))
    (hwf : t.storage.length = 2 ^ t.M)
    (h : insertWithoutSearch fuel t key elem = .ok r) :
    t.storage.length ≤ r.1.storage.length := by
  obtain ⟨tm, htr, hr1, _⟩ := sc_insertWithoutSearch_post fuel t key elem r h
  have hlen : r.1.storage.length = tm.storage.length := by
    rw [hr1]; exact List.length_set _ _ _
  rw [hlen]
  rcases htr.grown with ⟨heq, _⟩ | ⟨hMlt, hb⟩
  · rw [heq]
  · rw [hwf, hb.wf]
    exact Nat.le_of_lt (Nat.pow_lt_pow_right (by decide) hMlt)

theorem sc_insert_length_le (fuel : Nat) (t : HashTableSeparateChaining V) (key : Nat)
    (elem : V) (r : HashTableSeparateChaining V × (Nat × Nat) × Bool)
    (hwf : t.storage.length = 2 ^ t.M)
    (h : insert fuel t key elem = .ok r) : t.storage.length ≤ r.1.storage.length := by
  obtain ⟨it0, hf⟩ := find_total t key
  by_cases hend : it0 = end_ t
  · rw [hend] at hf
    rw [insert_eq_of_absent fuel t key elem hf] at h
    cases hi : insertWithoutSearch fuel t key elem with
    | error e => rw [hi] at h; exact Except.noConfusion h
    | ok p =>
      rw [hi] at h
      have : (p.1, p.2, true) = r := by injection h
      rw [← this]
      exact sc_insertWithoutSearch_length_le fuel t key elem p hwf hi
  · rw [insert_eq_of_present fuel t key elem it0 hf hend] at h
    have : (t, it0, false) = r := by injection h
    rw [← this]

theorem sc_erase_length (t : HashTableSeparateChaining V) (key : Nat)
    (r : HashTableSeparateChaining V × Bool) (h : erase t key = .ok r) :
    r.1.storage.length = t.storage.length ∧ r.1.M = t.M := by
  by_cases habs : find t key = .ok (end_ t)
  · rw [erase_eq_of_absent t key habs] at h
    have : (t, false) = r := by injection h
    rw [← this]
    exact ⟨rfl, rfl⟩
  · obtain ⟨e0, _, _, _, he⟩ := erase_eq_of_present t key habs
    rw [he] at h
    have : (unlink t (hash t.a t.M key)
        (findInList key (t.storage.getD (hash t.a t.M key) [])), true) = r := by injection h
    rw [← this]
    exact ⟨List.length_set _ _ _, rfl⟩

end HashTableSeparateChaining

/-- The capacity invariant of the embedding, in which `getTableSize` is `2^M` for every
exponent (the value of the source for `M < 32`), for both hash-table strategies: in every
state reachable from
construction by `insert`/`erase`/`clear` the backing array has length `2^M` for the current
exponent `M`, which is positive; `insert` never decreases the capacity and `erase` keeps
it, together with `M`; and the `'Empty table'` branch of `getProbeSequenceElem` is not
reached: the probe index is computed at every step, `find` returns, and the only error an
`insert` can produce is the exhausted budget of the embedding. -/
theorem capacity_is_power_of_two {V : Type} [Inhabited V] :
    (∀ t : HashTableOpenAddressing V, HashTableOpenAddressing.Reachable t →
      t.storage.length = 2 ^ t.M ∧ 0 < t.storage.length ∧
      (∀ fuel key elem r, HashTableOpenAddressing.insert fuel t key elem = .ok r →
        t.storage.length ≤ r.1.storage.length) ∧
      (∀ key r, HashTableOpenAddressing.erase t key = .ok r →
        r.1.storage.length = t.storage.length ∧ r.1.M = t.M) ∧
      (∀ h i, HashTableOpenAddressing.getProbeSequenceElem t.storage.length h i =
        .ok (HashTableOpenAddressing.probe t.storage.length h i)) ∧
      (∀ key, ∃ it, HashTableOpenAddressing.find t key = .ok it) ∧
      (∀ fuel key elem,
        HashTableOpenAddressing.insert fuel t key elem ≠ .error .emptyTable)) ∧
    (∀ t : HashTableSeparateChaining V, HashTableSeparateChaining.Reachable t →
      t.storage.length = 2 ^ t.M ∧ 0 < t.storage.length ∧
      (∀ fuel key elem r, HashTableSeparateChaining.insert fuel t key elem = .ok r →
        t.storage.length ≤ r.1.storage.length) ∧
      (∀ key r, HashTableSeparateChaining.erase t key = .ok r →
        r.1.storage.length = t.storage.length ∧ r.1.M = t.M)) := by
  constructor
  · intro t hr
    have hwf := (HashTableOpenAddressing.inv_of_reachable t hr).good.wf
    have hpos : 0 < t.storage.length := by rw [hwf]; exact Nat.pos_pow_of_pos _ (by decide)
    refine ⟨hwf, hpos, ?_, ?_, ?_, ?_, ?_⟩
    · intro fuel key elem r h
      exact HashTableOpenAddressing.insert_length_le fuel t key elem r hwf h
    · intro key r h
      exact HashTableOpenAddressing.erase_length t key r h
    · intro h i
      unfold HashTableOpenAddressing.getProbeSequenceElem
      rw [if_neg (Nat.pos_iff_ne_zero.mp hpos)]
      rfl
    · intro key
      exact ⟨_, HashTableOpenAddressing.find_eq t key⟩
    · intro fuel key elem h
      have := HashTableOpenAddressing.insert_error fuel t key elem _ h
      exact Err.noConfusion this
  · intro t hr
    have hwf := (HashTableSeparateChaining.sc_inv_of_reachable t hr).built.wf
    have hpos : 0 < t.storage.length := by rw [hwf]; exact Nat.pos_pow_of_pos _ (by decide)
    refine ⟨hwf, hpos, ?_, ?_⟩
    · intro fuel key elem r h
      exact HashTableSeparateChaining.sc_insert_length_le fuel t key elem r hwf h
    · intro key r h
      exact HashTableSeparateChaining.sc_erase_length t key r h

/-- An instance: the tables of the test fixture with the keys 0, 1, 2 are reachable, have
capacity `8 = 2^3`, and the insert of key 3 takes the open-addressing one to capacity 16. -/
theorem capacity_is_power_of_two_witness :
    (HashTableOpenAddressing.Reachable HashTableOpenAddressing.collisionTable ∧
      HashTableOpenAddressing.collisionTable.storage.length =
        2 ^ HashTableOpenAddressing.collisionTable.M ∧
      HashTableOpenAddressing.collisionTable.M = 3 ∧
      (HashTableOpenAddressing.afterInsert 2 HashTableOpenAddressing.collisionTable 3
        'd').storage.length = 16) ∧
    (HashTableSeparateChaining.Reachable HashTableSeparateChaining.collisionTable ∧
      HashTableSeparateChaining.collisionTable.storage.length =
        2 ^ HashTableSeparateChaining.collisionTable.M ∧
      HashTableSeparateChaining.collisionTable.M = 3) :=
  ⟨⟨HashTableOpenAddressing.reachable_collisionTable,
    ((capacity_is_power_of_two (V := Char)).1 _
      HashTableOpenAddressing.reachable_collisionTable).1, by decide, by decide!⟩,
   ⟨HashTableSeparateChaining.sc_reachable_collisionTable,
    ((capacity_is_power_of_two (V := Char)).2 _
      HashTableSeparateChaining.sc_reachable_collisionTable).1, by decide⟩⟩

end PanovaElena

namespace PanovaElena

namespace HashTableOpenAddressing

variable {V : Type} [Inhabited V]

/-! ## `find` against its specification -/

theorem scan_of_find_some (p : Nat → Bool) (f : Nat → Nat) :
    ∀ n i c s, (List.range' i n).find? p = some s → scan p f n i c = (s, f s) := by
  intro n
  induction n with
  | zero => intro i c s h; simp at h
  | succ n ih =>
    intro i c s h
    rw [List.range'_succ, List.find?_cons] at h
    unfold scan
    cases hp : p i with
    | true =>
      rw [hp] at h
      have : i = s := by injection h
      rw [← this]
      simp
    | false =>
      rw [hp] at h
      simp only [Bool.false_eq_true, if_false]
      exact ih _ _ _ h

theorem scan_of_find_none (p : Nat → Bool) (f : Nat → Nat) :
    ∀ n i c, (List.range' i n).find? p = none → (scan p f n i c).1 = i + n := by
  intro n
  induction n with
  | zero => intro i c _; rfl
  | succ n ih =>
    intro i c h
    rw [List.range'_succ, List.find?_cons] at h
    unfold scan
    cases hp : p i with
    | true => rw [hp] at h; exact Option.noConfusion h
    | false =>
      rw [hp] at h
      simp only [Bool.false_eq_true, if_false]
      rw [ih _ _ h]
      omega

theorem specStop_eq_findStop (c : OACell V) (key : Nat)
    (hc : ¬ (c.label.is_cell_not_empty = true ∧ c.label.is_element_was_deleted = true)) :
    (untouched c || occupiedWith c key) = findStop c key := by
  unfold untouched occupiedWith findStop
  cases ho : c.label.is_cell_not_empty <;> cases hd : c.label.is_element_was_deleted <;>
    simp
  exact (hc ⟨ho, hd⟩).elim

theorem specSlot_eq_probe (st : List (OACell V)) (M h s : Nat) (hwf : st.length = 2 ^ M) :
    specSlot st h s = probe st.length h s := by
  unfold specSlot
  rw [hwf, probe_eq_mod, Nat.pow_two]

theorem findIn_eq_findSpec (st : List (OACell V)) (M key h : Nat) (hwf : st.length = 2 ^ M)
    (hl : LabelsOk st) : findIn st key h = findSpec st key h := by
  have hpos : 0 < st.length := by rw [hwf]; exact Nat.pos_pow_of_pos _ (by decide)
  have hp : (fun s => untouched (cellAt st (specSlot st h s)) ||
        occupiedWith (cellAt st (specSlot st h s)) key) =
      (fun j => findStop (cellAt st (probe st.length h j)) key) := by
    funext s
    rw [specSlot_eq_probe st M h s hwf]
    exact specStop_eq_findStop _ _ (hl _ (cellAt_mem st _ (probe_lt _ _ _ hpos)))
  unfold findSpec specStep findIn
  rw [hp, List.range_eq_range']
  cases hf : (List.range' 0 st.length).find?
      (fun j => findStop (cellAt st (probe st.length h j)) key) with
  | none =>
    have := scan_of_find_none (fun j => findStop (cellAt st (probe st.length h j)) key)
      (probe st.length h) st.length 0 0 hf
    rw [Nat.zero_add] at this
    dsimp only
    rw [if_pos (Or.inl this)]
  | some s =>
    have hs := scan_of_find_some (fun j => findStop (cellAt st (probe st.length h j)) key)
      (probe st.length h) st.length 0 0 s hf
    have hstop := List.find?_some hf
    beta_reduce at hstop
    have hmem := List.mem_of_find?_eq_some hf
    have hlt : s < st.length := by
      rw [List.mem_range'_1] at hmem
      omega
    dsimp only
    rw [hs, specSlot_eq_probe st M h s hwf]
    dsimp only
    unfold findStop at hstop
    unfold occupiedWith
    cases ho : (cellAt st (probe st.length h s)).label.is_cell_not_empty <;>
      cases hd : (cellAt st (probe st.length h s)).label.is_element_was_deleted <;>
      rw [ho, hd] at hstop <;> simp at hstop
    · simp
    · rw [hstop]
      simp
      omega

/-- C19. Open-addressing `find` equals its specification on every table state (capacity
`2^M`) whose labels are among `(false,false)`, `(true,false)`, `(false,true)`: with `s*` the
least step `s` in `[0, capacity)` such that the slot `(hash(k) + s^2) mod capacity` is
untouched or occupied with key `k`, `find(k)` returns that slot when it is occupied with
`k`, and the end sentinel when it is untouched or when there is no such step. -/
theorem find_refines_findSpec (t : HashTableOpenAddressing V) (key : Nat)
    (hwf : t.storage.length = 2 ^ t.M) (hl : LabelsOk t.storage) :
    find t key = .ok (findSpec t.storage key (hash t.a t.M key)) ∧
      end_ t = t.storage.length := by
  rw [find_eq, findIn_eq_findSpec t.storage t.M key _ hwf hl]
  exact ⟨rfl, end_eq t⟩

/-- Witness of C19: capacity 8, the keys 0, 1, 2 in the slots 0, 1, 4, then `erase(1)`; the
scan for key 2 passes the slot of key 0 and the tombstone and stops at slot 4; the scan for
key 1 passes all three and ends at no untouched slot is met, so it yields the end
sentinel 8. -/
theorem find_refines_findSpec_witness :
    (afterErase collisionTable 1).storage.length = 2 ^ (afterErase collisionTable 1).M ∧
    LabelsOk (afterErase collisionTable 1).storage ∧
    (cellAt (afterErase collisionTable 1).storage 1).label = ⟨false, true⟩ ∧
    (find (afterErase collisionTable 1) 2 =
        .ok (findSpec (afterErase collisionTable 1).storage 2
          (hash (afterErase collisionTable 1).a (afterErase collisionTable 1).M 2)) ∧
      end_ (afterErase collisionTable 1) = (afterErase collisionTable 1).storage.length) ∧
    findSpec (afterErase collisionTable 1).storage 2 0 = 4 ∧
    findSpec (afterErase collisionTable 1).storage 1 0 = 8 :=
  ⟨by decide, by unfold LabelsOk; decide, by decide,
   find_refines_findSpec (afterErase collisionTable 1) 2 (by decide)
     (by unfold LabelsOk; decide),
   by decide, by decide⟩

end HashTableOpenAddressing

end PanovaElena

namespace PanovaElena

namespace HashTableOpenAddressing

variable {V : Type} [Inhabited V]

/-! ## Iteration over the open-addressing table -/

/-- Where `moveIteratorToExistingValueOrEnd` stops: at the first occupied cell from `c` on,
or at the length of the storage. -/
theorem moveLoop_spec (st : List (OACell V)) :
    ∀ n c, c ≤ st.length → st.length - c ≤ n →
      c ≤ moveLoop st n c ∧ moveLoop st n c ≤ st.length ∧
      (∀ j, c ≤ j → j < moveLoop st n c → (cellAt st j).label.is_cell_not_empty = false) ∧
      (moveLoop st n c < st.length →
        (cellAt st (moveLoop st n c)).label.is_cell_not_empty = true) := by
  intro n
  induction n with
  | zero =>
    intro c hc hn
    have : c = st.length := by omega
    unfold moveLoop
    refine ⟨Nat.le_refl _, hc, ?_, ?_⟩
    · intro j h1 h2; omega
    · intro h; omega
  | succ n ih =>
    intro c hc hn
    unfold moveLoop
    split
    · rename_i hcond
      obtain ⟨h1, h2, h3, h4⟩ := ih (c + 1) (by omega) (by omega)
      refine ⟨by omega, h2, ?_, h4⟩
      intro j hj1 hj2
      by_cases hjc : j = c
      · rw [hjc]; exact hcond.2
      · exact h3 j (by omega) hj2
    · rename_i hcond
      refine ⟨Nat.le_refl _, hc, ?_, ?_⟩
      · intro j h1 h2; omega
      · intro h
        cases ho : (cellAt st c).label.is_cell_not_empty with
        | true => rfl
        | false => exact absurd ⟨h, ho⟩ hcond

theorem iterator_spec (st : List (OACell V)) (c : Nat) (hc : c ≤ st.length) :
    c ≤ iterator st c ∧ iterator st c ≤ st.length ∧
      (∀ j, c ≤ j → j < iterator st c → (cellAt st j).label.is_cell_not_empty = false) ∧
      (iterator st c < st.length →
        (cellAt st (iterator st c)).label.is_cell_not_empty = true) :=
  moveLoop_spec st (st.length - c) c hc (Nat.le_refl _)

/-- The occupied cell indices from `c` on. -/
theorem filter_range_skip (st : List (OACell V)) (n : Nat) :
    ∀ d c r, r = c + d → r ≤ n →
      (∀ j, c ≤ j → j < r → (cellAt st j).label.is_cell_not_empty = false) →
      (List.range' c (n - c)).filter (fun i => (cellAt st i).label.is_cell_not_empty) =
        (List.range' r (n - r)).filter (fun i => (cellAt st i).label.is_cell_not_empty) := by
  intro d
  induction d with
  | zero => intro c r hr _ _; rw [hr]; rfl
  | succ d ih =>
    intro c r hr hrn hno
    have hsplit : n - c = (n - (c + 1)) + 1 := by omega
    rw [hsplit, List.range'_succ, List.filter_cons, hno c (Nat.le_refl _) (by omega)]
    simp only [Bool.false_eq_true, if_false]
    exact ih (c + 1) r (by omega) hrn (fun j h1 h2 => hno j (by omega) h2)

theorem iterate_eq (t : HashTableOpenAddressing V) :
    ∀ fuel it, it ≤ t.storage.length →
      (it < t.storage.length → (cellAt t.storage it).label.is_cell_not_empty = true) →
      t.storage.length - it < fuel →
      iterate t fuel it =
        (List.range' it (t.storage.length - it)).filter
          (fun i => (cellAt t.storage i).label.is_cell_not_empty) := by
  intro fuel
  induction fuel with
  | zero => intro it _ _ h; omega
  | succ fuel ih =>
    intro it hle hocc hfuel
    unfold iterate
    rw [end_eq]
    by_cases hend : it = t.storage.length
    · rw [if_pos hend, hend, Nat.sub_self]
      rfl
    · rw [if_neg hend]
      have hlt : it < t.storage.length := by omega
      obtain ⟨h1, h2, h3, h4⟩ := iterator_spec t.storage (it + 1) hlt
      have hsplit : t.storage.length - it = (t.storage.length - (it + 1)) + 1 := by omega
      rw [hsplit, List.range'_succ, List.filter_cons, hocc hlt]
      simp only [if_true]
      congr 1
      unfold next
      rw [ih (iterator t.storage (it + 1)) h2 h4 (by omega)]
      exact (filter_range_skip t.storage t.storage.length
        (iterator t.storage (it + 1) - (it + 1)) (it + 1) _ (by omega) h2 h3).symm

/-- Iterating from `begin()` to `end()` visits the occupied cells, in index order; a larger
bound on the number of iterations does not change the result. -/
theorem iterate_begin (t : HashTableOpenAddressing V) (fuel : Nat)
    (hfuel : t.storage.length < fuel) :
    iterate t fuel (begin t) =
      (List.range t.storage.length).filter
        (fun i => (cellAt t.storage i).label.is_cell_not_empty) := by
  obtain ⟨h1, h2, h3, h4⟩ := iterator_spec t.storage 0 (Nat.zero_le _)
  unfold begin
  rw [iterate_eq t fuel _ h2 h4 (by omega), List.range_eq_range']
  have := filter_range_skip t.storage t.storage.length (iterator t.storage 0) 0 _
    (by omega) h2 h3
  rw [Nat.sub_zero] at this
  exact this.symm

theorem positions_eq (t : HashTableOpenAddressing V) :
    positions t =
      (List.range t.storage.length).filter
        (fun i => (cellAt t.storage i).label.is_cell_not_empty) :=
  iterate_begin t _ (Nat.lt_succ_self _)

theorem mem_positions (t : HashTableOpenAddressing V) (it : Nat) :
    it ∈ positions t ↔
      it < t.storage.length ∧ (cellAt t.storage it).label.is_cell_not_empty = true := by
  rw [positions_eq, List.mem_filter, List.mem_range]

theorem positions_nodup (t : HashTableOpenAddressing V) : (positions t).Nodup := by
  rw [positions_eq]
  exact (List.nodup_range _).filter _

theorem isLive_of_occupied (st : List (OACell V)) (hl : LabelsOk st) (i : Nat)
    (hi : i < st.length) (ho : (cellAt st i).label.is_cell_not_empty = true) :
    isLive (cellAt st i) (cellAt st i).key = true := by
  have hd : (cellAt st i).label.is_element_was_deleted = false := by
    cases hd : (cellAt st i).label.is_element_was_deleted with
    | false => rfl
    | true => exact absurd ⟨ho, hd⟩ (hl _ (cellAt_mem st i hi))
  unfold isLive
  rw [ho, hd]
  simp

/-- In a table that satisfies the invariant, every visited position is the one `find`
returns for its key, and the visited keys are pairwise distinct. -/
theorem positions_of_good (t : HashTableOpenAddressing V) (hg : Good t) :
    (∀ it, it ∈ positions t → find t (keyAt t it) = .ok it ∧ it ≠ end_ t) ∧
      ((positions t).map (keyAt t)).Nodup := by
  have hfind : ∀ it, it ∈ positions t →
      findIn t.storage (keyAt t it) (hash t.a t.M (keyAt t it)) = it := by
    intro it hit
    rw [mem_positions] at hit
    exact hg.fnd it _ hit.1 (isLive_of_occupied t.storage hg.labels it hit.1 hit.2)
  constructor
  · intro it hit
    rw [find_eq, hfind it hit, end_eq]
    rw [mem_positions] at hit
    exact ⟨rfl, Nat.ne_of_lt hit.1⟩
  · refine List.Nodup.map_on ?_ (positions_nodup t)
    intro x hx y hy hxy
    rw [← hfind x hx, ← hfind y hy, hxy]

end HashTableOpenAddressing

end PanovaElena

namespace PanovaElena

namespace HashTableSeparateChaining

variable {V : Type}

/-! ## Iteration over the separate-chaining table -/

theorem iterator_step (st : List (List (Nat × V))) (c j : Nat) :
    iterator st c j =
      if c < st.length - 1 ∧ j = (st.getD c []).length then iterator st (c + 1) 0
      else (c, j) := by
  split
  · rename_i h
    unfold iterator moveIteratorToExistingValueOrEnd
    have : st.length - c = (st.length - (c + 1)) + 1 := by omega
    show moveLoop st (st.length - c) (c, j) = moveLoop st (st.length - (c + 1)) (c + 1, 0)
    rw [this]
    conv => lhs; unfold moveLoop
    rw [if_pos h]
  · rename_i h
    exact moveLoop_stay st _ c j h

theorem drop_eq_cons (st : List (List (Nat × V))) (c : Nat) (hc : c < st.length) :
    st.drop c = st.getD c [] :: st.drop (c + 1) := by
  rw [List.drop_eq_getElem_cons hc]
  congr 1
  rw [List.getD_eq_getElem?_getD, List.getElem?_eq_getElem hc]
  rfl

theorem slots_drop (st : List (List (Nat × V))) (c : Nat) (hc : c < st.length) :
    slots c (st.drop c) =
      (List.range (st.getD c []).length).map (fun j => (c, j)) ++
        slots (c + 1) (st.drop (c + 1)) := by
  rw [drop_eq_cons st c hc]
  rfl

/-- The iterator made of a cell and a position in its list settles on an entry, or on the
end of the last list. -/
theorem iterator_settle (st : List (List (Nat × V))) :
    ∀ d c j, st.length - c = d → c < st.length → j ≤ (st.getD c []).length →
      ∃ c' j', iterator st c j = (c', j') ∧ c' < st.length ∧ j' ≤ (st.getD c' []).length ∧
        ((List.range' j' ((st.getD c' []).length - j')).map (fun i => (c', i)) ++
            slots (c' + 1) (st.drop (c' + 1)) =
          (List.range' j ((st.getD c []).length - j)).map (fun i => (c, i)) ++
            slots (c + 1) (st.drop (c + 1))) ∧
        (j' < (st.getD c' []).length ∨ (c' = st.length - 1 ∧ j' = (st.getD c' []).length)) := by
  intro d
  induction d with
  | zero => intro c j h hc; omega
  | succ d ih =>
    intro c j hd hc hj
    rw [iterator_step]
    by_cases hcond : c < st.length - 1 ∧ j = (st.getD c []).length
    · rw [if_pos hcond]
      obtain ⟨c', j', h1, h2, h3, h4, h5⟩ := ih (c + 1) 0 (by omega) (by omega) (Nat.zero_le _)
      refine ⟨c', j', h1, h2, h3, ?_, h5⟩
      rw [h4, hcond.2, Nat.sub_self, Nat.sub_zero, ← List.range_eq_range',
        ← slots_drop st (c + 1) (by omega)]
      rfl
    · rw [if_neg hcond]
      refine ⟨c, j, rfl, hc, hj, rfl, ?_⟩
      by_cases hjl : j = (st.getD c []).length
      · right
        exact ⟨by omega, hjl⟩
      · left
        omega

theorem sc_iterate_eq (t : HashTableSeparateChaining V) :
    ∀ fuel c j, c < t.storage.length → j ≤ (t.storage.getD c []).length →
      ((List.range' j ((t.storage.getD c []).length - j)).map (fun i => (c, i)) ++
        slots (c + 1) (t.storage.drop (c + 1))).length < fuel →
      iterate t fuel (iterator t.storage c j) =
        (List.range' j ((t.storage.getD c []).length - j)).map (fun i => (c, i)) ++
          slots (c + 1) (t.storage.drop (c + 1)) := by
  intro fuel
  induction fuel with
  | zero => intro c j _ _ h; omega
  | succ fuel ih =>
    intro c j hc hj hfuel
    obtain ⟨c', j', h1, h2, h3, h4, h5⟩ :=
      iterator_settle t.storage (t.storage.length - c) c j rfl hc hj
    rw [h1, ← h4]
    rw [← h4] at hfuel
    unfold iterate
    rcases h5 with hlt | ⟨hc', hj'⟩
    · rw [if_neg (hit_ne_end t c' j' hlt)]
      have hsplit : (t.storage.getD c' []).length - j' =
          ((t.storage.getD c' []).length - (j' + 1)) + 1 := by omega
      rw [hsplit, List.range'_succ, List.map_cons, List.cons_append] at hfuel ⊢
      rw [List.length_cons] at hfuel
      congr 1
      exact ih c' (j' + 1) h2 (by omega) (by omega)
    · have hend : (c', j') = end_ t := by rw [sc_end_eq, hc', hj', hc']
      rw [if_pos hend, hj', Nat.sub_self, hc']
      have : t.storage.length - 1 + 1 = t.storage.length := by omega
      rw [this, List.drop_length]
      rfl

theorem slots_length (bs : List (List (Nat × V))) :
    ∀ c, (slots c bs).length = (entries bs).length := by
  induction bs with
  | nil => intro c; rfl
  | cons b bs ih =>
    intro c
    unfold slots entries
    rw [List.length_append, List.length_map, List.length_range, List.flatten_cons,
      List.length_append]
    have := ih (c + 1)
    unfold entries at this
    rw [this]

/-- Iterating from `begin()` to `end()` visits the positions of all entries, list after
list; a larger bound on the number of iterations does not change the result. -/
theorem sc_iterate_begin (t : HashTableSeparateChaining V) (hpos : 0 < t.storage.length)
    (fuel : Nat) (hfuel : (entries t.storage).length < fuel) :
    iterate t fuel (begin t) = slots 0 t.storage := by
  have h0 : slots 0 t.storage =
      (List.range' 0 ((t.storage.getD 0 []).length - 0)).map (fun i => (0, i)) ++
        slots (0 + 1) (t.storage.drop (0 + 1)) := by
    have := slots_drop t.storage 0 hpos
    rw [List.drop_zero] at this
    rw [this, Nat.sub_zero, List.range_eq_range']
  unfold begin
  rw [h0]
  apply sc_iterate_eq t fuel 0 0 hpos (Nat.zero_le _)
  rw [← h0, slots_length]
  exact hfuel

theorem sc_positions_eq (t : HashTableSeparateChaining V) (hpos : 0 < t.storage.length) :
    positions t = slots 0 t.storage :=
  sc_iterate_begin t hpos _ (Nat.lt_succ_self _)

theorem mem_slots_drop (st : List (List (Nat × V))) :
    ∀ d c p, st.length - c = d → p ∈ slots c (st.drop c) →
      c ≤ p.1 ∧ p.1 < st.length ∧ p.2 < (st.getD p.1 []).length := by
  intro d
  induction d with
  | zero =>
    intro c p hd hp
    rw [List.drop_eq_nil_of_le (by omega)] at hp
    exact absurd hp (List.not_mem_nil _)
  | succ d ih =>
    intro c p hd hp
    have hc : c < st.length := by omega
    rw [slots_drop st c hc, List.mem_append] at hp
    rcases hp with hp | hp
    · rw [List.mem_map] at hp
      obtain ⟨j, hj, hpj⟩ := hp
      rw [List.mem_range] at hj
      rw [← hpj]
      exact ⟨Nat.le_refl _, hc, hj⟩
    · obtain ⟨h1, h2, h3⟩ := ih (c + 1) p (by omega) hp
      exact ⟨by omega, h2, h3⟩

theorem map_entryAt_slots (t : HashTableSeparateChaining V) :
    ∀ d c, t.storage.length - c = d →
      (slots c (t.storage.drop c)).map (entryAt t) =
        (entries (t.storage.drop c)).map some := by
  intro d
  induction d with
  | zero =>
    intro c hd
    rw [List.drop_eq_nil_of_le (by omega)]
    rfl
  | succ d ih =>
    intro c hd
    have hc : c < t.storage.length := by omega
    rw [slots_drop t.storage c hc, List.map_append, ih (c + 1) (by omega)]
    conv => rhs; rw [drop_eq_cons t.storage c hc]
    unfold entries
    rw [List.flatten_cons, List.map_append]
    congr 1
    rw [List.map_map]
    apply List.ext_getElem
    · rw [List.length_map, List.length_map, List.length_range]
    · intro i h1 h2
      rw [List.getElem_map, List.getElem_map, List.getElem_range]
      unfold entryAt
      show (t.storage.getD c [])[i]? = _
      rw [List.length_map] at h2
      exact List.getElem?_eq_getElem h2

theorem mem_positions_iff (t : HashTableSeparateChaining V) (hpos : 0 < t.storage.length)
    (p : Nat × Nat) (hp : p ∈ positions t) :
    p.1 < t.storage.length ∧ p.2 < (t.storage.getD p.1 []).length := by
  rw [sc_positions_eq t hpos] at hp
  have := mem_slots_drop t.storage t.storage.length 0 p rfl (by rw [List.drop_zero]; exact hp)
  exact ⟨this.2.1, this.2.2⟩

/-- The entries met at the visited positions are the entries of the table, list after
list. -/
theorem map_entryAt_positions (t : HashTableSeparateChaining V)
    (hpos : 0 < t.storage.length) :
    (positions t).map (entryAt t) = (entries t.storage).map some := by
  rw [sc_positions_eq t hpos]
  have := map_entryAt_slots t t.storage.length 0 rfl
  rw [List.drop_zero] at this
  exact this

theorem findInList_of_nodup (l : List (Nat × V)) :
    ∀ j e, (l.map Prod.fst).Nodup → l[j]? = some e → findInList e.1 l = j := by
  induction l with
  | nil => intro j e _ h; simp at h
  | cons x l ih =>
    intro j e hnd h
    rw [List.map_cons, List.nodup_cons] at hnd
    cases j with
    | zero =>
      have : x = e := by simpa using h
      rw [this]
      simp [findInList]
    | succ j =>
      have hl : l[j]? = some e := by simpa using h
      have hmem : e ∈ l := List.mem_iff_getElem?.mpr ⟨j, hl⟩
      have hne : x.1 ≠ e.1 := by
        intro heq
        exact hnd.1 (by rw [heq]; exact List.mem_map_of_mem _ hmem)
      unfold findInList
      rw [if_pos hne, ih j e hnd.2 hl]

end HashTableSeparateChaining

end PanovaElena

namespace PanovaElena

namespace HashTableSeparateChaining

variable {V : Type}

theorem built_pos (t : HashTableSeparateChaining V) (hb : Built t) : 0 < t.storage.length := by
  rw [hb.wf]
  exact Nat.pos_pow_of_pos _ (by decide)

theorem positions_length (t : HashTableSeparateChaining V) (hb : Built t) :
    (positions t).length = getSize t := by
  rw [sc_positions_eq t (built_pos t hb), slots_length]
  exact hb.size_eq.symm

theorem positions_eq_nil_iff (t : HashTableSeparateChaining V) :
    positions t = [] ↔ begin t = end_ t := by
  unfold positions iterate
  constructor
  · intro h
    by_cases hbe : begin t = end_ t
    · exact hbe
    · rw [if_neg hbe] at h
      exact List.noConfusion h
  · intro h
    rw [if_pos h]

theorem begin_eq_end_iff (t : HashTableSeparateChaining V) (hb : Built t) :
    begin t = end_ t ↔ isEmpty t = true := by
  rw [← positions_eq_nil_iff, ← List.length_eq_zero, positions_length t hb]
  unfold isEmpty getSize
  exact (beq_iff_eq).symm

theorem position_found (t : HashTableSeparateChaining V) (hinv : Inv t) (p : Nat × Nat)
    (hp : p ∈ positions t) :
    ∃ e, entryAt t p = some e ∧ find t e.1 = .ok p ∧ p ≠ end_ t := by
  obtain ⟨h1, h2⟩ := mem_positions_iff t (built_pos t hinv.built) p hp
  refine ⟨(t.storage.getD p.1 [])[p.2], List.getElem?_eq_getElem h2, ?_, hit_ne_end t p.1 p.2 h2⟩
  have hmem : (t.storage.getD p.1 [])[p.2] ∈ t.storage.getD p.1 [] := List.getElem_mem _
  have hh : hash t.a t.M ((t.storage.getD p.1 [])[p.2]).1 = p.1 :=
    hinv.built.placed p.1 h1 _ hmem
  have hnd : ((t.storage.getD p.1 []).map Prod.fst).Nodup :=
    List.Nodup.sublist ((bucket_sublist t.storage p.1).map Prod.fst) hinv.nodup
  have hidx := findInList_of_nodup (t.storage.getD p.1 []) p.2 _ hnd
    (List.getElem?_eq_getElem h2)
  rw [sc_find_eq, hh, hidx, if_neg (Nat.ne_of_lt h2)]

theorem positions_keys_nodup (t : HashTableSeparateChaining V) (hinv : Inv t) :
    ((positions t).map (fun p => (entryAt t p).map Prod.fst)).Nodup := by
  have : (positions t).map (fun p => (entryAt t p).map Prod.fst) =
      ((entries t.storage).map Prod.fst).map some := by
    have h1 : (positions t).map (fun p => (entryAt t p).map Prod.fst) =
        ((positions t).map (entryAt t)).map (Option.map Prod.fst) := by
      rw [List.map_map]
      rfl
    rw [h1, map_entryAt_positions t (built_pos t hinv.built), List.map_map, List.map_map]
    rfl
  rw [this]
  exact hinv.nodup.map (Option.some_injective _)

end HashTableSeparateChaining

/-- C11. Key uniqueness under iteration, for both hash-table strategies and every state
reachable from a freshly constructed table by `insert`/`erase`/`clear`: the keys visited by
iterating from `begin()` to `end()` are pairwise distinct, and for each visited position,
with key `k`, `find(k)` returns exactly that position; the iteration ends (a larger bound on
the number of steps visits the same positions). -/
theorem iteration_keys_distinct_and_found {V : Type} [Inhabited V] :
    (∀ t : HashTableOpenAddressing V, HashTableOpenAddressing.Reachable t →
      ((HashTableOpenAddressing.positions t).map (HashTableOpenAddressing.keyAt t)).Nodup ∧
      (∀ it, it ∈ HashTableOpenAddressing.positions t →
        HashTableOpenAddressing.find t (HashTableOpenAddressing.keyAt t it) = .ok it ∧
        it ≠ HashTableOpenAddressing.end_ t) ∧
      (∀ fuel, t.storage.length < fuel →
        HashTableOpenAddressing.iterate t fuel (HashTableOpenAddressing.begin t) =
          HashTableOpenAddressing.positions t)) ∧
    (∀ t : HashTableSeparateChaining V, HashTableSeparateChaining.Reachable t →
      ((HashTableSeparateChaining.positions t).map
        (fun p => (HashTableSeparateChaining.entryAt t p).map Prod.fst)).Nodup ∧
      (∀ p, p ∈ HashTableSeparateChaining.positions t →
        ∃ e, HashTableSeparateChaining.entryAt t p = some e ∧
          HashTableSeparateChaining.find t e.1 = .ok p ∧
          p ≠ HashTableSeparateChaining.end_ t) ∧
      (∀ fuel, (HashTableSeparateChaining.entries t.storage).length < fuel →
        HashTableSeparateChaining.iterate t fuel (HashTableSeparateChaining.begin t) =
          HashTableSeparateChaining.positions t)) := by
  constructor
  · intro t hr
    have hinv := HashTableOpenAddressing.inv_of_reachable t hr
    have h := HashTableOpenAddressing.positions_of_good t hinv.good
    refine ⟨h.2, h.1, ?_⟩
    intro fuel hfuel
    rw [HashTableOpenAddressing.iterate_begin t fuel hfuel,
      HashTableOpenAddressing.positions_eq]
  · intro t hr
    have hinv := HashTableSeparateChaining.sc_inv_of_reachable t hr
    refine ⟨HashTableSeparateChaining.positions_keys_nodup t hinv,
      fun p hp => HashTableSeparateChaining.position_found t hinv p hp, ?_⟩
    intro fuel hfuel
    have hpos := HashTableSeparateChaining.built_pos t hinv.built
    rw [HashTableSeparateChaining.sc_iterate_begin t hpos fuel hfuel,
      HashTableSeparateChaining.sc_positions_eq t hpos]

/-- Witness of C11: the tables of the test fixture with the colliding keys 0, 1, 2.  Open
addressing visits the slots 0, 1, 4 with the keys 0, 1, 2; separate chaining visits the
three positions of the list of cell 0 with the keys 2, 1, 0. -/
theorem iteration_keys_distinct_and_found_witness :
    (HashTableOpenAddressing.Reachable HashTableOpenAddressing.collisionTable ∧
      HashTableOpenAddressing.positions HashTableOpenAddressing.collisionTable = [0, 1, 4] ∧
      (HashTableOpenAddressing.positions HashTableOpenAddressing.collisionTable).map
        (HashTableOpenAddressing.keyAt HashTableOpenAddressing.collisionTable) = [0, 1, 2] ∧
      ((HashTableOpenAddressing.positions HashTableOpenAddressing.collisionTable).map
        (HashTableOpenAddressing.keyAt HashTableOpenAddressing.collisionTable)).Nodup) ∧
    (HashTableSeparateChaining.Reachable HashTableSeparateChaining.collisionTable ∧
      HashTableSeparateChaining.positions HashTableSeparateChaining.collisionTable =
        [(0, 0), (0, 1), (0, 2)] ∧
      (HashTableSeparateChaining.positions HashTableSeparateChaining.collisionTable).map
        (fun p => (HashTableSeparateChaining.entryAt
          HashTableSeparateChaining.collisionTable p).map Prod.fst) =
        [some 2, some 1, some 0] ∧
      ((HashTableSeparateChaining.positions HashTableSeparateChaining.collisionTable).map
        (fun p => (HashTableSeparateChaining.entryAt
          HashTableSeparateChaining.collisionTable p).map Prod.fst)).Nodup) :=
  ⟨⟨HashTableOpenAddressing.reachable_collisionTable, by decide, by decide,
    ((iteration_keys_distinct_and_found (V := Char)).1 _
      HashTableOpenAddressing.reachable_collisionTable).1⟩,
   ⟨HashTableSeparateChaining.sc_reachable_collisionTable, by decide, by decide,
    ((iteration_keys_distinct_and_found (V := Char)).2 _
      HashTableSeparateChaining.sc_reachable_collisionTable).1⟩⟩

namespace HashTableSeparateChaining

/-- C12. Separate chaining, in every state reachable from a freshly constructed table by
`insert`/`erase`/`clear`: `getSize()` is the sum of the lengths of all lists of the storage,
which is the number of positions visited by iterating from `begin()` to `end()`; the visited
positions are those of the entries, list after list (empty lists contribute nothing), the
end sentinel is (last cell, end of its list), and `begin() == end()` exactly when
`isEmpty()`. -/
theorem sc_size_is_sum_of_buckets {V : Type} (t : HashTableSeparateChaining V)
    (hr : Reachable t) :
    getSize t = (t.storage.map List.length).sum ∧
    (positions t).length = getSize t ∧
    positions t = slots 0 t.storage ∧
    (∀ fuel, (entries t.storage).length < fuel → iterate t fuel (begin t) = positions t) ∧
    end_ t = (t.storage.length - 1, (t.storage.getD (t.storage.length - 1) []).length) ∧
    (begin t = end_ t ↔ isEmpty t = true) := by
  have hinv := sc_inv_of_reachable t hr
  have hpos := built_pos t hinv.built
  refine ⟨?_, positions_length t hinv.built, sc_positions_eq t hpos, ?_, sc_end_eq t,
    begin_eq_end_iff t hinv.built⟩
  · show t.size = _
    rw [hinv.built.size_eq]
    exact List.length_flatten _
  · intro fuel hfuel
    rw [sc_iterate_begin t hpos fuel hfuel, sc_positions_eq t hpos]

/-- Witness of C12: the table of the test fixture with the keys `i * 2^29`, `i = 1..5`: five
entries in the cells 1..5, five visited positions, cell 0 and the cells 6, 7 skipped. -/
theorem sc_size_is_sum_of_buckets_witness :
    Reachable spreadTable ∧
    getSize spreadTable = 5 ∧
    positions spreadTable = [(1, 0), (2, 0), (3, 0), (4, 0), (5, 0)] ∧
    end_ spreadTable = (7, 0) ∧
    (getSize spreadTable = (spreadTable.storage.map List.length).sum ∧
      (positions spreadTable).length = getSize spreadTable ∧
      positions spreadTable = slots 0 spreadTable.storage ∧
      (∀ fuel, (entries spreadTable.storage).length < fuel →
        iterate spreadTable fuel (begin spreadTable) = positions spreadTable) ∧
      end_ spreadTable = (spreadTable.storage.length - 1,
        (spreadTable.storage.getD (spreadTable.storage.length - 1) []).length) ∧
      (begin spreadTable = end_ spreadTable ↔ isEmpty spreadTable = true)) :=
  ⟨sc_reachable_spreadTable, by decide, by decide, by decide,
   sc_size_is_sum_of_buckets spreadTable sc_reachable_spreadTable⟩

end HashTableSeparateChaining

end PanovaElena

namespace PanovaElena

/-! ## `clear` -/

namespace HashTableOpenAddressing

variable {V : Type} [Inhabited V]

theorem begin_eq_end_of_empty (t : HashTableOpenAddressing V)
    (h : ∀ i, (cellAt t.storage i).label.is_cell_not_empty = false) : begin t = end_ t := by
  obtain ⟨_, h2, _, h4⟩ := iterator_spec t.storage 0 (Nat.zero_le _)
  rw [end_eq]
  unfold begin
  rcases Nat.lt_or_ge (iterator t.storage 0) t.storage.length with hlt | hge
  · have := h4 hlt
    rw [h (iterator t.storage 0)] at this
    exact Bool.noConfusion this
  · omega

theorem clear_spec (t : HashTableOpenAddressing V) :
    getSize (clear t) = 0 ∧ isEmpty (clear t) = true ∧
    (clear t).storage.length = 2 ^ 10 ∧ (clear t).M = 10 ∧
    (∀ c, c ∈ (clear t).storage →
      c.label.is_cell_not_empty = false ∧ c.label.is_element_was_deleted = false) ∧
    (∀ key, find (clear t) key = .ok (end_ (clear t))) ∧
    begin (clear t) = end_ (clear t) ∧ positions (clear t) = [] ∧
    (clear t).a = t.a := by
  have hcell : ∀ i, cellAt (clear t).storage i = default := fun i => cellAt_replicate _ i
  refine ⟨rfl, rfl, ?_, rfl, ?_, ?_, ?_, ?_, rfl⟩
  · show (List.replicate (getTableSize FIRST_TABLE_SIZE_DEG) (default : OACell V)).length = _
    rw [List.length_replicate]
    rfl
  · intro c hc
    have : c = default := List.eq_of_mem_replicate hc
    rw [this]
    exact ⟨rfl, rfl⟩
  · intro key
    rw [find_eq, end_eq]
    congr 1
    apply findIn_eq_length_of_no_live
    intro i _
    rw [hcell i]
    rfl
  · apply begin_eq_end_of_empty
    intro i
    rw [hcell i]
    rfl
  · rw [positions_eq, List.filter_eq_nil_iff]
    intro i _
    rw [hcell i]
    exact Bool.noConfusion

end HashTableOpenAddressing

namespace HashTableSeparateChaining

variable {V : Type}

theorem sc_clear_spec (t : HashTableSeparateChaining V) :
    getSize (clear t) = 0 ∧ isEmpty (clear t) = true ∧
    (clear t).storage.length = 2 ^ 10 ∧ (clear t).M = 10 ∧
    (∀ b, b ∈ (clear t).storage → b = []) ∧
    (∀ key, find (clear t) key = .ok (end_ (clear t))) ∧
    begin (clear t) = end_ (clear t) ∧ positions (clear t) = [] ∧
    (clear t).a = t.a := by
  have hbe : begin (clear t) = end_ (clear t) :=
    (begin_eq_end_iff (clear t) (sc_inv_clear t).built).mpr rfl
  refine ⟨rfl, rfl, ?_, rfl, ?_, ?_, hbe, (positions_eq_nil_iff _).mpr hbe, rfl⟩
  · show (List.replicate (getTableSize FIRST_TABLE_SIZE_DEG)
      ([] : List (Nat × V))).length = _
    rw [List.length_replicate]
    rfl
  · intro b hb
    exact List.eq_of_mem_replicate hb
  · intro key
    rw [sc_absent_iff]
    show firstWith key ((List.replicate _ []).getD _ []) = none
    rw [getD_replicate]
    rfl

end HashTableSeparateChaining

/-- C13. `clear()` on either hash-table strategy, from every state (so from every reachable
one, whatever exponent the table was constructed with): the live count is 0 and `isEmpty()`
holds, the capacity is `2^10` and `M = 10`, every slot is untouched / every list is empty,
`find(k)` misses for every key, `begin() == end()` (nothing is visited), and the hash
multiplier is the one before the call. -/
theorem clear_resets_to_default {V : Type} [Inhabited V] :
    (∀ t : HashTableOpenAddressing V,
      HashTableOpenAddressing.getSize (HashTableOpenAddressing.clear t) = 0 ∧
      HashTableOpenAddressing.isEmpty (HashTableOpenAddressing.clear t) = true ∧
      (HashTableOpenAddressing.clear t).storage.length = 2 ^ 10 ∧
      (HashTableOpenAddressing.clear t).M = 10 ∧
      (∀ c, c ∈ (HashTableOpenAddressing.clear t).storage →
        c.label.is_cell_not_empty = false ∧ c.label.is_element_was_deleted = false) ∧
      (∀ key, HashTableOpenAddressing.find (HashTableOpenAddressing.clear t) key =
        .ok (HashTableOpenAddressing.end_ (HashTableOpenAddressing.clear t))) ∧
      HashTableOpenAddressing.begin (HashTableOpenAddressing.clear t) =
        HashTableOpenAddressing.end_ (HashTableOpenAddressing.clear t) ∧
      HashTableOpenAddressing.positions (HashTableOpenAddressing.clear t) = [] ∧
      (HashTableOpenAddressing.clear t).a = t.a) ∧
    (∀ t : HashTableSeparateChaining V,
      HashTableSeparateChaining.getSize (HashTableSeparateChaining.clear t) = 0 ∧
      HashTableSeparateChaining.isEmpty (HashTableSeparateChaining.clear t) = true ∧
      (HashTableSeparateChaining.clear t).storage.length = 2 ^ 10 ∧
      (HashTableSeparateChaining.clear t).M = 10 ∧
      (∀ b, b ∈ (HashTableSeparateChaining.clear t).storage → b = []) ∧
      (∀ key, HashTableSeparateChaining.find (HashTableSeparateChaining.clear t) key =
        .ok (HashTableSeparateChaining.end_ (HashTableSeparateChaining.clear t))) ∧
      HashTableSeparateChaining.begin (HashTableSeparateChaining.clear t) =
        HashTableSeparateChaining.end_ (HashTableSeparateChaining.clear t) ∧
      HashTableSeparateChaining.positions (HashTableSeparateChaining.clear t) = [] ∧
      (HashTableSeparateChaining.clear t).a = t.a) :=
  ⟨fun t => HashTableOpenAddressing.clear_spec t,
   fun t => HashTableSeparateChaining.sc_clear_spec t⟩

end PanovaElena

namespace PanovaElena

namespace SortedTable

variable {V : Type}

/-! ## `SortedTable` -/

theorem skipLess_le (key : Nat) : ∀ l : List (Nat × V), skipLess key l ≤ l.length := by
  intro l
  induction l with
  | nil => exact Nat.le_refl _
  | cons x l ih =>
    unfold skipLess
    split
    · rw [List.length_cons]; omega
    · exact Nat.zero_le _

theorem skipLess_before (key : Nat) :
    ∀ (l : List (Nat × V)) (i : Nat) (e : Nat × V),
      l[i]? = some e → i < skipLess key l → e.1 < key := by
  intro l
  induction l with
  | nil => intro i e h; simp at h
  | cons x l ih =>
    intro i e h hi
    unfold skipLess at hi
    split at hi
    · rename_i hx
      cases i with
      | zero =>
        have : x = e := by simpa using h
        rw [← this]; exact hx
      | succ j =>
        have hl : l[j]? = some e := by simpa using h
        exact ih j e hl (by omega)
    · omega

theorem skipLess_after (key : Nat) :
    ∀ (l : List (Nat × V)), l.Pairwise (fun a b => a.1 < b.1) →
      ∀ (i : Nat) (e : Nat × V), l[i]? = some e → skipLess key l ≤ i → key ≤ e.1 := by
  intro l
  induction l with
  | nil => intro _ i e h; simp at h
  | cons x l ih =>
    intro hs i e h hi
    rw [List.pairwise_cons] at hs
    unfold skipLess at hi
    split at hi
    · cases i with
      | zero => omega
      | succ j =>
        have hl : l[j]? = some e := by simpa using h
        exact ih hs.2 j e hl (by omega)
    · rename_i hx
      cases i with
      | zero =>
        have : x = e := by simpa using h
        rw [← this]; omega
      | succ j =>
        have hl : l[j]? = some e := by simpa using h
        have := hs.1 e (List.mem_iff_getElem?.mpr ⟨j, hl⟩)
        omega

theorem lt_iff_lt_skipLess (key : Nat) (l : List (Nat × V))
    (hs : l.Pairwise (fun a b => a.1 < b.1)) (m : Nat) (e : Nat × V) (h : l[m]? = some e) :
    e.1 < key ↔ m < skipLess key l := by
  constructor
  · intro hlt
    rcases Nat.lt_or_ge m (skipLess key l) with h1 | h1
    · exact h1
    · have := skipLess_after key l hs m e h h1
      omega
  · exact skipLess_before key l m e h

/-- The loop of `std::lower_bound` finds the boundary `s` between the entries with a key
below `key` and the others, from every range that contains it. -/
theorem lowerBoundLoop_eq (l : List (Nat × V)) (key s : Nat)
    (hs : ∀ m e, l[m]? = some e → (e.1 < key ↔ m < s)) :
    ∀ fuel first len, len ≤ fuel → first ≤ s → s ≤ first + len → first + len ≤ l.length →
      lowerBoundLoop l key fuel first len = s := by
  intro fuel
  induction fuel with
  | zero =>
    intro first len h1 h2 h3 _
    unfold lowerBoundLoop
    omega
  | succ fuel ih =>
    intro first len h1 h2 h3 h4
    unfold lowerBoundLoop
    by_cases hlen : len = 0
    · rw [if_pos hlen]; omega
    · rw [if_neg hlen]
      have hm : first + len / 2 < l.length := by omega
      have he : l[first + len / 2]? = some l[first + len / 2] := List.getElem?_eq_getElem hm
      have hiff := hs _ _ he
      rw [he]
      by_cases hlt : (l[first + len / 2]).1 < key
      · have hc : ((some l[first + len / 2]).map Prod.fst).any (fun k => decide (k < key)) =
            true := by
          simp [hlt]
        rw [if_pos hc]
        have := hiff.mp hlt
        exact ih _ _ (by omega) (by omega) (by omega) (by omega)
      · have hc : ¬ ((some l[first + len / 2]).map Prod.fst).any (fun k => decide (k < key)) =
            true := by
          simp [hlt]
        rw [if_neg hc]
        have : ¬ first + len / 2 < s := fun h => hlt (hiff.mpr h)
        exact ih _ _ (by omega) (by omega) (by omega) (by omega)

theorem ascending_iff (t : SortedTable V) :
    Ascending t ↔ t.storage.Pairwise (fun a b => a.1 < b.1) := by
  unfold Ascending
  rw [List.pairwise_map]

/-- On a sorted vector, `std::lower_bound` returns the position at which the loop of
`insertWithoutSearch` stops. -/
theorem lower_bound_eq (l : List (Nat × V)) (key : Nat)
    (hs : l.Pairwise (fun a b => a.1 < b.1)) : lower_bound l key = skipLess key l :=
  lowerBoundLoop_eq l key (skipLess key l) (lt_iff_lt_skipLess key l hs) l.length 0 l.length
    (Nat.le_refl _) (Nat.zero_le _) (by have := skipLess_le key l; omega) (by omega)

theorem find_of_present (t : SortedTable V) (hs : Ascending t) (i : Nat) (e : Nat × V)
    (h : t.storage[i]? = some e) : find t e.1 = .ok i ∧ i ≠ end_ t := by
  rw [ascending_iff] at hs
  have hi : i < t.storage.length := by
    rcases Nat.lt_or_ge i t.storage.length with h1 | h1
    · exact h1
    · rw [List.getElem?_eq_none h1] at h
      exact Option.noConfusion h
  have hiff := lt_iff_lt_skipLess e.1 t.storage hs
  have hle : skipLess e.1 t.storage ≤ i := by
    rcases Nat.lt_or_ge i (skipLess e.1 t.storage) with h1 | h1
    · have := (hiff i e h).mpr h1
      omega
    · exact h1
  have hge : i ≤ skipLess e.1 t.storage := by
    rcases Nat.lt_or_ge (skipLess e.1 t.storage) i with h1 | h1
    · exfalso
      have hs' : skipLess e.1 t.storage < t.storage.length := by omega
      have hlt : (t.storage[skipLess e.1 t.storage]).1 < e.1 := by
        have hi' : e = t.storage[i] := by
          rw [List.getElem?_eq_getElem hi] at h
          injection h with h
          exact h.symm
        have hp := List.pairwise_iff_getElem.mp hs _ _ hs' hi h1
        rw [← hi'] at hp
        exact hp
      have := (hiff _ _ (List.getElem?_eq_getElem hs')).mp hlt
      omega
    · exact h1
  have heq : skipLess e.1 t.storage = i := by omega
  refine ⟨?_, ?_⟩
  · unfold find
    rw [lower_bound_eq t.storage e.1 hs, heq]
    dsimp only
    rw [if_neg]
    intro hc
    rcases hc with hc | hc
    · omega
    · rw [h] at hc
      exact hc rfl
  · unfold end_
    omega

theorem find_of_absent (t : SortedTable V) (hs : Ascending t) (key : Nat)
    (h : key ∉ t.storage.map Prod.fst) : find t key = .ok (end_ t) := by
  rw [ascending_iff] at hs
  unfold find
  rw [lower_bound_eq t.storage key hs]
  dsimp only
  rw [if_pos]
  rcases Nat.lt_or_ge (skipLess key t.storage) t.storage.length with h1 | h1
  · right
    rw [List.getElem?_eq_getElem h1]
    intro hc
    apply h
    have : (t.storage[skipLess key t.storage]).1 = key := by
      simpa using hc
    rw [← this]
    exact List.mem_map_of_mem _ (List.getElem_mem _)
  · left
    have := skipLess_le key t.storage
    omega

theorem sorted_find_total (t : SortedTable V) (key : Nat) : ∃ it, find t key = .ok it := by
  unfold find
  dsimp only
  split
  · exact ⟨_, rfl⟩
  · exact ⟨_, rfl⟩

theorem absent_of_find_end (t : SortedTable V) (hs : Ascending t) (key : Nat)
    (h : find t key = .ok (end_ t)) : key ∉ t.storage.map Prod.fst := by
  intro hmem
  rw [List.mem_map] at hmem
  obtain ⟨e, he, hk⟩ := hmem
  obtain ⟨i, hi⟩ := List.mem_iff_getElem?.mp he
  have := find_of_present t hs i e hi
  rw [hk, h] at this
  exact this.2 (by injection this.1 with h1; exact h1.symm)

end SortedTable

end PanovaElena

namespace PanovaElena

namespace SortedTable

variable {V : Type}

theorem insert_eq_of_absent_sorted (t : SortedTable V) (key : Nat) (elem : V)
    (h : find t key = .ok (end_ t)) :
    insert t key elem =
      .ok ({ storage := t.storage.insertIdx (skipLess key t.storage) (key, elem) },
        skipLess key t.storage, true) := by
  unfold insert Table.insert
  have hf : (derived (V := V)).find t key = .ok ((derived (V := V)).end_ t) := h
  rw [hf]
  dsimp only
  rw [if_neg (fun hc => hc rfl)]
  rfl

theorem pairwise_insertIdx_skipLess (key : Nat) (elem : V) :
    ∀ l : List (Nat × V), l.Pairwise (fun a b => a.1 < b.1) → key ∉ l.map Prod.fst →
      (l.insertIdx (skipLess key l) (key, elem)).Pairwise (fun a b => a.1 < b.1) := by
  intro l
  induction l with
  | nil =>
    intro _ _
    exact List.pairwise_singleton _ _
  | cons x l ih =>
    intro hs hk
    have hs' := List.pairwise_cons.mp hs
    rw [List.map_cons, List.mem_cons, not_or] at hk
    unfold skipLess
    split
    · rename_i hx
      rw [List.insertIdx_succ_cons, List.pairwise_cons]
      refine ⟨?_, ih hs'.2 hk.2⟩
      intro e he
      rcases (List.mem_insertIdx (skipLess_le key l)).mp he with h1 | h1
      · rw [h1]; exact hx
      · exact hs'.1 e h1
    · rename_i hx
      rw [List.insertIdx_zero, List.pairwise_cons]
      refine ⟨?_, hs⟩
      intro e he
      have hkx : key < x.1 := by
        have := hk.1
        show key < x.1
        omega
      rcases List.mem_cons.mp he with h1 | h1
      · rw [h1]; exact hkx
      · have := hs'.1 e h1
        show key < e.1
        omega

theorem insertIdx_skipLess_at (key : Nat) (elem : V) (l : List (Nat × V)) :
    (l.insertIdx (skipLess key l) (key, elem))[skipLess key l]? = some (key, elem) := by
  have hle := skipLess_le key l
  have hlt : skipLess key l < (l.insertIdx (skipLess key l) (key, elem)).length := by
    rw [List.length_insertIdx _ _ hle]
    omega
  rw [List.getElem?_eq_getElem hlt]
  congr 1
  exact List.getElem_insertIdx_self l (key, elem) (skipLess key l) hle hlt

theorem ascending_insert (t : SortedTable V) (hs : Ascending t) (key : Nat) (elem : V)
    (r : SortedTable V × Nat × Bool) (h : insert t key elem = .ok r) : Ascending r.1 := by
  obtain ⟨it0, hf⟩ := sorted_find_total t key
  by_cases hend : it0 = end_ t
  · rw [hend] at hf
    rw [insert_eq_of_absent_sorted t key elem hf] at h
    have : ({ storage := t.storage.insertIdx (skipLess key t.storage) (key, elem) },
        skipLess key t.storage, true) = r := by injection h
    rw [← this, ascending_iff]
    exact pairwise_insertIdx_skipLess key elem t.storage ((ascending_iff t).mp hs)
      (absent_of_find_end t hs key hf)
  · have := Table.insert_of_present derived t key elem it0 hf hend
    unfold insert at h
    rw [this] at h
    have : (t, it0, false) = r := by injection h
    rw [← this]
    exact hs

theorem ascending_erase (t : SortedTable V) (hs : Ascending t) (key : Nat)
    (r : SortedTable V × Bool) (h : erase t key = .ok r) : Ascending r.1 := by
  obtain ⟨it0, hf⟩ := sorted_find_total t key
  unfold erase Table.erase at h
  have hf' : derived.find t key = .ok it0 := hf
  rw [hf'] at h
  dsimp only at h
  split at h
  · have : (t, false) = r := by injection h
    rw [← this]
    exact hs
  · cases he : (derived (V := V)).eraseWithoutSearch t it0 with
    | error e => rw [he] at h; exact Except.noConfusion h
    | ok t' =>
      rw [he] at h
      have hr : (t', true) = r := by injection h
      rw [← hr]
      have he' : eraseWithoutSearch t it0 = .ok t' := he
      unfold eraseWithoutSearch at he'
      split at he'
      · have : ({ storage := t.storage.eraseIdx it0 } : SortedTable V) = t' := by injection he'
        rw [← this, ascending_iff]
        exact List.Pairwise.sublist (List.eraseIdx_sublist _ _) ((ascending_iff t).mp hs)
      · exact Except.noConfusion he'

theorem ascending_of_reachable (t : SortedTable V) (h : Reachable t) : Ascending t := by
  induction h with
  | empty => exact List.Pairwise.nil
  | insert _ hi ih => exact ascending_insert _ ih _ _ _ hi
  | erase _ he ih => exact ascending_erase _ ih _ _ he
  | clear _ _ => exact List.Pairwise.nil

/-- C18. `SortedTable`: in every state reachable from an empty table by `insert`/`erase`
(and `clear`) through the `Table` interface, the stored keys are in strictly ascending
order; `find(k)` (binary search) returns the position of the entry with key `k` when there
is one, and `end()` when there is none. -/
theorem sorted_table_ascending_and_found (t : SortedTable V) (hr : Reachable t) :
    Ascending t ∧
    (∀ i e, t.storage[i]? = some e → find t e.1 = .ok i ∧ i ≠ end_ t) ∧
    (∀ key, key ∉ t.storage.map Prod.fst → find t key = .ok (end_ t)) :=
  have hs := ascending_of_reachable t hr
  ⟨hs, fun i e h => find_of_present t hs i e h, fun key h => find_of_absent t hs key h⟩

theorem reachable_sample :
    Reachable ({ storage := [(1, 'a'), (2, 'b'), (3, 'c')] } : SortedTable Char) :=
  @Reachable.insert Char { storage := [(1, 'a'), (3, 'c')] }
    { storage := [(1, 'a'), (2, 'b'), (3, 'c')] } 2 'b' 1 true
    (@Reachable.insert Char { storage := [(3, 'c')] } { storage := [(1, 'a'), (3, 'c')] }
      1 'a' 0 true
      (@Reachable.insert Char { storage := [] } { storage := [(3, 'c')] } 3 'c' 0 true
        Reachable.empty (by decide))
      (by decide))
    (by decide)

/-- Witness of C18: the keys 3, 1, 2 inserted in this order are stored as 1, 2, 3, and
`find(2)` is the position 1, `find(5)` is `end()`. -/
theorem sorted_table_ascending_and_found_witness :
    Reachable ({ storage := [(1, 'a'), (2, 'b'), (3, 'c')] } : SortedTable Char) ∧
    Ascending ({ storage := [(1, 'a'), (2, 'b'), (3, 'c')] } : SortedTable Char) ∧
    find ({ storage := [(1, 'a'), (2, 'b'), (3, 'c')] } : SortedTable Char) 2 = .ok 1 ∧
    find ({ storage := [(1, 'a'), (2, 'b'), (3, 'c')] } : SortedTable Char) 5 = .ok 3 :=
  have h := sorted_table_ascending_and_found _ reachable_sample
  ⟨reachable_sample, h.1, (h.2.1 1 (2, 'b') rfl).1, h.2.2 5 (by decide)⟩

end SortedTable

end PanovaElena

namespace PanovaElena

namespace UnsortedTable

variable {V : Type}

/-! ## `UnsortedTable` -/

theorem findLoop_append_of_absent (key : Nat) (elem : V) :
    ∀ l : List (Nat × V), findLoop key l = l.length →
      findLoop key (l ++ [(key, elem)]) = l.length := by
  intro l
  induction l with
  | nil =>
    intro _
    simp [findLoop]
  | cons x l ih =>
    intro h
    unfold findLoop at h
    rw [List.cons_append]
    unfold findLoop
    split at h
    · rename_i hx
      rw [if_pos hx, List.length_cons]
      rw [List.length_cons] at h
      rw [ih (by omega)]
    · rw [List.length_cons] at h
      omega

theorem insert_absent_unsorted (t : UnsortedTable V) (key : Nat) (elem : V)
    (h : find t key = .ok (end_ t)) :
    insert t key elem =
        .ok ({ storage := t.storage ++ [(key, elem)] }, t.storage.length, true) ∧
      find ({ storage := t.storage ++ [(key, elem)] } : UnsortedTable V) key =
        .ok t.storage.length := by
  constructor
  · unfold insert Table.insert
    have hf : (derived (V := V)).find t key = .ok ((derived (V := V)).end_ t) := h
    rw [hf]
    dsimp only
    rw [if_neg (fun hc => hc rfl)]
    show Except.ok (({ storage := t.storage ++ [(key, elem)] } : UnsortedTable V),
      (t.storage ++ [(key, elem)]).length - 1, true) = _
    rw [List.length_append]
    rfl
  · unfold find begin end_ at *
    have h1 : 0 + findLoop key t.storage = t.storage.length := by injection h
    rw [findLoop_append_of_absent key elem t.storage (by omega)]
    rw [Nat.zero_add]

end UnsortedTable

namespace SortedTable

variable {V : Type}

theorem insert_absent_sorted (t : SortedTable V) (hs : Ascending t) (key : Nat) (elem : V)
    (h : find t key = .ok (end_ t)) :
    ∃ t' it, insert t key elem = .ok (t', it, true) ∧ find t' key = .ok it := by
  refine ⟨_, _, insert_eq_of_absent_sorted t key elem h, ?_⟩
  have hs' : Ascending
      ({ storage := List.insertIdx (skipLess key t.storage) (key, elem) t.storage } :
        SortedTable V) :=
    ascending_insert t hs key elem _ (insert_eq_of_absent_sorted t key elem h)
  exact (find_of_present _ hs' (skipLess key t.storage) (key, elem)
    (insertIdx_skipLess_at key elem t.storage)).1

end SortedTable

/-- For every table strategy (separate chaining on the states of exponent at least 1, where
the shift of `hash` is defined), every reachable state and every key `k` absent from the
table (`find(k) == end()`): `insert(k, v)` returns with `inserted = true`, and the locator it
returns is the one `find(k)` returns on the table after the call; for the hash tables this
covers the inserts that repack, and the result does not depend on the budget. -/
theorem insert_locator_is_find {V : Type} [Inhabited V] :
    (∀ (t : HashTableOpenAddressing V) (key : Nat) (elem : V),
      HashTableOpenAddressing.Reachable t →
      HashTableOpenAddressing.find t key = .ok (HashTableOpenAddressing.end_ t) →
      ∃ fuel t' it, HashTableOpenAddressing.insert fuel t key elem = .ok (t', it, true) ∧
        HashTableOpenAddressing.find t' key = .ok it ∧
        (∀ fuel' r, HashTableOpenAddressing.insert fuel' t key elem = .ok r →
          r = (t', it, true))) ∧
    (∀ (t : HashTableSeparateChaining V) (key : Nat) (elem : V),
      HashTableSeparateChaining.Reachable t → 1 ≤ t.M →
      HashTableSeparateChaining.find t key = .ok (HashTableSeparateChaining.end_ t) →
      ∃ fuel t' it, HashTableSeparateChaining.insert fuel t key elem = .ok (t', it, true) ∧
        HashTableSeparateChaining.find t' key = .ok it ∧
        (∀ fuel' r, HashTableSeparateChaining.insert fuel' t key elem = .ok r →
          r = (t', it, true))) ∧
    (∀ (t : UnsortedTable V) (key : Nat) (elem : V),
      UnsortedTable.Reachable t →
      UnsortedTable.find t key = .ok (UnsortedTable.end_ t) →
      ∃ t' it, UnsortedTable.insert t key elem = .ok (t', it, true) ∧
        UnsortedTable.find t' key = .ok it) ∧
    (∀ (t : SortedTable V) (key : Nat) (elem : V),
      SortedTable.Reachable t →
      SortedTable.find t key = .ok (SortedTable.end_ t) →
      ∃ t' it, SortedTable.insert t key elem = .ok (t', it, true) ∧
        SortedTable.find t' key = .ok it) := by
  refine ⟨?_, ?_, ?_, ?_⟩
  · intro t key elem hr habs
    obtain ⟨fuel, t', it, h1, _, h3, _, _, h6⟩ :=
      HashTableOpenAddressing.insert_absent_of_inv t
        (HashTableOpenAddressing.inv_of_reachable t hr) key elem habs
    exact ⟨fuel, t', it, h1, h3, h6⟩
  · intro t key elem hr _ habs
    obtain ⟨fuel, t', it, h1, _, h3, _, _, h6⟩ :=
      HashTableSeparateChaining.sc_insert_absent_of_inv t
        (HashTableSeparateChaining.sc_inv_of_reachable t hr) key elem habs
    exact ⟨fuel, t', it, h1, h3, h6⟩
  · intro t key elem _ habs
    have h := UnsortedTable.insert_absent_unsorted t key elem habs
    exact ⟨_, _, h.1, h.2⟩
  · intro t key elem hr habs
    exact SortedTable.insert_absent_sorted t (SortedTable.ascending_of_reachable t hr)
      key elem habs

/-- An instance: in the hash tables of the test fixture (exponent 3) with the keys
`i * 2^29`,
`i = 1..5`, the insert of `6 * 2^29` repacks to capacity 16 and `find` yields the locator of
the insert (slot 12, resp. the head of the list of cell 12); in the sorted table with the
keys 1, 2, 3 the insert of key 0 (test `insert_and_find_gives_correct_iterators`), and in
an empty unsorted table the insert of key 2. -/
theorem insert_locator_is_find_witness :
    (HashTableOpenAddressing.Reachable HashTableOpenAddressing.spreadTable ∧
      HashTableOpenAddressing.find HashTableOpenAddressing.spreadTable (6 * 2 ^ 29) =
        .ok (HashTableOpenAddressing.end_ HashTableOpenAddressing.spreadTable) ∧
      (∃ fuel t' it, HashTableOpenAddressing.insert fuel HashTableOpenAddressing.spreadTable
          (6 * 2 ^ 29) 'f' = .ok (t', it, true) ∧
        HashTableOpenAddressing.find t' (6 * 2 ^ 29) = .ok it ∧
        (∀ fuel' r, HashTableOpenAddressing.insert fuel' HashTableOpenAddressing.spreadTable
          (6 * 2 ^ 29) 'f' = .ok r → r = (t', it, true))) ∧
      (HashTableOpenAddressing.afterInsert 2 HashTableOpenAddressing.spreadTable
        (6 * 2 ^ 29) 'f').storage.length = 16 ∧
      HashTableOpenAddressing.find (HashTableOpenAddressing.afterInsert 2
        HashTableOpenAddressing.spreadTable (6 * 2 ^ 29) 'f') (6 * 2 ^ 29) = .ok 12) ∧
    (HashTableSeparateChaining.Reachable HashTableSeparateChaining.spreadTable ∧
      HashTableSeparateChaining.find HashTableSeparateChaining.spreadTable (6 * 2 ^ 29) =
        .ok (HashTableSeparateChaining.end_ HashTableSeparateChaining.spreadTable) ∧
      (∃ fuel t' it, HashTableSeparateChaining.insert fuel
          HashTableSeparateChaining.spreadTable (6 * 2 ^ 29) 'f' = .ok (t', it, true) ∧
        HashTableSeparateChaining.find t' (6 * 2 ^ 29) = .ok it ∧
        (∀ fuel' r, HashTableSeparateChaining.insert fuel'
          HashTableSeparateChaining.spreadTable (6 * 2 ^ 29) 'f' = .ok r →
          r = (t', it, true))) ∧
      HashTableSeparateChaining.find (HashTableSeparateChaining.afterInsert 2
        HashTableSeparateChaining.spreadTable (6 * 2 ^ 29) 'f') (6 * 2 ^ 29) =
        .ok (12, 0)) ∧
    (UnsortedTable.Reachable ({ storage := [] } : UnsortedTable Char) ∧
      UnsortedTable.find ({ storage := [] } : UnsortedTable Char) 2 =
        .ok (UnsortedTable.end_ ({ storage := [] } : UnsortedTable Char)) ∧
      ∃ t' it, UnsortedTable.insert ({ storage := [] } : UnsortedTable Char) 2 'b' =
          .ok (t', it, true) ∧
        UnsortedTable.find t' 2 = .ok it) ∧
    (SortedTable.Reachable ({ storage := [(1, 'a'), (2, 'b'), (3, 'c')] } : SortedTable Char) ∧
      SortedTable.find ({ storage := [(1, 'a'), (2, 'b'), (3, 'c')] } : SortedTable Char) 0 =
        .ok (SortedTable.end_
          ({ storage := [(1, 'a'), (2, 'b'), (3, 'c')] } : SortedTable Char)) ∧
      ∃ t' it, SortedTable.insert
          ({ storage := [(1, 'a'), (2, 'b'), (3, 'c')] } : SortedTable Char) 0 'z' =
          .ok (t', it, true) ∧
        SortedTable.find t' 0 = .ok it) :=
  ⟨⟨HashTableOpenAddressing.reachable_spreadTable, by decide,
      (insert_locator_is_find (V := Char)).1 _ (6 * 2 ^ 29) 'f'
        HashTableOpenAddressing.reachable_spreadTable (by decide),
      by decide!, by decide!⟩,
   ⟨HashTableSeparateChaining.sc_reachable_spreadTable, by decide,
      (insert_locator_is_find (V := Char)).2.1 _ (6 * 2 ^ 29) 'f'
        HashTableSeparateChaining.sc_reachable_spreadTable (by decide) (by decide),
      by decide!⟩,
   ⟨UnsortedTable.Reachable.empty, by decide,
      (insert_locator_is_find (V := Char)).2.2.1 _ 2 'b' UnsortedTable.Reachable.empty
        (by decide)⟩,
   ⟨SortedTable.reachable_sample, by decide,
      (insert_locator_is_find (V := Char)).2.2.2 _ 0 'z' SortedTable.reachable_sample
        (by decide)⟩⟩

end PanovaElena

namespace PanovaElena

namespace HashTableOpenAddressing

/-! ## The probe index -/

theorem getProbeSequenceElem_ok (n h i : Nat) (hn : n ≠ 0) :
    getProbeSequenceElem n h i = .ok (probe n h i) := by
  unfold getProbeSequenceElem
  rw [if_neg hn]
  rfl

theorem getProbeSequenceElem_error_iff (n h i : Nat) (e : Err) :
    getProbeSequenceElem n h i = .error e ↔ n = 0 ∧ e = .emptyTable := by
  unfold getProbeSequenceElem
  constructor
  · intro hx
    by_cases hn : n = 0
    · rw [if_pos hn] at hx
      injection hx with hx
      exact ⟨hn, hx.symm⟩
    · rw [if_neg hn] at hx
      exact Except.noConfusion hx
  · intro hx
    rw [if_pos hx.1, hx.2]

/-- C21. Probe index: for a 32-bit hash value `h`, a step `s < 2^32` and a capacity `2^m`
(a power of two, so at least 1), `getProbeSequenceElem(h, s)` returns `(h + s^2) mod 2^m`:
the bitmask with `capacity - 1` is the modulo, the result is below the capacity, and the sum
`h + s * s` fits the 64-bit `size_t`; for every capacity `C`, the call signals an error
exactly when `C = 0`, and the error is `'Empty table'`. -/
theorem probe_index_is_mod (h s m : Nat) (hh : h < 2 ^ 32) (hs : s < 2 ^ 32) :
    getProbeSequenceElem (2 ^ m) h s = .ok ((h + s ^ 2) % 2 ^ m) ∧
    (h + s ^ 2) % 2 ^ m < 2 ^ m ∧
    (h + s * s) &&& (2 ^ m - 1) = (h + s ^ 2) % 2 ^ m ∧
    h + s * s < 2 ^ 64 ∧
    (∀ C, getProbeSequenceElem C h s = .error .emptyTable ↔ C = 0) ∧
    (∀ C e, getProbeSequenceElem C h s = .error e → e = .emptyTable) := by
  have hpos : 0 < 2 ^ m := Nat.pos_pow_of_pos _ (by decide)
  refine ⟨?_, Nat.mod_lt _ hpos, ?_, ?_, ?_, ?_⟩
  · rw [getProbeSequenceElem_ok _ _ _ (Nat.pos_iff_ne_zero.mp hpos), probe_eq_mod, Nat.pow_two]
  · have := probe_eq_mod m h s
    unfold probe at this
    rw [this, Nat.pow_two]
  · have h1 : s * s ≤ (2 ^ 32 - 1) * (2 ^ 32 - 1) :=
      Nat.mul_le_mul (by omega) (by omega)
    norm_num at h1 hh ⊢
    omega
  · intro C
    rw [getProbeSequenceElem_error_iff]
    exact ⟨fun hx => hx.1, fun hx => ⟨hx, rfl⟩⟩
  · intro C e hx
    exact ((getProbeSequenceElem_error_iff C h s e).mp hx).2

/-- Witness of C21: capacity `8 = 2^3` and hash value 0 (the test fixture): the steps
`0..7` give the slots 0, 1, 4, 1, 0, 1, 4, 1; capacity 0 gives the error. -/
theorem probe_index_is_mod_witness :
    (0 < 2 ^ 32 ∧ 3 < 2 ^ 32) ∧
    (getProbeSequenceElem (2 ^ 3) 0 3 = .ok ((0 + 3 ^ 2) % 2 ^ 3) ∧
      (0 + 3 ^ 2) % 2 ^ 3 < 2 ^ 3 ∧
      (0 + 3 * 3) &&& (2 ^ 3 - 1) = (0 + 3 ^ 2) % 2 ^ 3 ∧
      0 + 3 * 3 < 2 ^ 64 ∧
      (∀ C, getProbeSequenceElem C 0 3 = .error .emptyTable ↔ C = 0) ∧
      (∀ C e, getProbeSequenceElem C 0 3 = .error e → e = .emptyTable)) ∧
    (List.range 8).map (getProbeSequenceElem 8 0) =
      [.ok 0, .ok 1, .ok 4, .ok 1, .ok 0, .ok 1, .ok 4, .ok 1] ∧
    getProbeSequenceElem 0 0 3 = .error .emptyTable :=
  ⟨⟨by decide, by decide⟩, probe_index_is_mod 0 3 3 (by decide) (by decide), by decide,
    by decide⟩

end HashTableOpenAddressing

end PanovaElena

namespace PanovaElena

namespace HashTableOpenAddressing

variable {V : Type} [Inhabited V]

/-! ## The labels of the cells and the probe paths -/

theorem label_cases (l : HashTableOpenAddressingCellLabel)
    (h : ¬ (l.is_cell_not_empty = true ∧ l.is_element_was_deleted = true)) :
    l = ⟨false, false⟩ ∨ l = ⟨true, false⟩ ∨ l = ⟨false, true⟩ := by
  cases l with
  | mk o d =>
    cases o <;> cases d
    · exact Or.inl rfl
    · exact Or.inr (Or.inr rfl)
    · exact Or.inr (Or.inl rfl)
    · exact absurd ⟨rfl, rfl⟩ h

/-- C22. Slot-label invariant: in every open-addressing state reachable from construction by
`insert`/`erase`/`clear`, every slot has one of the labels `(false,false)`, `(true,false)`,
`(false,true)`: no slot has both flags set; and every `repack` of such a state that returns
yields a state with the same property. -/
theorem slot_labels_legal (t : HashTableOpenAddressing V) (hr : Reachable t) :
    (∀ c, c ∈ t.storage →
      (c.label = ⟨false, false⟩ ∨ c.label = ⟨true, false⟩ ∨ c.label = ⟨false, true⟩) ∧
      ¬ (c.label.is_cell_not_empty = true ∧ c.label.is_element_was_deleted = true)) ∧
    (∀ fuel tr, repack fuel t = .ok tr → ∀ c, c ∈ tr.storage →
      (c.label = ⟨false, false⟩ ∨ c.label = ⟨true, false⟩ ∨ c.label = ⟨false, true⟩)) := by
  have hg := (inv_of_reachable t hr).good
  constructor
  · intro c hc
    exact ⟨label_cases _ (hg.labels c hc), hg.labels c hc⟩
  · intro fuel tr h c hc
    exact label_cases _ (((repack_post fuel t tr h).2 hg).labels c hc)

/-- Witness of C22: the table of the test fixture after `insert(0)`, `erase(0)`, the inserts
of `i * 2^29`, `i = 1..5`, and the insert of `6 * 2^29`, which repacks to capacity 16: one
tombstone (slot 0), six occupied slots, nine untouched ones. -/
theorem slot_labels_legal_witness :
    Reachable (afterInsert 2 erasedThenFilled (6 * 2 ^ 29) 'f') ∧
    (afterInsert 2 erasedThenFilled (6 * 2 ^ 29) 'f').storage.map (fun c => c.label) =
      [⟨false, true⟩, ⟨false, false⟩, ⟨true, false⟩, ⟨false, false⟩,
       ⟨true, false⟩, ⟨false, false⟩, ⟨true, false⟩, ⟨false, false⟩,
       ⟨true, false⟩, ⟨false, false⟩, ⟨true, false⟩, ⟨false, false⟩,
       ⟨true, false⟩, ⟨false, false⟩, ⟨false, false⟩, ⟨false, false⟩] ∧
    (∀ c, c ∈ (afterInsert 2 erasedThenFilled (6 * 2 ^ 29) 'f').storage →
      (c.label = ⟨false, false⟩ ∨ c.label = ⟨true, false⟩ ∨ c.label = ⟨false, true⟩) ∧
      ¬ (c.label.is_cell_not_empty = true ∧ c.label.is_element_was_deleted = true)) :=
  ⟨reachable_afterInsert 2 _ _ _ reachable_erasedThenFilled, by decide!,
   (slot_labels_legal _ (reachable_afterInsert 2 _ _ _ reachable_erasedThenFilled)).1⟩

/-- C25. Probe-path invariant of open addressing: in every state reachable from construction
by `insert`/`erase`/`clear`, for every occupied slot `c`, holding key `k`, there is a step
`s < capacity` with `(hash(k) + s^2) mod capacity = c` such that no slot visited at the steps
`0..s-1` of the probe sequence of `k` is untouched and none of them is occupied with `k`;
and `find(k)` returns the slot `c`. -/
theorem probe_path_invariant (t : HashTableOpenAddressing V) (hr : Reachable t) (c : Nat)
    (hc : c < t.storage.length)
    (ho : (cellAt t.storage c).label.is_cell_not_empty = true) :
    (∃ s, s < t.storage.length ∧
      specSlot t.storage (hash t.a t.M (keyAt t c)) s = c ∧
      ∀ j, j < s →
        untouched (cellAt t.storage (specSlot t.storage (hash t.a t.M (keyAt t c)) j)) =
          false ∧
        occupiedWith (cellAt t.storage (specSlot t.storage (hash t.a t.M (keyAt t c)) j))
          (keyAt t c) = false) ∧
    find t (keyAt t c) = .ok c := by
  have hg := (inv_of_reachable t hr).good
  have hpos : 0 < t.storage.length := Nat.lt_of_le_of_lt (Nat.zero_le _) hc
  have hlive := isLive_of_occupied t.storage hg.labels c hc ho
  have hf : findIn t.storage (keyAt t c) (hash t.a t.M (keyAt t c)) = c :=
    hg.fnd c _ hc hlive
  have hne : findIn t.storage (keyAt t c) (hash t.a t.M (keyAt t c)) ≠ t.storage.length := by
    rw [hf]; exact Nat.ne_of_lt hc
  obtain ⟨s, hs, hbefore, hps, _, _⟩ := findIn_hit _ _ _ hne
  refine ⟨⟨s, hs, ?_, ?_⟩, ?_⟩
  · rw [specSlot_eq_probe t.storage t.M _ s hg.wf, hps, hf]
  · intro j hj
    rw [specSlot_eq_probe t.storage t.M _ j hg.wf]
    have hstop := hbefore j hj
    have hmem := cellAt_mem t.storage _
      (probe_lt t.storage.length (hash t.a t.M (keyAt t c)) j hpos)
    rw [← specStop_eq_findStop _ _ (hg.labels _ hmem), Bool.or_eq_false_iff] at hstop
    exact hstop
  · rw [find_eq, hf]

/-- Witness of C25: capacity 8, the keys 0, 1, 2 in the slots 0, 1, 4, then `erase(1)`; key
2 sits in slot 4, at step 2 of its probe sequence 0, 1, 4; step 0 meets the slot of key 0
and step 1 the tombstone. -/
theorem probe_path_invariant_witness :
    Reachable (afterErase collisionTable 1) ∧
    4 < (afterErase collisionTable 1).storage.length ∧
    cellAt (afterErase collisionTable 1).storage 4 = ⟨2, 'c', ⟨true, false⟩⟩ ∧
    (cellAt (afterErase collisionTable 1).storage 1).label = ⟨false, true⟩ ∧
    specSlot (afterErase collisionTable 1).storage 0 2 = 4 ∧
    ((∃ s, s < (afterErase collisionTable 1).storage.length ∧
      specSlot (afterErase collisionTable 1).storage
        (hash (afterErase collisionTable 1).a (afterErase collisionTable 1).M
          (keyAt (afterErase collisionTable 1) 4)) s = 4 ∧
      ∀ j, j < s →
        untouched (cellAt (afterErase collisionTable 1).storage
          (specSlot (afterErase collisionTable 1).storage
            (hash (afterErase collisionTable 1).a (afterErase collisionTable 1).M
              (keyAt (afterErase collisionTable 1) 4)) j)) = false ∧
        occupiedWith (cellAt (afterErase collisionTable 1).storage
          (specSlot (afterErase collisionTable 1).storage
            (hash (afterErase collisionTable 1).a (afterErase collisionTable 1).M
              (keyAt (afterErase collisionTable 1) 4)) j))
          (keyAt (afterErase collisionTable 1) 4) = false) ∧
      find (afterErase collisionTable 1) (keyAt (afterErase collisionTable 1) 4) = .ok 4) :=
  ⟨reachable_afterErase _ _ reachable_collisionTable, by decide, by decide, by decide,
   by decide,
   probe_path_invariant (afterErase collisionTable 1)
     (reachable_afterErase _ _ reachable_collisionTable) 4 (by decide) (by decide)⟩

end HashTableOpenAddressing

end PanovaElena

namespace PanovaElena

namespace HashTableSeparateChaining

variable {V : Type}

/-! ## `insertWithoutSearch` and `repack` of the separate-chaining table -/

theorem hash_lt_of_built (t : HashTableSeparateChaining V) (hb : Built t) (key : Nat) :
    hash t.a t.M key < t.storage.length := by
  rw [hb.wf]
  exact hash_lt _ _ _

theorem trans_size (t tm : HashTableSeparateChaining V) (h : Trans t tm) (hb : Built t) :
    tm.size = t.size := by
  rcases h.grown with ⟨heq, _⟩ | ⟨_, hbm⟩
  · rw [heq]
  · rw [hbm.size_eq, hb.size_eq]
    exact h.perm.length_eq

/-- C23. Separate-chaining `insertWithoutSearch(k, v)`, on a state with capacity `2^M`, the
entries in the lists of their hash values, `size` the number of entries and the load factor
within the bound (every reachable state is one, and so are the states with duplicate keys
that repeated calls produce): the call returns, with or without a `repack`; afterwards the
first entry of the list of `hash(k)` (under the new exponent) is `(k, v)`, the returned
locator points to it, and the live count is one more than before; when no growth is
triggered (`size + 1 ≤ floor(0.7 * capacity)`), the rest of that list is the old list in its
old order and every other list, `M`, the multiplier and the capacity are unchanged.  No
hypothesis excludes a table that already holds `k`. -/
theorem sc_insertWithoutSearch_prepends (t : HashTableSeparateChaining V) (key : Nat)
    (elem : V) (hb : Built t) (hload : t.size ≤ fillLimit t.storage.length) :
    ∃ t' it, insertWithoutSearch 2 t key elem = .ok (t', it) ∧
      (∀ fuel r, insertWithoutSearch fuel t key elem = .ok r → r = (t', it)) ∧
      (t'.storage.getD (hash t'.a t'.M key) []).head? = some (key, elem) ∧
      it = (hash t'.a t'.M key, 0) ∧
      getSize t' = getSize t + 1 ∧
      (t.size + 1 ≤ fillLimit t.storage.length →
        t'.M = t.M ∧ t'.a = t.a ∧ t'.storage.length = t.storage.length ∧
        t'.storage.getD (hash t.a t.M key) [] =
          (key, elem) :: t.storage.getD (hash t.a t.M key) [] ∧
        ∀ i, i ≠ hash t.a t.M key → t'.storage.getD i [] = t.storage.getD i []) := by
  obtain ⟨r, hr⟩ := sc_insertWithoutSearch_terminates t hb hload key elem
  obtain ⟨tm, htr, hr1, hr2⟩ := sc_insertWithoutSearch_post 2 t key elem r hr
  have hbm := trans_built t tm htr hb
  have hlt := hash_lt_of_built tm hbm key
  have hbucket : (push tm key elem).storage.getD (hash tm.a tm.M key) [] =
      (key, elem) :: tm.storage.getD (hash tm.a tm.M key) [] := by
    rw [push_getD tm key elem _ hlt, if_pos rfl]
  refine ⟨r.1, r.2, hr, ?_, ?_, ?_, ?_, ?_⟩
  · intro fuel r' hr'
    exact sc_insertWithoutSearch_det fuel 2 t key elem r' r hr' hr
  · rw [hr1]
    show ((push tm key elem).storage.getD (hash tm.a tm.M key) []).head? = _
    rw [hbucket]
    rfl
  · rw [hr2, hr1]
    show iterator (push tm key elem).storage (hash tm.a tm.M key) 0 = (hash tm.a tm.M key, 0)
    apply iterator_of_ne
    rw [hbucket, List.length_cons]
    omega
  · rw [hr1]
    show tm.size + 1 = t.size + 1
    rw [trans_size t tm htr hb]
  · intro hno
    have h1 := insertWithoutSearch_one t key elem hno
    have heq := sc_insertWithoutSearch_det 2 1 t key elem r _ hr h1
    have hr1' : r.1 = push t key elem := by rw [heq]
    have hlt' := hash_lt_of_built t hb key
    rw [hr1']
    refine ⟨rfl, rfl, List.length_set _ _ _, ?_, ?_⟩
    · rw [push_getD t key elem _ hlt', if_pos rfl]
    · intro i hi
      rw [push_getD t key elem _ hlt', if_neg hi]

/-- Witness of C23: in the table of the test fixture with the keys 0, 1, 2 (all in the list
of cell 0), `insertWithoutSearch(0, 'z')` prepends a second entry with key 0; in the table
with the five keys `i * 2^29` the call for `6 * 2^29` repacks to capacity 16 and the entry
is the head of the list of cell 12, with live count 6. -/
theorem sc_insertWithoutSearch_prepends_witness :
    (Built collisionTable ∧
      collisionTable.size ≤ fillLimit collisionTable.storage.length ∧
      collisionTable.size + 1 ≤ fillLimit collisionTable.storage.length) ∧
    collisionTable.storage.getD 0 [] = [(2, 'c'), (1, 'b'), (0, 'a')] ∧
    insertWithoutSearch 2 collisionTable 0 'z' =
      .ok ({ collisionTable with
              storage := [[(0, 'z'), (2, 'c'), (1, 'b'), (0, 'a')], [], [], [], [], [], [], []],
              size := 4 }, (0, 0)) ∧
    (∃ t' it, insertWithoutSearch 2 collisionTable 0 'z' = .ok (t', it) ∧
      (∀ fuel r, insertWithoutSearch fuel collisionTable 0 'z' = .ok r → r = (t', it)) ∧
      (t'.storage.getD (hash t'.a t'.M 0) []).head? = some (0, 'z') ∧
      it = (hash t'.a t'.M 0, 0) ∧
      getSize t' = getSize collisionTable + 1 ∧
      (collisionTable.size + 1 ≤ fillLimit collisionTable.storage.length →
        t'.M = collisionTable.M ∧ t'.a = collisionTable.a ∧
        t'.storage.length = collisionTable.storage.length ∧
        t'.storage.getD (hash collisionTable.a collisionTable.M 0) [] =
          (0, 'z') :: collisionTable.storage.getD (hash collisionTable.a collisionTable.M 0) [] ∧
        ∀ i, i ≠ hash collisionTable.a collisionTable.M 0 →
          t'.storage.getD i [] = collisionTable.storage.getD i [])) ∧
    (spreadTable.size + 1 > fillLimit spreadTable.storage.length ∧
      (insertWithoutSearch 2 spreadTable (6 * 2 ^ 29) 'f').toOption.map
          (fun r => (r.1.storage.length, r.1.size, r.1.storage.getD 12 [], r.2)) =
        some (16, 6, [(6 * 2 ^ 29, 'f')], (12, 0))) :=
  ⟨⟨(sc_inv_of_reachable _ sc_reachable_collisionTable).built, by decide, by decide⟩,
   by decide, by decide,
   sc_insertWithoutSearch_prepends collisionTable 0 'z'
     (sc_inv_of_reachable _ sc_reachable_collisionTable).built (by decide),
   by decide, by decide!⟩

end HashTableSeparateChaining

end PanovaElena

namespace PanovaElena

namespace HashTableSeparateChaining

variable {V : Type}

theorem sc_repack_mono (fuel fuel' : Nat) (hle : fuel ≤ fuel')
    (t r : HashTableSeparateChaining V) (h : repack fuel t = .ok r) :
    repack fuel' t = .ok r :=
  sc_repackLoop_mono _ _
    (fun p key elem r' hr' => sc_insertWithoutSearch_mono fuel fuel' hle p key elem r' hr')
    _ _ _ h

/-- C24. Separate-chaining `repack`, from a state with capacity `2^M`, the entries in the
lists of their hash values, `size` the number of entries and the load factor within the
bound: the call returns, already with the least budget for its reinsertions; `M` is
incremented by exactly one (every `repack` increments `M`, so no nested `repack` ran), the
capacity doubles, the multiplier is unchanged, the entries of the new lists are a
permutation of the old entries (each old entry once, nothing else), and the live count is
the same. -/
theorem sc_repack_doubles_keeps_entries (t : HashTableSeparateChaining V) (hb : Built t)
    (hload : t.size ≤ fillLimit t.storage.length) :
    ∃ t', repack 1 t = .ok t' ∧
      (∀ fuel r, repack fuel t = .ok r → r = t') ∧
      t'.M = t.M + 1 ∧ t'.storage.length = 2 * t.storage.length ∧ t'.a = t.a ∧
      (entries t'.storage).Perm (entries t.storage) ∧
      getSize t' = getSize t ∧
      t'.storage.length = 2 ^ t'.M := by
  have hlen0 : (List.replicate (getTableSize (t.M + 1)) ([] : List (Nat × V))).length =
      2 ^ (t.M + 1) := by
    rw [List.length_replicate, getTableSize_eq]
  have hfill : 0 + (entries t.storage).length ≤
      fillLimit (List.replicate (getTableSize (t.M + 1)) ([] : List (Nat × V))).length := by
    rw [hlen0, Nat.zero_add, ← hb.size_eq]
    refine Nat.le_trans hload ?_
    rw [hb.wf]
    exact fillLimit_mono (Nat.pow_le_pow_right (by decide) (Nat.le_succ _))
  obtain ⟨pf, hpf, hsize, hlen⟩ := repackLoop_one t.storage
    { t with M := t.M + 1, storage := List.replicate (getTableSize (t.M + 1)) [], size := 0 }
    hfill
  have hrep : repack 1 t = .ok pf := hpf
  obtain ⟨ha, _, hbf, hperm⟩ := sc_repackWith_post (insertWithoutSearch 1)
    (fun p key elem r hr => sc_insertWithoutSearch_post 1 p key elem r hr) t pf hpf
  have hlen' : pf.storage.length = 2 ^ (t.M + 1) := by
    rw [hlen]; exact hlen0
  have hM : pf.M = t.M + 1 := by
    have := hbf.wf
    rw [hlen'] at this
    exact (Nat.pow_right_injective (Nat.le_refl 2) this).symm
  refine ⟨pf, hrep, ?_, hM, ?_, ha, hperm, ?_, hbf.wf⟩
  · intro fuel r hr
    have h1 := sc_repack_mono fuel (fuel + 1) (Nat.le_succ _) t r hr
    have h2 := sc_repack_mono 1 (fuel + 1) (by omega) t pf hrep
    rw [h1] at h2
    injection h2
  · rw [hlen', hb.wf, Nat.pow_succ]
    omega
  · show pf.size = t.size
    rw [hsize, hb.size_eq]
    exact Nat.zero_add _

/-- Witness of C24: the table of the test fixture with the colliding keys 0, 1, 2 in the
list of cell 0: `repack` takes capacity 8 to 16 and `M` from 3 to 4 and keeps the three
entries (reversed in the list of cell 0) and the live count 3. -/
theorem sc_repack_doubles_keeps_entries_witness :
    (Built collisionTable ∧ collisionTable.size ≤ fillLimit collisionTable.storage.length) ∧
    collisionTable.storage.getD 0 [] = [(2, 'c'), (1, 'b'), (0, 'a')] ∧
    repack 1 collisionTable =
      .ok { storage := [[(0, 'a'), (1, 'b'), (2, 'c')], [], [], [], [], [], [], [],
                        [], [], [], [], [], [], [], []],
            size := 3, a := 1, M := 4 } ∧
    (∃ t', repack 1 collisionTable = .ok t' ∧
      (∀ fuel r, repack fuel collisionTable = .ok r → r = t') ∧
      t'.M = collisionTable.M + 1 ∧
      t'.storage.length = 2 * collisionTable.storage.length ∧ t'.a = collisionTable.a ∧
      (entries t'.storage).Perm (entries collisionTable.storage) ∧
      getSize t' = getSize collisionTable ∧
      t'.storage.length = 2 ^ t'.M) :=
  ⟨⟨(sc_inv_of_reachable _ sc_reachable_collisionTable).built, by decide⟩, by decide,
   by decide,
   sc_repack_doubles_keeps_entries collisionTable
     (sc_inv_of_reachable _ sc_reachable_collisionTable).built (by decide)⟩

/-- C26. Bucket-placement invariant of separate chaining: in every state reachable from
construction by `insert`/`erase`/`clear`, every entry stored in the list of cell `i` has
`hash(key) = i` under the current exponent `M` and multiplier; hence `eraseWithoutSearch`
through the locator of an entry re-hashes the key to the cell of the locator and unlinks the
entry from the list that holds it: that list loses exactly the located entry and every
other list is unchanged. -/
theorem bucket_placement_invariant (t : HashTableSeparateChaining V) (hr : Reachable t) :
    (∀ i, i < t.storage.length → ∀ e, e ∈ t.storage.getD i [] → hash t.a t.M e.1 = i) ∧
    (∀ p e, entryAt t p = some e →
      p.1 < t.storage.length ∧ hash t.a t.M e.1 = p.1 ∧
      ∃ t', eraseWithoutSearch t p = .ok t' ∧
        t'.storage.getD p.1 [] = (t.storage.getD p.1 []).eraseIdx p.2 ∧
        (∀ i, i ≠ p.1 → t'.storage.getD i [] = t.storage.getD i []) ∧
        t'.storage.length = t.storage.length ∧ t'.size = decr32 t.size) := by
  have hinv := sc_inv_of_reachable t hr
  refine ⟨hinv.built.placed, ?_⟩
  intro p e he
  have he' : (t.storage.getD p.1 [])[p.2]? = some e := he
  have hmem : e ∈ t.storage.getD p.1 [] := List.mem_iff_getElem?.mpr ⟨p.2, he'⟩
  have hp : p.1 < t.storage.length := by
    rcases Nat.lt_or_ge p.1 t.storage.length with h | h
    · exact h
    · exfalso
      have : t.storage.getD p.1 [] = [] := by
        rw [List.getD_eq_getElem?_getD, List.getElem?_eq_none h]
        rfl
      rw [this] at hmem
      exact absurd hmem (List.not_mem_nil _)
  have hh : hash t.a t.M e.1 = p.1 := hinv.built.placed p.1 hp e hmem
  refine ⟨hp, hh, unlink t p.1 p.2, ?_, ?_, ?_, List.length_set _ _ _, rfl⟩
  · unfold eraseWithoutSearch
    rw [he']
    dsimp only
    rw [if_pos hh, hh]
    rfl
  · rw [unlink_getD, if_pos rfl]
  · intro i hi
    rw [unlink_getD, if_neg hi]

/-- Witness of C26: in the table of the test fixture with the keys 0, 1, 2, the entry
`(1, 'b')` at position 1 of the list of cell 0 hashes to cell 0, and erasing through its
locator leaves `(2, 'c')`, `(0, 'a')` in that list. -/
theorem bucket_placement_invariant_witness :
    Reachable collisionTable ∧
    entryAt collisionTable (0, 1) = some (1, 'b') ∧
    hash collisionTable.a collisionTable.M 1 = 0 ∧
    (eraseWithoutSearch collisionTable (0, 1)).toOption.map
        (fun t' => (t'.storage.getD 0 [], t'.size)) =
      some ([(2, 'c'), (0, 'a')], 2) ∧
    (∀ i, i < collisionTable.storage.length → ∀ e, e ∈ collisionTable.storage.getD i [] →
      hash collisionTable.a collisionTable.M e.1 = i) :=
  ⟨sc_reachable_collisionTable, by decide, by decide, by decide,
   (bucket_placement_invariant collisionTable sc_reachable_collisionTable).1⟩

end HashTableSeparateChaining

end PanovaElena

namespace PanovaElena

/-! ## The shifts that C++ leaves undefined -/

/-- Where the shift of `hash` is defined, `hashChecked` is `hash`. -/
theorem hashChecked_eq (a M key : Nat) (h1 : 1 ≤ M) (h2 : M ≤ 32) :
    hashChecked a M key = .ok (hash a M key) := by
  unfold hashChecked hash W
  have hc : (32 + 2 ^ 32 - M % 2 ^ 32) % 2 ^ 32 = 32 - M := by omega
  rw [hc, if_pos (by omega)]

/-- The shift of `hash` is undefined at exponent 0 and at every 32-bit exponent above
32. -/
theorem hashChecked_undefined (a M key : Nat) (h : M = 0 ∨ (32 < M ∧ M < 2 ^ 32)) :
    hashChecked a M key = .error .undefinedShift := by
  unfold hashChecked W
  rw [if_neg (by omega)]

/-- Where the shift of `getTableSize` is defined, `getTableSizeChecked` is
`getTableSize`. -/
theorem getTableSizeChecked_eq (M : Nat) (h : M < 32) :
    getTableSizeChecked M = .ok (getTableSize M) := by
  unfold getTableSizeChecked W
  rw [if_pos h, getTableSize_eq, Nat.shiftLeft_eq, Nat.one_mul,
    Nat.mod_eq_of_lt (Nat.pow_lt_pow_right (by decide) h)]

namespace HashTableOpenAddressing

variable {V : Type} [Inhabited V]

theorem constructChecked_eq (M a : Nat) (h : M < 32) :
    (constructChecked M a : Except Err (HashTableOpenAddressing V)) = .ok (construct M a) := by
  unfold constructChecked
  rw [getTableSizeChecked_eq M h]
  rfl

end HashTableOpenAddressing

namespace HashTableSeparateChaining

variable {V : Type}

theorem sc_constructChecked_eq (M a : Nat) (h : M < 32) :
    (constructChecked M a : Except Err (HashTableSeparateChaining V)) = .ok (construct M a) := by
  unfold constructChecked
  rw [getTableSizeChecked_eq M h]
  rfl

/-- On a table with exponent `1 ≤ M ≤ 32` the checked `find` is `find`. -/
theorem findChecked_eq (t : HashTableSeparateChaining V) (key : Nat) (h1 : 1 ≤ t.M)
    (h2 : t.M ≤ 32) : findChecked t key = find t key := by
  unfold findChecked
  rw [hashChecked_eq t.a t.M key h1 h2]
  rfl

theorem insertChecked_eq (fuel : Nat) (t : HashTableSeparateChaining V) (key : Nat) (elem : V)
    (h1 : 1 ≤ t.M) (h2 : t.M ≤ 32) : insertChecked fuel t key elem = insert fuel t key elem := by
  unfold insertChecked insert Table.insert
  have hf : (derivedChecked (V := V) fuel).find t key = (derived (V := V) fuel).find t key :=
    findChecked_eq t key h1 h2
  rw [hf]
  rfl

theorem eraseChecked_eq (t : HashTableSeparateChaining V) (key : Nat)
    (h1 : 1 ≤ t.M) (h2 : t.M ≤ 32) : eraseChecked t key = erase t key := by
  unfold eraseChecked erase Table.erase
  have hf : (derivedChecked (V := V) 0).find t key = (derived (V := V) 0).find t key :=
    findChecked_eq t key h1 h2
  rw [hf]
  rfl

/-- On the table of exponent 0 the `hash` of `find` has no defined value, whatever the
multiplier and the key: `find`, `insert` and `erase` are undefined there. -/
theorem checked_undefined_at_zero (t : HashTableSeparateChaining V) (key : Nat) (h0 : t.M = 0) :
    findChecked t key = .error .undefinedShift ∧
    (∀ fuel elem, insertChecked fuel t key elem = .error .undefinedShift) ∧
    eraseChecked t key = .error .undefinedShift := by
  have hh : hashChecked t.a t.M key = .error .undefinedShift :=
    hashChecked_undefined _ _ _ (Or.inl h0)
  have hf : findChecked t key = .error .undefinedShift := by
    unfold findChecked
    rw [hh]
  refine ⟨hf, ?_, ?_⟩
  · intro fuel elem
    unfold insertChecked Table.insert
    have : (derivedChecked (V := V) fuel).find t key = .error .undefinedShift := hf
    rw [this]
  · unfold eraseChecked Table.erase
    have : (derivedChecked (V := V) 0).find t key = .error .undefinedShift := hf
    rw [this]

end HashTableSeparateChaining

end PanovaElena

namespace PanovaElena

/-! ## The separate-chaining table of exponent 0, and construction with exponent 32 -/

namespace HashTableSeparateChaining

/-- C2, at the failing input `HashTableSeparateChaining(0)`, multiplier 1, `insert(5, 'a')`.
The table of exponent 0 is built like any other (one list, capacity `2^0`) and is a
reachable state; the `insert` first calls `find(5)`, whose `hash(5)` shifts a `uint32_t` by
`W - M = 32`, so the call has no defined result (and the unshifted product 5 is no index of
the one-list storage), where the claim has `insert` return `true` and `find(5)` yield
`'a'` afterwards. -/
theorem sc_insert_undefined_at_exponent_zero :
    (constructChecked 0 1 : Except Err (HashTableSeparateChaining Char)) =
      .ok (construct 0 1) ∧
    Reachable (construct 0 1 : HashTableSeparateChaining Char) ∧
    (construct 0 1 : HashTableSeparateChaining Char).storage = [[]] ∧
    hashChecked 1 0 5 = .error .undefinedShift ∧
    ¬ ((1 * 5) % 2 ^ 64 % 2 ^ 32 <
      (construct 0 1 : HashTableSeparateChaining Char).storage.length) ∧
    findChecked (construct 0 1 : HashTableSeparateChaining Char) 5 =
      .error .undefinedShift ∧
    (∀ fuel, insertChecked fuel (construct 0 1 : HashTableSeparateChaining Char) 5 'a' =
      .error .undefinedShift) :=
  ⟨by decide, Reachable.construct 0 1, by decide, by decide, by decide, by decide,
   fun fuel => (checked_undefined_at_zero (construct 0 1) 5 rfl).2.1 fuel 'a'⟩

/-- C3, at the failing input `HashTableSeparateChaining(0)`, multiplier 1, `erase(5)`.  On
the reachable table of exponent 0, `erase(5)` first calls `find(5)`, whose `hash(5)` shifts
a `uint32_t` by 32: the call has no defined result, where the claim has it return `false`
(the table is empty, so `find(5)` should be a miss). -/
theorem sc_erase_undefined_at_exponent_zero :
    Reachable (construct 0 1 : HashTableSeparateChaining Char) ∧
    getSize (construct 0 1 : HashTableSeparateChaining Char) = 0 ∧
    entries (construct 0 1 : HashTableSeparateChaining Char).storage = [] ∧
    hashChecked (construct 0 1 : HashTableSeparateChaining Char).a
      (construct 0 1 : HashTableSeparateChaining Char).M 5 = .error .undefinedShift ∧
    eraseChecked (construct 0 1 : HashTableSeparateChaining Char) 5 =
      .error .undefinedShift :=
  ⟨Reachable.construct 0 1, by decide, by decide, by decide, by decide⟩

/-- C9, at the failing input `HashTableSeparateChaining(0)`, multiplier 1, `insert(7, 'g')`.
The fresh table of exponent 0 has capacity 1 and live count 0, so `n + 1 > floor(0.7 * C)`
and, holding no key, it is a table filled by inserts of distinct keys only; the `insert` of
the absent key 7 has no defined result, because its `find(7)` shifts by 32, where the claim
has the capacity grow and the key be found afterwards. -/
theorem sc_growing_insert_undefined_at_exponent_zero :
    Filled (construct 0 1 : HashTableSeparateChaining Char) [] ∧
    (construct 0 1 : HashTableSeparateChaining Char).storage.length = 1 ∧
    getSize (construct 0 1 : HashTableSeparateChaining Char) + 1 >
      fillLimit (construct 0 1 : HashTableSeparateChaining Char).storage.length ∧
    (∀ fuel, insertChecked fuel (construct 0 1 : HashTableSeparateChaining Char) 7 'g' =
      .error .undefinedShift) :=
  ⟨Filled.construct 0 1, by decide, by decide,
   fun fuel => (checked_undefined_at_zero (construct 0 1) 7 rfl).2.1 fuel 'g'⟩

/-- C14, at the failing input `HashTableSeparateChaining(0)`, multiplier 1,
`insert(2, 'b')` and then `find(2)`.  On the reachable table of exponent 0 neither call
has a defined result (each evaluates `hash(2)` with a shift by 32): no budget makes the
`insert` return a locator, where the claim has it return the locator that `find(2)`
returns afterwards. -/
theorem sc_insert_locator_undefined_at_exponent_zero :
    Reachable (construct 0 1 : HashTableSeparateChaining Char) ∧
    (∀ fuel r, insertChecked fuel (construct 0 1 : HashTableSeparateChaining Char) 2 'b' ≠
      .ok r) ∧
    (∀ it, findChecked (construct 0 1 : HashTableSeparateChaining Char) 2 ≠ .ok it) := by
  refine ⟨Reachable.construct 0 1, ?_, ?_⟩
  · intro fuel r h
    rw [(checked_undefined_at_zero (construct 0 1) 2 rfl).2.1 fuel 'b'] at h
    exact Except.noConfusion h
  · intro it h
    rw [(checked_undefined_at_zero (construct 0 1 : HashTableSeparateChaining Char) 2
      rfl).1] at h
    exact Except.noConfusion h

end HashTableSeparateChaining

/-- C16, at the failing input: construction with exponent 32, of either hash table.
`getTableSize(32)` is `uint32_t(1) << 32`, a shift by the width of the type, which is
undefined: the constructors yield no table of capacity `2^32` (the claimed `2^M` is not even
a `uint32_t`), where the claim has the length of the backing array equal `2^M` in every
state reachable from construction.  At exponent 31 the shift is still defined and gives
`2^31`. -/
theorem capacity_undefined_at_exponent_32 :
    getTableSizeChecked 32 = .error .undefinedShift ∧
    (HashTableOpenAddressing.constructChecked 32 1 :
      Except Err (HashTableOpenAddressing Char)) = .error .undefinedShift ∧
    (HashTableSeparateChaining.constructChecked 32 1 :
      Except Err (HashTableSeparateChaining Char)) = .error .undefinedShift ∧
    ¬ (getTableSize 32 < 2 ^ 32) ∧
    getTableSizeChecked 31 = .ok (2 ^ 31) :=
  ⟨by decide, by decide, by decide, by decide, by decide⟩

end PanovaElena
